import Mathlib

/-!
Shallow embedding of the algo-visualizer step-event producers
(src/algorithms/sorting.js, src/algorithms/sorting/sortingAlgorithms.js,
src/algorithms/searching/searchingAlgorithms.js) and proofs about them.

JS numbers are modelled as `Int` (all inputs in scope are integer arrays),
JS arrays as `List Int`, generators as functions returning the full finite
list of yielded step events.  Indices reported inside events are modelled
as `Int` because the source can report `-1` (selection sort on `[]` yields
`sorted` with index `steps.length - 1 = -1`).
-/

/-- The closed vocabulary of step events the producers emit.  Field layout
follows the object shapes yielded in the source.  The constructor `cmpEval`
is not an emitted event: it is an instrumentation marker recording the exact
program points where the source evaluates the ascending comparator on two
array positions (used to settle the ordering claim about `compare` events).
The boolean `found: false` payload of search `compare` events is constant
in the source and omitted here. -/
inductive Ev where
  | compare (idxs : List Int) (target : Option Int)
  | swap (i j : Int) (arr : List Int)
  | rangeEv (l r : Int) (target : Int)
  | found (idx : Int) (value : Int)
  | notFound (target : Int)
  | errorEv
  | sortingMark (i : Int)
  | newMin (i : Int)
  | sortedEv (idxs : List Int)
  | currentEv (i : Int)
  | shift (i : Int) (arr : List Int)
  | insertEv (i : Int) (arr : List Int)
  | divide (l r : Int)
  | mergeEv (l m r : Int)
  | place (k : Int) (arr : List Int)
  | copy (k : Int) (arr : List Int)
  | completeRange (l r : Int) (arr : List Int)
  | queueEv (idxs : List Int)
  | stackEv (idxs : List Int)
  | visit (idx : Int) (value : Int) (level : Nat)
  | backtrack (idx : Int)
  | completeTrav (traversal : List Int) (found : Option Bool)
  | cmpEval (i j : Int)
  deriving DecidableEq, Repr

/-- The four spec-terminal tags: `found`, `not-found`, `complete`, `error`.
Both `complete` shapes (merge-sort range completion and traversal
completion) carry the spec tag `complete`. -/
def isTerm4 : Ev → Bool
  | .found _ _ => true
  | .notFound _ => true
  | .errorEv => true
  | .completeRange _ _ _ => true
  | .completeTrav _ _ => true
  | _ => false

def isFoundEv : Ev → Bool
  | .found _ _ => true
  | _ => false

def isNotFoundEv : Ev → Bool
  | .notFound _ => true
  | _ => false

def isErrorEv : Ev → Bool
  | .errorEv => true
  | _ => false

def isCompleteEv : Ev → Bool
  | .completeRange _ _ _ => true
  | .completeTrav _ _ => true
  | _ => false

def isMarker : Ev → Bool
  | .cmpEval _ _ => true
  | _ => false

/-- Number of events in a stream satisfying `p`. -/
def countP (p : Ev → Bool) (es : List Ev) : Nat := (es.filter p).length

/-- The emitted event stream of a producer trace: instrumentation markers
removed. -/
def emitted (es : List Ev) : List Ev := es.filter (fun e => !isMarker e)

/-- JS `arr[i]` for an in-range read of a number array. -/
def getI (l : List Int) (i : Int) : Int := l.getD i.toNat 0

/- ------------------------------------------------------------------
Index-remapping step shared by jumpSearch, interpolationSearch and
exponentialSearch:
  const arrWithIndex = arr.map((value, idx) => ({ value, idx }));
  arrWithIndex.sort((a, b) => a.value - b.value);
  const sortedArr = arrWithIndex.map(obj => obj.value);
`Array.prototype.sort` with this comparator is (per ECMAScript) a stable
sort ascending by `value`; we embed it as `List.insertionSort` by first
component, which is stable.
------------------------------------------------------------------ -/

/-- `arr.map((value, idx) => ({value, idx}))`. -/
def withIdx (arr : List Int) : List (Int × Nat) :=
  (List.range arr.length).map (fun i => (arr.getD i 0, i))

/-- The comparator `(a, b) => a.value - b.value` as an ordering on pairs. -/
def pairLe (a b : Int × Nat) : Prop := a.1 ≤ b.1

instance : DecidableRel pairLe := fun a b => inferInstanceAs (Decidable (a.1 ≤ b.1))

/-- `arrWithIndex` after the in-place stable sort. -/
def sortedWithIdx (arr : List Int) : List (Int × Nat) :=
  (withIdx arr).insertionSort pairLe

/-- `sortedArr = arrWithIndex.map(obj => obj.value)`. -/
def sortedVals (arr : List Int) : List Int := (sortedWithIdx arr).map (·.1)

/-- Original index of sorted position `p` (`arrWithIndex[p].idx`). -/
def origIdx (arr : List Int) (p : Nat) : Nat := ((sortedWithIdx arr).getD p (0, 0)).2

/- ------------------------------------------------------------------
Search producers.
------------------------------------------------------------------ -/

/-- Loop of `linearSearch` from position `i`. -/
def linLoop (arr : List Int) (target : Int) (i : Nat) : List Ev :=
  if h : i < arr.length then
    .compare [(i : Int)] (some target) ::
      (if arr.getD i 0 = target then [.found i target]
       else linLoop arr target (i + 1))
  else [.notFound target]
termination_by arr.length - i

/-- `linearSearch(arr, target)`. -/
def linearSearch (arr : List Int) (target : Int) : List Ev := linLoop arr target 0

/-- Loop of `binarySearch`; `left`/`right` are JS numbers (`right` reaches
`-1`), division is `Math.floor`, matched by `Int` euclidean division on the
non-negative values that occur. -/
def binLoop (arr : List Int) (target : Int) (left right : Int) : List Ev :=
  if left ≤ right then
    let mid : Int := (left + right) / 2
    .rangeEv left right target :: .compare [mid] (some target) ::
      (if getI arr mid = target then [.found mid target]
       else if getI arr mid < target then binLoop arr target (mid + 1) right
       else binLoop arr target left (mid - 1))
  else [.notFound target]
termination_by (right + 1 - left).toNat
decreasing_by
  all_goals omega

/-- `binarySearch(arr, target)`; operates on `arr` as given (no remap). -/
def binarySearch (arr : List Int) (target : Int) : List Ev :=
  binLoop arr target 0 ((arr.length : Int) - 1)

/-- Scan part of `jumpSearch`: linear search inside the located block,
`for (let i = prev; i < Math.min(step, n); i++)`. -/
def jumpScan (sv : List Int) (ix : List (Int × Nat)) (target : Int) (hi i : Nat) :
    List Ev :=
  if h : i < hi then
    .compare [((ix.getD i (0, 0)).2 : Int)] (some target) ::
      (if sv.getD i 0 = target then [.found ((ix.getD i (0, 0)).2 : Int) target]
       else jumpScan sv ix target hi (i + 1))
  else [.notFound target]
termination_by hi - i

/-- Block-probing loop of `jumpSearch`.  In the source `step` is always
`prev + stepSize` at the loop head, carried here as the invariant
hypothesis `hst`; `hss` records `stepSize ≥ 1` (true since `n ≥ 1`). -/
def jumpLoop (sv : List Int) (ix : List (Int × Nat)) (target : Int)
    (stepSize n : Nat) (hss : 0 < stepSize) (prev step : Nat)
    (hst : prev < step) : List Ev :=
  if prev < n ∧ sv.getD (min step n - 1) 0 < target then
    .compare [((ix.getD (min step n - 1) (0, 0)).2 : Int)] (some target) ::
      (if n ≤ step then [.notFound target]
       else jumpLoop sv ix target stepSize n hss step (step + stepSize)
         (by omega))
  else jumpScan sv ix target (min step n) prev
termination_by n - prev

/-- `jumpSearch(arr, target)`.  The source computes the remap before the
empty-array guard; the remap is pure, so event order is unaffected. -/
def jumpSearch (arr : List Int) (target : Int) : List Ev :=
  if h : arr.length = 0 then [.errorEv]
  else
    let sv := sortedVals arr
    let ix := sortedWithIdx arr
    let stepSize := Nat.sqrt arr.length
    jumpLoop sv ix target stepSize arr.length
      (Nat.sqrt_pos.mpr (Nat.pos_of_ne_zero h)) 0 stepSize
      (Nat.sqrt_pos.mpr (Nat.pos_of_ne_zero h))

/-- Main loop of `interpolationSearch`.  The probe estimate
`low + Math.floor(((high - low) / (a[high] - a[low])) * (t - a[low]))`
is exact-real arithmetic floored; on the guard (`a[low] ≤ t ≤ a[high]`,
`a[high] ≠ a[low]`, sorted data) it equals the euclidean quotient below. -/
def interpLoop (sv : List Int) (ix : List (Int × Nat)) (target : Int)
    (low high lastPos : Int) : List Ev :=
  if low ≤ high ∧ getI sv low ≤ target ∧ target ≤ getI sv high then
    if getI sv high = getI sv low then
      if getI sv low = target then
        [.found ((ix.getD low.toNat (0, 0)).2 : Int) target]
      else [.notFound target]
    else
      let pos : Int :=
        low + ((high - low) * (target - getI sv low)) / (getI sv high - getI sv low)
      if pos = lastPos then [.notFound target]
      else if hwin : pos < low ∨ high < pos then [.notFound target]
      else
        .compare [((ix.getD pos.toNat (0, 0)).2 : Int)] (some target) ::
          (if getI sv pos = target then
            [.found ((ix.getD pos.toNat (0, 0)).2 : Int) target]
           else if getI sv pos < target then
            interpLoop sv ix target (pos + 1) high pos
           else interpLoop sv ix target low (pos - 1) pos)
  else [.notFound target]
termination_by (high + 1 - low).toNat
decreasing_by
  all_goals
    push_neg at hwin
    omega

/-- `interpolationSearch(arr, target)`. -/
def interpolationSearch (arr : List Int) (target : Int) : List Ev :=
  if arr.length = 0 then [.errorEv]
  else interpLoop (sortedVals arr) (sortedWithIdx arr) target 0
    ((arr.length : Int) - 1) (-1)

/-- Range scan of `exponentialSearch`, `for (let j = low; j <= high; j++)`. -/
def expScan (sv : List Int) (ix : List (Int × Nat)) (target : Int) (hi j : Nat) :
    List Ev :=
  if h : j ≤ hi then
    .compare [((ix.getD j (0, 0)).2 : Int)] (some target) ::
      (if sv.getD j 0 = target then [.found ((ix.getD j (0, 0)).2 : Int) target]
       else expScan sv ix target hi (j + 1))
  else [.notFound target]
termination_by hi + 1 - j

/-- Doubling loop of `exponentialSearch` (`while (i < n && a[i] < t) i *= 2`);
`hi1` records `i ≥ 1`, true from the initial value `1`. -/
def expLoop (sv : List Int) (ix : List (Int × Nat)) (target : Int) (n i : Nat)
    (hi1 : 0 < i) : List Ev :=
  if i < n ∧ sv.getD i 0 < target then
    .compare [((ix.getD i (0, 0)).2 : Int)] (some target) ::
      expLoop sv ix target n (2 * i) (by omega)
  else expScan sv ix target (min i (n - 1)) (i / 2)
termination_by n - i

/-- `exponentialSearch(arr, target)`. -/
def exponentialSearch (arr : List Int) (target : Int) : List Ev :=
  if arr.length = 0 then [.errorEv]
  else
    let sv := sortedVals arr
    let ix := sortedWithIdx arr
    if sv.getD 0 0 = target then [.found ((ix.getD 0 (0, 0)).2 : Int) target]
    else expLoop sv ix target arr.length 1 (by omega)

/- ------------------------------------------------------------------
Sort producers.  Each works on `steps`, a private copy of the input;
element writes are `List.set`.  Traces interleave the emitted events with
`cmpEval` markers at the comparator-evaluation points.
------------------------------------------------------------------ -/

/-- The destructuring swap `[steps[j], steps[j+1]] = [steps[j+1], steps[j]]`
generalised to two positions (also used by selection sort). -/
def swapAt (steps : List Int) (i j : Nat) : List Int :=
  (steps.set i (steps.getD j 0)).set j (steps.getD i 0)

@[simp] theorem length_swapAt (steps : List Int) (i j : Nat) :
    (swapAt steps i j).length = steps.length := by
  simp [swapAt]

/-- Inner loop of `bubbleSort`:
`for (let j = 0; j < steps.length - i - 1; j++)`. -/
def bubbleInner (steps : List Int) (i j : Nat) : List Ev × List Int :=
  if _h : j < steps.length - i - 1 then
    if steps.getD j 0 > steps.getD (j + 1) 0 then
      let s2 := swapAt steps j (j + 1)
      let r := bubbleInner s2 i (j + 1)
      (.compare [(j : Int), (j + 1 : Int)] none :: .cmpEval j (j + 1) ::
        .swap j (j + 1) s2 :: r.1, r.2)
    else
      let r := bubbleInner steps i (j + 1)
      (.compare [(j : Int), (j + 1 : Int)] none :: .cmpEval j (j + 1) :: r.1, r.2)
  else ([], steps)
termination_by steps.length - i - 1 - j
decreasing_by
  all_goals try simp only [length_swapAt]
  all_goals omega

theorem bubbleInner_length (steps : List Int) (i j : Nat) :
    (bubbleInner steps i j).2.length = steps.length := by
  induction steps, i, j using bubbleInner.induct with
  | case1 steps i j h hc s2 ih =>
      rw [bubbleInner]
      simp only [dif_pos h, if_pos hc]
      rw [show s2 = swapAt steps j (j + 1) from rfl, length_swapAt] at ih
      simpa using ih
  | case2 steps i j h hc ih =>
      rw [bubbleInner]
      simp only [dif_pos h, if_neg hc]
      simpa using ih
  | case3 steps i j h =>
      rw [bubbleInner]
      simp [h]

/-- Outer loop of `bubbleSort`: `for (let i = 0; i < steps.length; i++)`. -/
def bubbleOuter (steps : List Int) (i : Nat) : List Ev × List Int :=
  if _h : i < steps.length then
    let r := bubbleInner steps i 0
    let r2 := bubbleOuter r.2 (i + 1)
    (r.1 ++ r2.1, r2.2)
  else ([], steps)
termination_by steps.length - i
decreasing_by simp only [bubbleInner_length] <;> omega

/-- `bubbleSort(arr)`: full trace (events plus comparator markers). -/
def bubbleSort (arr : List Int) : List Ev := (bubbleOuter arr 0).1

/-- Inner loop of `selectionSort`; the array is not written here, only the
running `minIndex` changes.  Returns the trace and the final `minIndex`. -/
def selInner (steps : List Int) (j minIdx : Nat) : List Ev × Nat :=
  if _h : j < steps.length then
    if steps.getD j 0 < steps.getD minIdx 0 then
      let r := selInner steps (j + 1) j
      (.compare [(j : Int), (minIdx : Int)] none :: .cmpEval j minIdx ::
        .newMin j :: r.1, r.2)
    else
      let r := selInner steps (j + 1) minIdx
      (.compare [(j : Int), (minIdx : Int)] none :: .cmpEval j minIdx :: r.1, r.2)
  else ([], minIdx)
termination_by steps.length - j

/-- Outer loop of `selectionSort`:
`for (let i = 0; i < steps.length - 1; i++)`. -/
def selOuter (steps : List Int) (i : Nat) : List Ev × List Int :=
  if _h : i < steps.length - 1 then
    let r := selInner steps (i + 1) i
    let m := r.2
    if m ≠ i then
      let s2 := swapAt steps i m
      let r2 := selOuter s2 (i + 1)
      (.sortingMark i :: r.1 ++ .swap i m s2 :: .sortedEv [(i : Int)] :: r2.1, r2.2)
    else
      let r2 := selOuter steps (i + 1)
      (.sortingMark i :: r.1 ++ .sortedEv [(i : Int)] :: r2.1, r2.2)
  else ([], steps)
termination_by steps.length - 1 - i
decreasing_by
  all_goals try simp only [length_swapAt]
  all_goals omega

/-- `selectionSort(arr)`; the trailing `sorted` event reports
`steps.length - 1` as a JS number, which is `-1` on empty input. -/
def selectionSort (arr : List Int) : List Ev :=
  (selOuter arr 0).1 ++ [.sortedEv [(arr.length : Int) - 1]]

/-- Inner loop of `insertionSort`:
`while (j >= 0 && steps[j] > current) { yield compare; shift; j--; }`.
The comparator is evaluated in the loop condition, before the `compare`
event is yielded; a condition evaluation with `j >= 0` that returns false
leaves a trailing marker with no `compare` event.  Returns the trace, the
array after the shifts, and the final value of `j`. -/
def insInner (steps : List Int) (cur : Int) (j : Int) : List Ev × List Int × Int :=
  if hj : 0 ≤ j then
    if getI steps j > cur then
      let s2 := steps.set (j + 1).toNat (getI steps j)
      let r := insInner s2 cur (j - 1)
      (.cmpEval j (j + 1) :: .compare [j, j + 1] none :: .shift (j + 1) s2 :: r.1,
        r.2)
    else ([.cmpEval j (j + 1)], steps, j)
  else ([], steps, j)
termination_by (j + 1).toNat
decreasing_by omega

theorem insInner_length (steps : List Int) (cur : Int) (j : Int) :
    (insInner steps cur j).2.1.length = steps.length := by
  induction steps, cur, j using insInner.induct with
  | case1 steps cur j hj hc s2 ih =>
      rw [insInner]
      simp only [dif_pos hj, if_pos hc]
      rw [show s2 = steps.set (j + 1).toNat (getI steps j) from rfl,
        List.length_set] at ih
      simpa using ih
  | case2 steps cur j hj hc =>
      rw [insInner]
      simp [hj, hc]
  | case3 steps cur j hj =>
      rw [insInner]
      simp [hj]

/-- Outer loop of `insertionSort`:
`for (let i = 1; i < steps.length; i++)`. -/
def insOuter (steps : List Int) (i : Nat) : List Ev × List Int :=
  if _h : i < steps.length then
    let cur := steps.getD i 0
    let r := insInner steps cur ((i : Int) - 1)
    let s3 := r.2.1.set (r.2.2 + 1).toNat cur
    let r2 := insOuter s3 (i + 1)
    (.currentEv i :: r.1 ++ .insertEv (r.2.2 + 1) s3 ::
      .sortedEv ((List.range (i + 1)).map (Int.ofNat)) :: r2.1, r2.2)
  else ([], steps)
termination_by steps.length - i
decreasing_by simp only [List.length_set, insInner_length] <;> omega

/-- `insertionSort(arr)`. -/
def insertionSort (arr : List Int) : List Ev := (insOuter arr 1).1

/-- Merge loop of `mergeSort`'s `merge(left, mid, right)`: the three
`while` loops (main merge, copy rest of `leftArr`, copy rest of
`rightArr`) run in sequence; exactly one branch below applies at each
step, reproducing that sequencing. -/
def mergeLoop (steps : List Int) (la ra : List Int) (l mid : Nat) (i j k : Nat) :
    List Ev × List Int :=
  if _h : i < la.length ∧ j < ra.length then
    if la.getD i 0 ≤ ra.getD j 0 then
      let s2 := steps.set k (la.getD i 0)
      let r := mergeLoop s2 la ra l mid (i + 1) j (k + 1)
      (.compare [(l + i : Int), (mid + 1 + j : Int)] none ::
        .cmpEval (l + i) (mid + 1 + j) :: .place k s2 :: r.1, r.2)
    else
      let s2 := steps.set k (ra.getD j 0)
      let r := mergeLoop s2 la ra l mid i (j + 1) (k + 1)
      (.compare [(l + i : Int), (mid + 1 + j : Int)] none ::
        .cmpEval (l + i) (mid + 1 + j) :: .place k s2 :: r.1, r.2)
  else if _h2 : i < la.length then
    let s2 := steps.set k (la.getD i 0)
    let r := mergeLoop s2 la ra l mid (i + 1) j (k + 1)
    (.copy k s2 :: r.1, r.2)
  else if _h3 : j < ra.length then
    let s2 := steps.set k (ra.getD j 0)
    let r := mergeLoop s2 la ra l mid i (j + 1) (k + 1)
    (.copy k s2 :: r.1, r.2)
  else ([], steps)
termination_by (la.length - i) + (ra.length - j)
decreasing_by all_goals omega

theorem mergeLoop_length (steps la ra : List Int) (l mid i j k : Nat) :
    (mergeLoop steps la ra l mid i j k).2.length = steps.length := by
  induction steps, la, ra, l, mid, i, j, k using mergeLoop.induct with
  | case1 steps la ra l mid i j k h hc s2 ih =>
      rw [mergeLoop]; simp only [dif_pos h, if_pos hc]
      rw [show s2 = steps.set k (la.getD i 0) from rfl, List.length_set] at ih
      simpa using ih
  | case2 steps la ra l mid i j k h hc s2 ih =>
      rw [mergeLoop]; simp only [dif_pos h, if_neg hc]
      rw [show s2 = steps.set k (ra.getD j 0) from rfl, List.length_set] at ih
      simpa using ih
  | case3 steps la ra l mid i j k h h2 s2 ih =>
      rw [mergeLoop]; simp only [dif_neg h, dif_pos h2]
      rw [show s2 = steps.set k (la.getD i 0) from rfl, List.length_set] at ih
      simpa using ih
  | case4 steps la ra l mid i j k h h2 h3 s2 ih =>
      rw [mergeLoop]; simp only [dif_neg h, dif_neg h2, dif_pos h3]
      rw [show s2 = steps.set k (ra.getD j 0) from rfl, List.length_set] at ih
      simpa using ih
  | case5 steps la ra l mid i j k h h2 h3 =>
      rw [mergeLoop]; simp [h, h2, h3]

/-- JS slice `steps[a..b]` inclusive (the `push` loops building the temp
arrays `leftArr` and `rightArr`). -/
def sliceCl (steps : List Int) (a b : Nat) : List Int :=
  (steps.drop a).take (b + 1 - a)

/-- `merge(left, mid, right)` of `mergeSort`. -/
def mergeRun (steps : List Int) (l mid r : Nat) : List Ev × List Int :=
  let la := sliceCl steps l mid
  let ra := sliceCl steps (mid + 1) r
  let res := mergeLoop steps la ra l mid 0 0 l
  (.mergeEv l mid r :: res.1 ++ [.completeRange l r res.2], res.2)

/-- `mergeSortHelper(left, right)`; on every reachable call `left ≥ 0`, so
`Nat` bounds are used, with the source's `left >= right` base case.  The
top-level call for an empty array (`right = -1` in JS) is handled in
`mergeSort` below. -/
def msHelper (steps : List Int) (l r : Nat) : List Ev × List Int :=
  if _h : l < r then
    let mid := (l + r) / 2
    let r1 := msHelper steps l mid
    let r2 := msHelper r1.2 (mid + 1) r
    let r3 := mergeRun r2.2 l mid r
    (.divide l r :: r1.1 ++ r2.1 ++ r3.1, r3.2)
  else ([], steps)
termination_by r - l
decreasing_by all_goals omega

/-- `mergeSort(arr)`. -/
def mergeSort (arr : List Int) : List Ev :=
  if arr.length = 0 then [] else (msHelper arr 0 (arr.length - 1)).1

/- ------------------------------------------------------------------
Binary tree builder and the two traversals.  Tree-input arrays may hold
`null` slots, modelled as `Option Int`; `createBinaryTree` builds nodes by
dequeuing parents and consuming the next one or two array slots
(advancing past `null` slots without creating a node).
------------------------------------------------------------------ -/

/-- A tree node (`TreeNode`): value, original array index, children
(`BT.nil` models JS `null`). -/
inductive BT where
  | nil
  | node (value : Int) (index : Nat) (left right : BT)
  deriving DecidableEq, Repr

/-- Queue-and-cursor loop of `createBinaryTree`, recorded as the list of
child assignments it performs: `(parentIndex, childIndex, isLeftChild)`,
in execution order.  The queue holds the array indices of created nodes;
`i` is the slot cursor, advanced twice per dequeued parent. -/
def assignLoop (arr : List (Option Int)) (queue : List Nat) (i : Nat) :
    List (Nat × Nat × Bool) :=
  match queue with
  | [] => []
  | p :: rest =>
    if _h : i < arr.length then
      let okL := (arr.getD i none).isSome
      let q1 := if okL then rest ++ [i] else rest
      let okR := i + 1 < arr.length ∧ (arr.getD (i + 1) none).isSome
      let q2 := if okR then q1 ++ [i + 1] else q1
      ((if okL then [(p, i, true)] else []) ++
        (if okR then [(p, i + 1, false)] else [])) ++ assignLoop arr q2 (i + 2)
    else []
termination_by arr.length - i

/-- The child assignments of `createBinaryTree(arr)`. -/
def childSlots (arr : List (Option Int)) : List (Nat × Nat × Bool) :=
  assignLoop arr [0] 1

/-- Array index of the left child the builder attached under the node at
array index `p`, if any. -/
def leftIdx (ps : List (Nat × Nat × Bool)) (p : Nat) : Option Nat :=
  (ps.find? (fun e => e.1 == p && e.2.2 == true)).map (·.2.1)

/-- Array index of the right child attached under position `p`, if any. -/
def rightIdx (ps : List (Nat × Nat × Bool)) (p : Nat) : Option Nat :=
  (ps.find? (fun e => e.1 == p && e.2.2 == false)).map (·.2.1)

/-- Node value at a slot.  The root is created without a `null` check in
the source (`new TreeNode(arr[0])`); a `null` value there is modelled as
`0`, which no claim in scope depends on. -/
def slotVal (arr : List (Option Int)) (idx : Nat) : Int :=
  (arr.getD idx none).getD 0

/-- Materialise the node at array index `idx` from the recorded child
assignments.  Child indices recorded by `assignLoop` strictly exceed their
parent's index, so `arr.length` steps of fuel always suffice; exhausted
fuel yields `nil` only in unreachable states. -/
def buildFrom (arr : List (Option Int)) (ps : List (Nat × Nat × Bool)) :
    Nat → Nat → BT
  | 0, _ => .nil
  | fuel + 1, idx =>
    .node (slotVal arr idx) idx
      (match leftIdx ps idx with
       | none => .nil
       | some c => buildFrom arr ps fuel c)
      (match rightIdx ps idx with
       | none => .nil
       | some c => buildFrom arr ps fuel c)

/-- `createBinaryTree(arr)`. -/
def createBinaryTree (arr : List (Option Int)) : Option BT :=
  if arr.isEmpty then none
  else some (buildFrom arr (childSlots arr) arr.length 0)

/-- One BFS queue entry: the dequeued node's fields and its level (the
source stores `{ node, level }`; children are only enqueued when non-null,
so the node is always a real node, destructured here). -/
structure QEnt where
  value : Int
  index : Nat
  left : BT
  right : BT
  level : Nat
  deriving Repr

/-- Structure size of a tree, the BFS termination measure. -/
def BT.size : BT → Nat
  | .nil => 0
  | .node _ _ l r => l.size + r.size + 1

/-- Children that `if (node.left) queue.push(...)` appends for an entry. -/
def enqueueChildren (e : QEnt) : List QEnt :=
  (match e.left with
   | .nil => []
   | .node v i l r => [⟨v, i, l, r, e.level + 1⟩]) ++
  (match e.right with
   | .nil => []
   | .node v i l r => [⟨v, i, l, r, e.level + 1⟩])

def qmeasure (q : List QEnt) : Nat :=
  (q.map (fun e => e.left.size + e.right.size + 1)).sum

theorem qmeasure_step (e : QEnt) (rest : List QEnt) :
    qmeasure (rest ++ enqueueChildren e) < qmeasure (e :: rest) := by
  have h1 : qmeasure (rest ++ enqueueChildren e) =
      qmeasure rest + qmeasure (enqueueChildren e) := by
    simp [qmeasure]
  have h2 : qmeasure (enqueueChildren e) = e.left.size + e.right.size := by
    unfold enqueueChildren qmeasure
    rcases e.left with _ | ⟨v, i, l, r⟩ <;> rcases e.right with _ | ⟨v2, i2, l2, r2⟩ <;>
      simp [BT.size] <;> omega
  have h3 : qmeasure (e :: rest) =
      e.left.size + e.right.size + 1 + qmeasure rest := by
    simp [qmeasure]
  omega

/-- Main loop of `breadthFirstSearch`; `trav` accumulates the `traversal`
array and `fnd` is the mutable `found` flag (BFS keeps running after a
match, unlike the searches). -/
def bfsLoop (target : Option Int) (queue : List QEnt) (trav : List Int)
    (fnd : Bool) : List Ev :=
  match queue with
  | [] => [.completeTrav trav (target.map (fun _ => fnd))]
  | e :: rest =>
    .queueEv ((e :: rest).map (fun x => (x.index : Int))) ::
      .visit e.index e.value e.level ::
      (if target = some e.value then
        .found e.index e.value ::
          bfsLoop target (rest ++ enqueueChildren e) (trav ++ [e.value]) true
       else bfsLoop target (rest ++ enqueueChildren e) (trav ++ [e.value]) fnd)
termination_by qmeasure queue
decreasing_by all_goals exact qmeasure_step e rest

/-- `breadthFirstSearch(arr, target)`; `target = none` models the JS
default `null`.  (`createBinaryTree` never returns a `nil` root for
non-empty input; the guard mirrors `if (!root) return`.) -/
def breadthFirstSearch (arr : List (Option Int)) (target : Option Int) :
    List Ev :=
  if arr.isEmpty then []
  else
    match createBinaryTree arr with
    | none => []
    | some .nil => []
    | some (.node v i l r) => bfsLoop target [⟨v, i, l, r, 0⟩] [] false

/-- The `order` parameter of `depthFirstSearch`. -/
inductive DOrder where
  | preorder
  | inorder
  | postorder
  deriving DecidableEq, Repr

/-- `dfsHelper(node, level, stack)`.  Returns the yielded events, the
values pushed onto `traversal` during the call, and the value of the
closed-over `found` flag after the call (every call starts with
`found = false`: a caller whose earlier recursive call set it returns
before recursing again).  A `null` child is skipped by the source's
`if (node.left)` guard; recursing into `BT.nil` returns
`([], [], false)`, which is the same contribution.  The `stack` parameter holds the node indices of
the JS node stack; `[...stack]` copies are pure values here.  Early
`return`s after a target match reproduce the source's cancellation
checks `if (found && target !== undefined) return`. -/
def dfsHelper (target : Option Int) (ord : DOrder) :
    BT → Nat → List Nat → List Ev × List Int × Bool
  | .nil, _, _ => ([], [], false)
  | .node v i l r, level, stack =>
    let stEv := Ev.stackEv (stack.map Int.ofNat)
    let stack2 := stack ++ [i]
    if _h1 : ord = .preorder ∧ target = some v then
      ([stEv, .visit i v level, .found i v], [v], true)
    else
      let preEvs := if ord = .preorder then [Ev.visit i v level] else []
      let preTrav := if ord = .preorder then [v] else []
      let L := dfsHelper target ord l (level + 1) stack2
      if L.2.2 && target.isSome then
        (stEv :: preEvs ++ L.1, preTrav ++ L.2.1, true)
      else if _h2 : ord = .inorder ∧ target = some v then
        (stEv :: preEvs ++ L.1 ++ [.visit i v level, .found i v],
          preTrav ++ L.2.1 ++ [v], true)
      else
        let inEvs := if ord = .inorder then [Ev.visit i v level] else []
        let inTrav := if ord = .inorder then [v] else []
        let R := dfsHelper target ord r (level + 1) stack2
        if R.2.2 && target.isSome then
          (stEv :: preEvs ++ L.1 ++ inEvs ++ R.1,
            preTrav ++ L.2.1 ++ inTrav ++ R.2.1, true)
        else if _h3 : ord = .postorder ∧ target = some v then
          (stEv :: preEvs ++ L.1 ++ inEvs ++ R.1 ++ [.visit i v level, .found i v],
            preTrav ++ L.2.1 ++ inTrav ++ R.2.1 ++ [v], true)
        else
          let postEvs := if ord = .postorder then [Ev.visit i v level] else []
          let postTrav := if ord = .postorder then [v] else []
          (stEv :: preEvs ++ L.1 ++ inEvs ++ R.1 ++ postEvs ++ [.backtrack i],
            preTrav ++ L.2.1 ++ inTrav ++ R.2.1 ++ postTrav, false)

/-- `depthFirstSearch(arr, target, order)`; `target = none` models the JS
default `undefined`. -/
def depthFirstSearch (arr : List (Option Int)) (target : Option Int)
    (ord : DOrder) : List Ev :=
  if arr.isEmpty then []
  else
    match createBinaryTree arr with
    | none => []
    | some .nil => []
    | some t =>
      let res := dfsHelper target ord t 0 []
      res.1 ++ [.completeTrav res.2.1 (target.map (fun _ => res.2.2))]

/- ------------------------------------------------------------------
Heap view for the frame claim (producers do not mutate their input
array).  The heap holds the live JS number arrays; a producer receives a
reference `r` to its input.  Array literals/copies (`[...arr]`, `arr.map`)
allocate fresh cells; element assignments write through the owning
reference.  The fresh pair array `arrWithIndex` of the remapping searches
and the temporaries `leftArr`/`rightArr` of merge sort are created by
`map`/`[]` and can never alias the input, so they stay pure values here.
Events are not re-emitted in this view: yields only read.
------------------------------------------------------------------ -/

abbrev Heap := List (List Int)

def hread (h : Heap) (r : Nat) : List Int := h.getD r []

def hwrite (h : Heap) (r : Nat) (v : List Int) : Heap := h.set r v

/-- Allocation of a fresh array: returns the heap and the new reference. -/
def halloc (h : Heap) (v : List Int) : Heap × Nat := (h ++ [v], h.length)

theorem hread_hwrite_ne (h : Heap) (s r : Nat) (v : List Int) (hne : r ≠ s) :
    hread (hwrite h s v) r = hread h r := by
  simp only [hread, hwrite, List.getD]
  rw [List.get?_set_ne _ _ (Ne.symm hne)]

theorem hread_halloc (h : Heap) (v : List Int) (r : Nat) (hr : r < h.length) :
    hread (h ++ [v]) r = hread h r := by
  simp only [hread, List.getD]
  rw [List.get?_append hr]

/-- Inner pass of `bubbleSort`, heap view; `n` is `steps.length`, constant
for the whole run since element writes preserve length. -/
def bubbleInnerH (h : Heap) (s n i j : Nat) : Heap :=
  if j < n - i - 1 then
    let st := hread h s
    if st.getD j 0 > st.getD (j + 1) 0 then
      bubbleInnerH (hwrite h s (swapAt st j (j + 1))) s n i (j + 1)
    else bubbleInnerH h s n i (j + 1)
  else h
termination_by n - i - 1 - j

def bubbleOuterH (h : Heap) (s n i : Nat) : Heap :=
  if i < n then bubbleOuterH (bubbleInnerH h s n i 0) s n (i + 1) else h
termination_by n - i

/-- `bubbleSort(arr)`, heap view: `const steps = [...arr]` allocates the
private copy; all writes go through it. -/
def bubbleSortHeap (h : Heap) (r : Nat) : Heap :=
  let a := halloc h (hread h r)
  bubbleOuterH a.1 a.2 (hread h r).length 0

/-- Outer loop of `selectionSort`, heap view; the inner minimum scan only
reads, so its result is taken from the pure loop `selInner`. -/
def selOuterH (h : Heap) (s n i : Nat) : Heap :=
  if i < n - 1 then
    let st := hread h s
    let m := (selInner st (i + 1) i).2
    if m ≠ i then selOuterH (hwrite h s (swapAt st i m)) s n (i + 1)
    else selOuterH h s n (i + 1)
  else h
termination_by n - 1 - i

def selectionSortHeap (h : Heap) (r : Nat) : Heap :=
  let a := halloc h (hread h r)
  selOuterH a.1 a.2 (hread h r).length 0

/-- Inner shift loop of `insertionSort`, heap view. -/
def insInnerH (h : Heap) (s : Nat) (cur : Int) (j : Int) : Heap × Int :=
  if 0 ≤ j then
    let st := hread h s
    if getI st j > cur then
      insInnerH (hwrite h s (st.set (j + 1).toNat (getI st j))) s cur (j - 1)
    else (h, j)
  else (h, j)
termination_by (j + 1).toNat
decreasing_by omega

def insOuterH (h : Heap) (s n i : Nat) : Heap :=
  if i < n then
    let cur := (hread h s).getD i 0
    let r := insInnerH h s cur ((i : Int) - 1)
    insOuterH (hwrite r.1 s ((hread r.1 s).set (r.2 + 1).toNat cur)) s n (i + 1)
  else h
termination_by n - i

def insertionSortHeap (h : Heap) (r : Nat) : Heap :=
  let a := halloc h (hread h r)
  insOuterH a.1 a.2 (hread h r).length 1

/-- Merge loop of `mergeSort`, heap view; the temporaries are pure. -/
def mergeLoopH (h : Heap) (s : Nat) (la ra : List Int) (i j k : Nat) : Heap :=
  if _h : i < la.length ∧ j < ra.length then
    let st := hread h s
    if la.getD i 0 ≤ ra.getD j 0 then
      mergeLoopH (hwrite h s (st.set k (la.getD i 0))) s la ra (i + 1) j (k + 1)
    else mergeLoopH (hwrite h s (st.set k (ra.getD j 0))) s la ra i (j + 1) (k + 1)
  else if _h2 : i < la.length then
    mergeLoopH (hwrite h s ((hread h s).set k (la.getD i 0))) s la ra (i + 1) j (k + 1)
  else if _h3 : j < ra.length then
    mergeLoopH (hwrite h s ((hread h s).set k (ra.getD j 0))) s la ra i (j + 1) (k + 1)
  else h
termination_by (la.length - i) + (ra.length - j)
decreasing_by all_goals omega

def mergeRunH (h : Heap) (s l mid r : Nat) : Heap :=
  let st := hread h s
  mergeLoopH h s (sliceCl st l mid) (sliceCl st (mid + 1) r) 0 0 l

def msHelperH (h : Heap) (s l r : Nat) : Heap :=
  if _h : l < r then
    let mid := (l + r) / 2
    mergeRunH (msHelperH (msHelperH h s l mid) s (mid + 1) r) s l mid r
  else h
termination_by r - l
decreasing_by all_goals omega

def mergeSortHeap (h : Heap) (r : Nat) : Heap :=
  let a := halloc h (hread h r)
  if (hread h r).length = 0 then a.1
  else msHelperH a.1 a.2 0 ((hread h r).length - 1)

/-- `linearSearch` and `binarySearch` perform no array writes at all. -/
def linearSearchHeap (h : Heap) (_r : Nat) (_target : Int) : Heap := h

def binarySearchHeap (h : Heap) (_r : Nat) (_target : Int) : Heap := h

/-- The remapping searches write only the fresh pair array produced by
`arr.map` (its in-place `.sort`), never the input; heap unchanged. -/
def jumpSearchHeap (h : Heap) (_r : Nat) (_target : Int) : Heap := h

def interpolationSearchHeap (h : Heap) (_r : Nat) (_target : Int) : Heap := h

def exponentialSearchHeap (h : Heap) (_r : Nat) (_target : Int) : Heap := h

/-- BFS loop, heap view: the only array write is `traversal.push`. -/
def bfsLoopH (h : Heap) (t : Nat) (queue : List QEnt) : Heap :=
  match queue with
  | [] => h
  | e :: rest =>
      bfsLoopH (hwrite h t (hread h t ++ [e.value])) t (rest ++ enqueueChildren e)
termination_by qmeasure queue
decreasing_by exact qmeasure_step e rest

/-- `breadthFirstSearch`, heap view: the input is only read (tree built
from a snapshot of its contents); `traversal` is a fresh array. -/
def breadthFirstSearchHeap (h : Heap) (r : Nat) (target : Option Int) : Heap :=
  let arr := (hread h r).map some
  if arr.isEmpty then h
  else
    let a := halloc h []
    match createBinaryTree arr with
    | none => a.1
    | some .nil => a.1
    | some (.node v i l rt) => bfsLoopH a.1 a.2 [⟨v, i, l, rt, 0⟩]

/-- `dfsHelper`, heap view: pushes onto `traversal` mirror the pure
helper's visit order, including the early returns. -/
def dfsHelperH (target : Option Int) (ord : DOrder) (t : Nat) :
    BT → Heap → Heap × Bool
  | .nil, h => (h, false)
  | .node v _i l r, h =>
    if _h1 : ord = .preorder ∧ target = some v then
      (hwrite h t (hread h t ++ [v]), true)
    else
      let h1 := if ord = .preorder then hwrite h t (hread h t ++ [v]) else h
      let L := dfsHelperH target ord t l h1
      if L.2 && target.isSome then L
      else if _h2 : ord = .inorder ∧ target = some v then
        (hwrite L.1 t (hread L.1 t ++ [v]), true)
      else
        let h2 := if ord = .inorder then hwrite L.1 t (hread L.1 t ++ [v]) else L.1
        let R := dfsHelperH target ord t r h2
        if R.2 && target.isSome then R
        else if _h3 : ord = .postorder ∧ target = some v then
          (hwrite R.1 t (hread R.1 t ++ [v]), true)
        else
          (if ord = .postorder then hwrite R.1 t (hread R.1 t ++ [v]) else R.1,
            false)

/-- `depthFirstSearch`, heap view. -/
def depthFirstSearchHeap (h : Heap) (r : Nat) (target : Option Int)
    (ord : DOrder) : Heap :=
  let arr := (hread h r).map some
  if arr.isEmpty then h
  else
    let a := halloc h []
    match createBinaryTree arr with
    | none => a.1
    | some .nil => a.1
    | some t => (dfsHelperH target ord a.2 t a.1).1

/- ------------------------------------------------------------------
Properties of the index-remapping step.
------------------------------------------------------------------ -/

instance : IsTotal (Int × Nat) pairLe := ⟨fun a b => le_total a.1 b.1⟩

instance : IsTrans (Int × Nat) pairLe := ⟨fun _ _ _ hab hbc => le_trans hab hbc⟩

theorem sortedWithIdx_perm (arr : List Int) :
    (sortedWithIdx arr).Perm (withIdx arr) := List.perm_insertionSort pairLe _

theorem sortedWithIdx_sorted (arr : List Int) :
    List.Sorted pairLe (sortedWithIdx arr) := List.sorted_insertionSort pairLe _

theorem length_withIdx (arr : List Int) : (withIdx arr).length = arr.length := by
  simp [withIdx]

theorem length_sortedWithIdx (arr : List Int) :
    (sortedWithIdx arr).length = arr.length := by
  rw [(sortedWithIdx_perm arr).length_eq, length_withIdx]

theorem length_sortedVals (arr : List Int) :
    (sortedVals arr).length = arr.length := by
  simp [sortedVals, length_sortedWithIdx]

theorem mem_withIdx (arr : List Int) (v : Int) (i : Nat) :
    (v, i) ∈ withIdx arr ↔ i < arr.length ∧ arr.getD i 0 = v := by
  simp only [withIdx, List.mem_map, List.mem_range, Prod.mk.injEq]
  constructor
  · rintro ⟨j, hj, hv, hi⟩
    exact ⟨hi ▸ hj, hi ▸ hv⟩
  · rintro ⟨hi, hv⟩
    exact ⟨i, hi, hv, rfl⟩

theorem mem_sortedWithIdx (arr : List Int) (v : Int) (i : Nat) :
    (v, i) ∈ sortedWithIdx arr ↔ i < arr.length ∧ arr.getD i 0 = v := by
  rw [(sortedWithIdx_perm arr).mem_iff, mem_withIdx]

theorem sortedVals_sorted (arr : List Int) :
    List.Sorted (· ≤ ·) (sortedVals arr) :=
  List.Pairwise.map _ (fun _ _ h => h) (sortedWithIdx_sorted arr)

theorem sortedVals_perm (arr : List Int) : (sortedVals arr).Perm arr := by
  have h1 : (withIdx arr).map (·.1) = arr := by
    simp only [withIdx, List.map_map]
    apply List.ext_getElem
    · simp
    · intro i h1 h2
      simp [List.getD_eq_getElem?_getD, List.getElem?_eq_getElem h2]
  have h2 : (sortedVals arr).Perm ((withIdx arr).map (·.1)) :=
    (sortedWithIdx_perm arr).map _
  rw [h1] at h2
  exact h2

/-- Stability invariant: pairs with equal values appear in increasing
original-index order. -/
def StabOk (l : List (Int × Nat)) : Prop :=
  l.Pairwise (fun a b => a.1 = b.1 → a.2 < b.2)

theorem stabOk_orderedInsert (a : Int × Nat) (m : List (Int × Nat))
    (hm : StabOk m) (ha : ∀ x ∈ m, a.1 = x.1 → a.2 < x.2) :
    StabOk (m.orderedInsert pairLe a) := by
  induction m with
  | nil => simpa [StabOk]
  | cons b m ih =>
      rw [List.orderedInsert]
      by_cases hab : pairLe a b
      · rw [if_pos hab]
        refine List.Pairwise.cons ?_ hm
        intro x hx
        rcases List.mem_cons.mp hx with h | h
        · rw [h]; exact ha b (List.mem_cons_self b m)
        · exact ha x (List.mem_cons_of_mem b h)
      · rw [if_neg hab]
        rw [StabOk, List.pairwise_cons] at hm ⊢
        refine ⟨?_, ih hm.2 (fun x hx => ha x (by simp [hx]))⟩
        intro y hy heq
        rcases (List.mem_orderedInsert pairLe).mp hy with rfl | hy
        · exact absurd (le_of_eq heq.symm) hab
        · exact hm.1 y hy heq

theorem stabOk_insertionSort (l : List (Int × Nat))
    (hl : l.Pairwise (fun a b => a.2 < b.2)) :
    StabOk (l.insertionSort pairLe) := by
  induction l with
  | nil => simp [StabOk]
  | cons a l ih =>
      rw [List.insertionSort]
      rw [List.pairwise_cons] at hl
      refine stabOk_orderedInsert a _ (ih hl.2) ?_
      intro x hx _
      exact hl.1 x ((List.perm_insertionSort pairLe l).mem_iff.mp hx)

theorem sortedWithIdx_stab (arr : List Int) : StabOk (sortedWithIdx arr) := by
  apply stabOk_insertionSort
  have : ∀ (k : Nat), ((List.range k).map
      (fun i => (arr.getD i 0, i))).Pairwise (fun a b => a.2 < b.2) := by
    intro k
    refine List.Pairwise.map _ (fun a b h => h) ?_
    exact List.pairwise_lt_range k
  exact this arr.length

theorem sortedWithIdx_idx_perm (arr : List Int) :
    ((sortedWithIdx arr).map (·.2)).Perm (List.range arr.length) := by
  have h1 : (withIdx arr).map (·.2) = List.range arr.length := by
    simp [withIdx, List.map_map, Function.comp_def]
  have h2 : ((sortedWithIdx arr).map (·.2)).Perm ((withIdx arr).map (·.2)) :=
    (sortedWithIdx_perm arr).map _
  rw [h1] at h2
  exact h2

/- ------------------------------------------------------------------
Shared facts for the search proofs.
------------------------------------------------------------------ -/

theorem getD_mem (l : List Int) {p : Nat} (hp : p < l.length) :
    l.getD p 0 ∈ l := by
  rw [List.getD_eq_getElem?_getD, List.getElem?_eq_getElem hp]
  exact List.getElem_mem hp

theorem mem_iff_getD (l : List Int) (t : Int) :
    t ∈ l ↔ ∃ p, p < l.length ∧ l.getD p 0 = t := by
  constructor
  · intro ht
    rcases List.mem_iff_getElem.mp ht with ⟨p, hp, he⟩
    exact ⟨p, hp, by rw [List.getD_eq_getElem?_getD, List.getElem?_eq_getElem hp]; simp [he]⟩
  · rintro ⟨p, hp, he⟩
    exact he ▸ getD_mem l hp

theorem sorted_getD_le {l : List Int} (hs : List.Sorted (· ≤ ·) l) {p q : Nat}
    (hpq : p ≤ q) (hq : q < l.length) : l.getD p 0 ≤ l.getD q 0 := by
  rcases Nat.eq_or_lt_of_le hpq with rfl | hlt
  · exact le_refl _
  · have hp : p < l.length := lt_trans hlt hq
    rw [List.getD_eq_getElem?_getD, List.getElem?_eq_getElem hp,
      List.getD_eq_getElem?_getD, List.getElem?_eq_getElem hq]
    exact (List.pairwise_iff_getElem.mp hs) p q hp hq hlt

theorem origIdx_spec (arr : List Int) {p : Nat} (hp : p < arr.length) :
    origIdx arr p < arr.length ∧
      arr.getD (origIdx arr p) 0 = (sortedVals arr).getD p 0 := by
  have hp2 : p < (sortedWithIdx arr).length := by rw [length_sortedWithIdx]; exact hp
  have hmem : (sortedWithIdx arr).getD p (0, 0) ∈ sortedWithIdx arr := by
    rw [List.getD_eq_getElem?_getD, List.getElem?_eq_getElem hp2]
    exact List.getElem_mem hp2
  have h1 := (mem_sortedWithIdx arr ((sortedWithIdx arr).getD p (0, 0)).1
    ((sortedWithIdx arr).getD p (0, 0)).2).mp hmem
  have h2 : (sortedVals arr).getD p 0 = ((sortedWithIdx arr).getD p (0, 0)).1 := by
    have hp3 : p < (sortedVals arr).length := by rw [length_sortedVals]; exact hp
    rw [List.getD_eq_getElem?_getD, List.getElem?_eq_getElem hp3,
      List.getD_eq_getElem?_getD, List.getElem?_eq_getElem hp2]
    simp [sortedVals]
  exact ⟨h1.1, by rw [h2]; exact h1.2⟩

theorem mem_sortedVals (arr : List Int) (t : Int) :
    t ∈ sortedVals arr ↔ t ∈ arr := (sortedVals_perm arr).mem_iff

/-- If a sorted list holds `t` somewhere at or above a position whose value
is at least `t`, it holds `t` at or below that position. -/
theorem occ_le_of_ge {l : List Int} (hs : List.Sorted (· ≤ ·) l) {k p : Nat}
    (hk : k < l.length) (hkt : t ≤ l.getD k 0) (hp : p < l.length)
    (hpt : l.getD p 0 = t) : ∃ q, q ≤ k ∧ q < l.length ∧ l.getD q 0 = t := by
  by_cases hpk : p ≤ k
  · exact ⟨p, hpk, hp, hpt⟩
  · have : l.getD k 0 ≤ l.getD p 0 := sorted_getD_le hs (le_of_lt (not_le.mp hpk)) hp
    exact ⟨k, le_refl k, hk, le_antisymm (hpt ▸ this) hkt⟩

/-- Event-stream shape of a successful search run: non-terminal events,
then exactly one `found` whose index is an in-range position of the
original array holding the target. -/
def FoundOkIn (arr : List Int) (t : Int) (es : List Ev) : Prop :=
  ∃ pre x, es = pre ++ [Ev.found x t] ∧ (∀ e ∈ pre, isTerm4 e = false) ∧
    0 ≤ x ∧ x.toNat < arr.length ∧ arr.getD x.toNat 0 = t

/-- Event-stream shape of an unsuccessful search run. -/
def NotFoundOk (t : Int) (es : List Ev) : Prop :=
  ∃ pre, es = pre ++ [Ev.notFound t] ∧ (∀ e ∈ pre, isTerm4 e = false)

theorem foundOkIn_consNT {arr : List Int} {t : Int} {e : Ev} {es : List Ev}
    (he : isTerm4 e = false) (h : FoundOkIn arr t es) :
    FoundOkIn arr t (e :: es) := by
  rcases h with ⟨pre, x, rfl, hpre, hx⟩
  exact ⟨e :: pre, x, rfl, by
    intro e2 he2
    rcases List.mem_cons.mp he2 with rfl | hmem
    · exact he
    · exact hpre e2 hmem, hx⟩

theorem notFoundOk_consNT {t : Int} {e : Ev} {es : List Ev}
    (he : isTerm4 e = false) (h : NotFoundOk t es) : NotFoundOk t (e :: es) := by
  rcases h with ⟨pre, rfl, hpre⟩
  exact ⟨e :: pre, rfl, by
    intro e2 he2
    rcases List.mem_cons.mp he2 with rfl | hmem
    · exact he
    · exact hpre e2 hmem⟩

theorem linLoop_found (arr : List Int) (t : Int) (i : Nat)
    (hocc : ∃ p, i ≤ p ∧ p < arr.length ∧ arr.getD p 0 = t) :
    FoundOkIn arr t (linLoop arr t i) := by
  induction i using linLoop.induct arr t with
  | case1 i h ih =>
      rw [linLoop]
      by_cases hc : arr.getD i 0 = t
      · simp only [dif_pos h, if_pos hc]
        exact ⟨[.compare [(i : Int)] (some t)], i, rfl, by simp [isTerm4], by simp,
          by simpa using h, by simpa using hc⟩
      · simp only [dif_pos h, if_neg hc]
        refine foundOkIn_consNT (by simp [isTerm4]) (ih ?_)
        rcases hocc with ⟨p, hip, hp, hpt⟩
        rcases Nat.eq_or_lt_of_le hip with rfl | hlt
        · exact absurd hpt hc
        · exact ⟨p, hlt, hp, hpt⟩
  | case2 i h =>
      rcases hocc with ⟨p, hip, hp, _⟩
      omega

theorem linLoop_nf (arr : List Int) (t : Int) (i : Nat)
    (hocc : ∀ p, i ≤ p → p < arr.length → arr.getD p 0 ≠ t) :
    NotFoundOk t (linLoop arr t i) := by
  induction i using linLoop.induct arr t with
  | case1 i h ih =>
      rw [linLoop]
      have hc : arr.getD i 0 ≠ t := hocc i (le_refl i) h
      simp only [dif_pos h, if_neg hc]
      exact notFoundOk_consNT (by simp [isTerm4])
        (ih (fun p hip hp => hocc p (by omega) hp))
  | case2 i h =>
      rw [linLoop]
      simp only [dif_neg h]
      exact ⟨[], rfl, by simp⟩

theorem sorted_getI_le {arr : List Int} (hs : List.Sorted (· ≤ ·) arr)
    {a b : Int} (h0 : 0 ≤ a) (hab : a ≤ b) (hb : b < (arr.length : Int)) :
    getI arr a ≤ getI arr b := by
  unfold getI
  exact sorted_getD_le hs (by omega) (by omega)

theorem binLoop_found (arr : List Int) (t : Int)
    (hs : List.Sorted (· ≤ ·) arr) :
    ∀ (m : Nat) (left right : Int), (right + 1 - left).toNat ≤ m →
      0 ≤ left → right < (arr.length : Int) →
      (∃ p : Int, left ≤ p ∧ p ≤ right ∧ getI arr p = t) →
      FoundOkIn arr t (binLoop arr t left right) := by
  intro m
  induction m with
  | zero =>
      intro left right hm _ _ hocc
      rcases hocc with ⟨p, h1, h2, _⟩
      omega
  | succ m ih =>
      intro left right hm h0 hr hocc
      rcases hocc with ⟨p, hp1, hp2, hpt⟩
      have hlr : left ≤ right := le_trans hp1 hp2
      rw [binLoop]
      simp only [if_pos hlr]
      set mid : Int := (left + right) / 2 with hmid
      have hmb : left ≤ mid ∧ mid ≤ right := by constructor <;> omega
      by_cases hc : getI arr mid = t
      · simp only [if_pos hc]
        exact ⟨[.rangeEv left right t, .compare [mid] (some t)], mid, rfl,
          by simp [isTerm4], by omega, by omega, hc⟩
      · simp only [if_neg hc]
        by_cases hlt : getI arr mid < t
        · simp only [if_pos hlt]
          refine foundOkIn_consNT (by simp [isTerm4])
            (foundOkIn_consNT (by simp [isTerm4]) ?_)
          apply ih (mid + 1) right (by omega) (by omega) hr
          refine ⟨p, ?_, hp2, hpt⟩
          by_contra hpm
          push_neg at hpm
          have hle : getI arr p ≤ getI arr mid :=
            sorted_getI_le hs (by omega) (by omega) (by omega)
          omega
        · simp only [if_neg hlt]
          refine foundOkIn_consNT (by simp [isTerm4])
            (foundOkIn_consNT (by simp [isTerm4]) ?_)
          apply ih left (mid - 1) (by omega) h0 (by omega)
          refine ⟨p, hp1, ?_, hpt⟩
          by_contra hpm
          push_neg at hpm
          have hle : getI arr mid ≤ getI arr p :=
            sorted_getI_le hs (by omega) (by omega) (by omega)
          omega

theorem binLoop_nf (arr : List Int) (t : Int) (ht : t ∉ arr) :
    ∀ (m : Nat) (left right : Int), (right + 1 - left).toNat ≤ m →
      0 ≤ left → right < (arr.length : Int) →
      NotFoundOk t (binLoop arr t left right) := by
  intro m
  induction m with
  | zero =>
      intro left right hm _ _
      have hlr : ¬ left ≤ right := by omega
      rw [binLoop]
      simp only [if_neg hlr]
      exact ⟨[], rfl, by simp⟩
  | succ m ih =>
      intro left right hm h0 hr
      rw [binLoop]
      by_cases hlr : left ≤ right
      · simp only [if_pos hlr]
        set mid : Int := (left + right) / 2 with hmid
        have hmb : left ≤ mid ∧ mid ≤ right := by constructor <;> omega
        have hc : getI arr mid ≠ t := by
          intro he
          exact ht (he ▸ getD_mem arr (p := mid.toNat) (by omega))
        simp only [if_neg hc]
        by_cases hlt : getI arr mid < t
        · simp only [if_pos hlt]
          exact notFoundOk_consNT (by simp [isTerm4]) (notFoundOk_consNT
            (by simp [isTerm4]) (ih (mid + 1) right (by omega) (by omega) hr))
        · simp only [if_neg hlt]
          exact notFoundOk_consNT (by simp [isTerm4]) (notFoundOk_consNT
            (by simp [isTerm4]) (ih left (mid - 1) (by omega) h0 (by omega)))
      · simp only [if_neg hlr]
        exact ⟨[], rfl, by simp⟩

theorem jumpScan_found (arr : List Int) (t : Int) (hi i : Nat)
    (hhi : hi ≤ arr.length)
    (hocc : ∃ p, i ≤ p ∧ p < hi ∧ (sortedVals arr).getD p 0 = t) :
    FoundOkIn arr t (jumpScan (sortedVals arr) (sortedWithIdx arr) t hi i) := by
  induction i using jumpScan.induct (sortedVals arr) (sortedWithIdx arr) t hi with
  | case1 i h ih =>
      rw [jumpScan]
      by_cases hc : (sortedVals arr).getD i 0 = t
      · simp only [dif_pos h, if_pos hc]
        have hi2 : i < arr.length := lt_of_lt_of_le h hhi
        have hspec := origIdx_spec arr hi2
        exact ⟨[.compare [(origIdx arr i : Int)] (some t)], (origIdx arr i : Int),
          rfl, by simp [isTerm4], by simp, by simpa using hspec.1,
          by simpa using hspec.2.trans hc⟩
      · simp only [dif_pos h, if_neg hc]
        refine foundOkIn_consNT (by simp [isTerm4]) (ih ?_)
        rcases hocc with ⟨p, hip, hp, hpt⟩
        rcases Nat.eq_or_lt_of_le hip with rfl | hlt
        · exact absurd hpt hc
        · exact ⟨p, hlt, hp, hpt⟩
  | case2 i h =>
      rcases hocc with ⟨p, hip, hp, _⟩
      omega

theorem jumpScan_nf (arr : List Int) (t : Int) (hi i : Nat)
    (hocc : ∀ p, i ≤ p → p < hi → (sortedVals arr).getD p 0 ≠ t) :
    NotFoundOk t (jumpScan (sortedVals arr) (sortedWithIdx arr) t hi i) := by
  induction i using jumpScan.induct (sortedVals arr) (sortedWithIdx arr) t hi with
  | case1 i h ih =>
      rw [jumpScan]
      have hc : (sortedVals arr).getD i 0 ≠ t := hocc i (le_refl i) h
      simp only [dif_pos h, if_neg hc]
      exact notFoundOk_consNT (by simp [isTerm4])
        (ih (fun p hip hp => hocc p (by omega) hp))
  | case2 i h =>
      rw [jumpScan]
      simp only [dif_neg h]
      exact ⟨[], rfl, by simp⟩

theorem jumpLoop_found (arr : List Int) (t : Int) (stepSize : Nat)
    (hss : 0 < stepSize) (ht : t ∈ sortedVals arr) :
    ∀ (m prev step : Nat) (hst : prev < step), arr.length - prev ≤ m →
      (∀ k, k < prev → k < arr.length → (sortedVals arr).getD k 0 < t) →
      FoundOkIn arr t (jumpLoop (sortedVals arr) (sortedWithIdx arr) t stepSize
        arr.length hss prev step hst) := by
  have hsort := sortedVals_sorted arr
  have hlen := length_sortedVals arr
  intro m
  induction m with
  | zero =>
      intro prev step hst hm hinv
      rcases (mem_iff_getD _ t).mp ht with ⟨p, hp, hpt⟩
      have : p < prev := by omega
      exact absurd hpt (ne_of_lt (hinv p this (by omega)))
  | succ m ih =>
      intro prev step hst hm hinv
      rcases (mem_iff_getD _ t).mp ht with ⟨p, hp, hpt⟩
      have hpge : ∀ q, q < arr.length → (sortedVals arr).getD q 0 = t → prev ≤ q := by
        intro q hq hqt
        by_contra hno
        exact absurd hqt (ne_of_lt (hinv q (by omega) hq))
      have hprev : prev < arr.length := by
        have := hpge p (by omega) hpt
        omega
      rw [jumpLoop]
      by_cases hcond : prev < arr.length ∧
          (sortedVals arr).getD (min step arr.length - 1) 0 < t
      · simp only [if_pos hcond]
        by_cases hns : arr.length ≤ step
        · exfalso
          have hmin : min step arr.length = arr.length := by omega
          have : (sortedVals arr).getD p 0 ≤
              (sortedVals arr).getD (arr.length - 1) 0 :=
            sorted_getD_le hsort (by omega) (by omega)
          rw [hmin] at hcond
          omega
        · simp only [if_neg hns]
          refine foundOkIn_consNT (by simp [isTerm4]) ?_
          apply ih step (step + stepSize) (by omega) (by omega)
          intro k hk hk2
          have hmin : min step arr.length - 1 = step - 1 := by omega
          rw [hmin] at hcond
          calc (sortedVals arr).getD k 0 ≤ (sortedVals arr).getD (step - 1) 0 :=
                sorted_getD_le hsort (by omega) (by omega)
            _ < t := hcond.2
      · simp only [if_neg hcond]
        have hge : t ≤ (sortedVals arr).getD (min step arr.length - 1) 0 := by
          rcases not_and_or.mp hcond with hbad | hbad
          · exact absurd hprev hbad
          · omega
        have hkmin : min step arr.length - 1 < arr.length := by omega
        rcases occ_le_of_ge hsort (t := t) (by omega) hge (by omega) hpt with
          ⟨q, hq1, hq2, hq3⟩
        apply jumpScan_found arr t (min step arr.length) prev (by omega)
        refine ⟨q, hpge q (by omega) hq3, by omega, hq3⟩

theorem jumpLoop_nf (arr : List Int) (t : Int) (stepSize : Nat)
    (hss : 0 < stepSize) (ht : t ∉ sortedVals arr) :
    ∀ (m prev step : Nat) (hst : prev < step), arr.length - prev ≤ m →
      NotFoundOk t (jumpLoop (sortedVals arr) (sortedWithIdx arr) t stepSize
        arr.length hss prev step hst) := by
  have hnocc : ∀ q, q < arr.length → (sortedVals arr).getD q 0 ≠ t := by
    intro q hq hqt
    exact ht (hqt ▸ getD_mem _ (by rw [length_sortedVals arr]; exact hq))
  intro m
  induction m with
  | zero =>
      intro prev step hst hm
      rw [jumpLoop]
      have hcond : ¬ (prev < arr.length ∧
          (sortedVals arr).getD (min step arr.length - 1) 0 < t) := by
        intro hcond
        omega
      simp only [if_neg hcond]
      apply jumpScan_nf
      intro p hp1 hp2
      exact hnocc p (by omega)
  | succ m ih =>
      intro prev step hst hm
      rw [jumpLoop]
      by_cases hcond : prev < arr.length ∧
          (sortedVals arr).getD (min step arr.length - 1) 0 < t
      · simp only [if_pos hcond]
        by_cases hns : arr.length ≤ step
        · simp only [if_pos hns]
          exact ⟨[.compare [((sortedWithIdx arr).getD (min step arr.length - 1)
            (0, 0)).2] (some t)], rfl, by simp [isTerm4]⟩
        · simp only [if_neg hns]
          exact notFoundOk_consNT (by simp [isTerm4])
            (ih step (step + stepSize) (by omega) (by omega))
      · simp only [if_neg hcond]
        apply jumpScan_nf
        intro p hp1 hp2
        exact hnocc p (by omega)

theorem ediv_bounds {num d w : Int} (hd : 0 < d) (h0 : 0 ≤ num)
    (hle : num ≤ w * d) : 0 ≤ num / d ∧ num / d ≤ w := by
  refine ⟨Int.ediv_nonneg h0 (le_of_lt hd), ?_⟩
  calc num / d ≤ (w * d) / d := Int.ediv_le_ediv hd hle
    _ = w := Int.mul_ediv_cancel w (ne_of_gt hd)

theorem interpLoop_found (arr : List Int) (t : Int) :
    ∀ (m : Nat) (low high lastPos : Int), (high + 1 - low).toNat ≤ m →
      0 ≤ low → high < (arr.length : Int) →
      (lastPos < low ∨ high < lastPos) →
      (∃ p : Int, low ≤ p ∧ p ≤ high ∧
        (sortedVals arr).getD p.toNat 0 = t) →
      FoundOkIn arr t (interpLoop (sortedVals arr) (sortedWithIdx arr) t
        low high lastPos) := by
  have hsort := sortedVals_sorted arr
  have hlen := length_sortedVals arr
  intro m
  induction m with
  | zero =>
      intro low high lastPos hm h0 hh hlp hocc
      rcases hocc with ⟨p, h1, h2, _⟩
      omega
  | succ m ih =>
      intro low high lastPos hm h0 hh hlp hocc
      rcases hocc with ⟨p, hp1, hp2, hpt⟩
      have hlh : low ≤ high := le_trans hp1 hp2
      have hgl : getI (sortedVals arr) low ≤ t := by
        rw [← hpt]
        exact sorted_getD_le hsort (by omega) (by omega)
      have hgh : t ≤ getI (sortedVals arr) high := by
        rw [← hpt]
        exact sorted_getD_le hsort (by omega) (by omega)
      rw [interpLoop]
      simp only [if_pos (And.intro hlh (And.intro hgl hgh))]
      by_cases heq : getI (sortedVals arr) high = getI (sortedVals arr) low
      · simp only [if_pos heq]
        have hteq : getI (sortedVals arr) low = t := by
          have h1 : (sortedVals arr).getD low.toNat 0 ≤ (sortedVals arr).getD p.toNat 0 :=
            sorted_getD_le hsort (by omega) (by omega)
          have h2 : (sortedVals arr).getD p.toNat 0 ≤ (sortedVals arr).getD high.toNat 0 :=
            sorted_getD_le hsort (by omega) (by omega)
          unfold getI at heq ⊢
          omega
        simp only [if_pos hteq]
        have hlow : low.toNat < arr.length := by omega
        have hspec := origIdx_spec arr hlow
        refine ⟨[], (origIdx arr low.toNat : Int), rfl, by simp, by simp,
          by simpa using hspec.1, ?_⟩
        simpa using hspec.2.trans (by unfold getI at hteq; exact hteq)
      · simp only [if_neg heq]
        have hd : 0 < getI (sortedVals arr) high - getI (sortedVals arr) low := by
          have : getI (sortedVals arr) low ≤ getI (sortedVals arr) high :=
            sorted_getI_le hsort h0 hlh (by omega)
          omega
        have hd1 : t - getI (sortedVals arr) low ≤
            getI (sortedVals arr) high - getI (sortedVals arr) low := by omega
        have hd2 : (0 : Int) ≤ high - low := by omega
        have hd3 : (0 : Int) ≤ t - getI (sortedVals arr) low := by omega
        have hq := ediv_bounds (w := high - low) hd
          (mul_nonneg hd2 hd3) (mul_le_mul_of_nonneg_left hd1 hd2)
        set pos : Int := low + (high - low) * (t - getI (sortedVals arr) low) /
          (getI (sortedVals arr) high - getI (sortedVals arr) low) with hposd
        have hpos : low ≤ pos ∧ pos ≤ high := by omega
        have hnl : ¬ pos = lastPos := by omega
        simp only [if_neg hnl]
        have hnw : ¬ (pos < low ∨ high < pos) := by omega
        simp only [dif_neg hnw]
        by_cases hft : getI (sortedVals arr) pos = t
        · simp only [if_pos hft]
          have hptn : pos.toNat < arr.length := by omega
          have hspec := origIdx_spec arr hptn
          refine ⟨[.compare [(origIdx arr pos.toNat : Int)] (some t)],
            (origIdx arr pos.toNat : Int), rfl, by simp [isTerm4], by simp,
            by simpa using hspec.1, ?_⟩
          simpa using hspec.2.trans (by unfold getI at hft; exact hft)
        · simp only [if_neg hft]
          by_cases hlt : getI (sortedVals arr) pos < t
          · simp only [if_pos hlt]
            refine foundOkIn_consNT (by simp [isTerm4]) ?_
            apply ih (pos + 1) high pos (by omega) (by omega) hh (by omega)
            refine ⟨p, ?_, hp2, hpt⟩
            by_contra hpp
            push_neg at hpp
            have : (sortedVals arr).getD p.toNat 0 ≤
                (sortedVals arr).getD pos.toNat 0 :=
              sorted_getD_le hsort (by omega) (by omega)
            unfold getI at hlt
            omega
          · simp only [if_neg hlt]
            refine foundOkIn_consNT (by simp [isTerm4]) ?_
            apply ih low (pos - 1) pos (by omega) h0 (by omega) (by omega)
            refine ⟨p, hp1, ?_, hpt⟩
            by_contra hpp
            push_neg at hpp
            have : (sortedVals arr).getD pos.toNat 0 ≤
                (sortedVals arr).getD p.toNat 0 :=
              sorted_getD_le hsort (by omega) (by omega)
            unfold getI at hlt hft
            omega

theorem interpLoop_nf (arr : List Int) (t : Int) (ht : t ∉ sortedVals arr) :
    ∀ (m : Nat) (low high lastPos : Int), (high + 1 - low).toNat ≤ m →
      0 ≤ low → high < (arr.length : Int) →
      (lastPos < low ∨ high < lastPos) →
      NotFoundOk t (interpLoop (sortedVals arr) (sortedWithIdx arr) t
        low high lastPos) := by
  have hsort := sortedVals_sorted arr
  have hlen := length_sortedVals arr
  have hnocc : ∀ q : Nat, q < arr.length → (sortedVals arr).getD q 0 ≠ t := by
    intro q hq hqt
    exact ht (hqt ▸ getD_mem _ (by omega))
  intro m
  induction m with
  | zero =>
      intro low high lastPos hm h0 hh hlp
      rw [interpLoop]
      have : ¬ (low ≤ high ∧ getI (sortedVals arr) low ≤ t ∧
          t ≤ getI (sortedVals arr) high) := by
        intro hcond
        omega
      simp only [if_neg this]
      exact ⟨[], rfl, by simp⟩
  | succ m ih =>
      intro low high lastPos hm h0 hh hlp
      rw [interpLoop]
      by_cases hcond : low ≤ high ∧ getI (sortedVals arr) low ≤ t ∧
          t ≤ getI (sortedVals arr) high
      · simp only [if_pos hcond]
        obtain ⟨hlh, hgl, hgh⟩ := hcond
        by_cases heq : getI (sortedVals arr) high = getI (sortedVals arr) low
        · simp only [if_pos heq]
          have hne : ¬ getI (sortedVals arr) low = t := by
            intro he
            exact hnocc low.toNat (by omega) he
          simp only [if_neg hne]
          exact ⟨[], rfl, by simp⟩
        · simp only [if_neg heq]
          have hd : 0 < getI (sortedVals arr) high - getI (sortedVals arr) low := by
            have : getI (sortedVals arr) low ≤ getI (sortedVals arr) high :=
              sorted_getI_le hsort h0 hlh (by omega)
            omega
          have hd1 : t - getI (sortedVals arr) low ≤
              getI (sortedVals arr) high - getI (sortedVals arr) low := by omega
          have hd2 : (0 : Int) ≤ high - low := by omega
          have hd3 : (0 : Int) ≤ t - getI (sortedVals arr) low := by omega
          have hq := ediv_bounds (w := high - low) hd
            (mul_nonneg hd2 hd3) (mul_le_mul_of_nonneg_left hd1 hd2)
          set pos : Int := low + (high - low) * (t - getI (sortedVals arr) low) /
            (getI (sortedVals arr) high - getI (sortedVals arr) low) with hposd
          have hpos : low ≤ pos ∧ pos ≤ high := by omega
          have hnl : ¬ pos = lastPos := by omega
          simp only [if_neg hnl]
          have hnw : ¬ (pos < low ∨ high < pos) := by omega
          simp only [dif_neg hnw]
          have hft : ¬ getI (sortedVals arr) pos = t := by
            intro he
            exact hnocc pos.toNat (by omega) he
          simp only [if_neg hft]
          by_cases hlt : getI (sortedVals arr) pos < t
          · simp only [if_pos hlt]
            exact notFoundOk_consNT (by simp [isTerm4])
              (ih (pos + 1) high pos (by omega) (by omega) hh (by omega))
          · simp only [if_neg hlt]
            exact notFoundOk_consNT (by simp [isTerm4])
              (ih low (pos - 1) pos (by omega) h0 (by omega) (by omega))
      · simp only [if_neg hcond]
        exact ⟨[], rfl, by simp⟩

theorem expScan_found (arr : List Int) (t : Int) (hi j : Nat)
    (hhi : hi < arr.length)
    (hocc : ∃ p, j ≤ p ∧ p ≤ hi ∧ (sortedVals arr).getD p 0 = t) :
    FoundOkIn arr t (expScan (sortedVals arr) (sortedWithIdx arr) t hi j) := by
  induction j using expScan.induct (sortedVals arr) (sortedWithIdx arr) t hi with
  | case1 j h ih =>
      rw [expScan]
      by_cases hc : (sortedVals arr).getD j 0 = t
      · simp only [dif_pos h, if_pos hc]
        have hj2 : j < arr.length := lt_of_le_of_lt h hhi
        have hspec := origIdx_spec arr hj2
        exact ⟨[.compare [(origIdx arr j : Int)] (some t)], (origIdx arr j : Int),
          rfl, by simp [isTerm4], by simp, by simpa using hspec.1,
          by simpa using hspec.2.trans hc⟩
      · simp only [dif_pos h, if_neg hc]
        refine foundOkIn_consNT (by simp [isTerm4]) (ih ?_)
        rcases hocc with ⟨p, hip, hp, hpt⟩
        rcases Nat.eq_or_lt_of_le hip with rfl | hlt
        · exact absurd hpt hc
        · exact ⟨p, hlt, hp, hpt⟩
  | case2 j h =>
      rcases hocc with ⟨p, hip, hp, _⟩
      omega

theorem expScan_nf (arr : List Int) (t : Int) (hi j : Nat)
    (hocc : ∀ p, j ≤ p → p ≤ hi → (sortedVals arr).getD p 0 ≠ t) :
    NotFoundOk t (expScan (sortedVals arr) (sortedWithIdx arr) t hi j) := by
  induction j using expScan.induct (sortedVals arr) (sortedWithIdx arr) t hi with
  | case1 j h ih =>
      rw [expScan]
      have hc : (sortedVals arr).getD j 0 ≠ t := hocc j (le_refl j) h
      simp only [dif_pos h, if_neg hc]
      exact notFoundOk_consNT (by simp [isTerm4])
        (ih (fun p hip hp => hocc p (by omega) hp))
  | case2 j h =>
      rw [expScan]
      simp only [dif_neg h]
      exact ⟨[], rfl, by simp⟩

theorem expLoop_found (arr : List Int) (t : Int) (ht : t ∈ sortedVals arr) :
    ∀ (m i : Nat) (hi1 : 0 < i), arr.length - i ≤ m →
      (i = 1 ∨ (i / 2 < arr.length ∧
        (sortedVals arr).getD (i / 2) 0 < t)) →
      FoundOkIn arr t (expLoop (sortedVals arr) (sortedWithIdx arr) t
        arr.length i hi1) := by
  have hsort := sortedVals_sorted arr
  have hlen := length_sortedVals arr
  have hexit : ∀ (i : Nat) (hi1 : 0 < i),
      ¬ (i < arr.length ∧ (sortedVals arr).getD i 0 < t) →
      (i = 1 ∨ (i / 2 < arr.length ∧ (sortedVals arr).getD (i / 2) 0 < t)) →
      FoundOkIn arr t (expLoop (sortedVals arr) (sortedWithIdx arr) t
        arr.length i hi1) := by
    intro i hi1 hcond hinv
    rcases (mem_iff_getD _ t).mp ht with ⟨p, hp, hpt⟩
    have hn : 0 < arr.length := by omega
    have hlow : ∀ q, q < arr.length → (sortedVals arr).getD q 0 = t →
        i / 2 ≤ q := by
      intro q hq hqt
      rcases hinv with h1 | ⟨h2, h3⟩
      · omega
      · by_contra hno
        have : (sortedVals arr).getD q 0 ≤ (sortedVals arr).getD (i / 2) 0 :=
          sorted_getD_le hsort (by omega) (by omega)
        omega
    rw [expLoop]
    simp only [if_neg hcond]
    apply expScan_found arr t (min i (arr.length - 1)) (i / 2) (by omega)
    by_cases hin : i < arr.length
    · have hge : t ≤ (sortedVals arr).getD i 0 := by
        rcases not_and_or.mp hcond with hbad | hbad
        · exact absurd hin hbad
        · omega
      rcases occ_le_of_ge hsort (t := t) (by omega) hge (by omega) hpt with
        ⟨q, hq1, hq2, hq3⟩
      exact ⟨q, hlow q (by omega) hq3, by omega, hq3⟩
    · exact ⟨p, hlow p (by omega) hpt, by omega, hpt⟩
  intro m
  induction m with
  | zero =>
      intro i hi1 hm hinv
      have hcond : ¬ (i < arr.length ∧ (sortedVals arr).getD i 0 < t) := by
        intro hcond
        omega
      exact hexit i hi1 hcond hinv
  | succ m ih =>
      intro i hi1 hm hinv
      by_cases hcond : i < arr.length ∧ (sortedVals arr).getD i 0 < t
      · rw [expLoop]
        simp only [if_pos hcond]
        refine foundOkIn_consNT (by simp [isTerm4]) ?_
        apply ih (2 * i) (by omega) (by omega)
        right
        constructor
        · omega
        · have : 2 * i / 2 = i := by omega
          rw [this]
          exact hcond.2
      · exact hexit i hi1 hcond hinv

theorem expLoop_nf (arr : List Int) (t : Int) (ht : t ∉ sortedVals arr)
    (hn : 0 < arr.length) :
    ∀ (m i : Nat) (hi1 : 0 < i), arr.length - i ≤ m →
      NotFoundOk t (expLoop (sortedVals arr) (sortedWithIdx arr) t
        arr.length i hi1) := by
  have hnocc : ∀ q : Nat, q < arr.length → (sortedVals arr).getD q 0 ≠ t := by
    intro q hq hqt
    exact ht (hqt ▸ getD_mem _ (by rw [length_sortedVals]; exact hq))
  intro m
  induction m with
  | zero =>
      intro i hi1 hm
      rw [expLoop]
      have hcond : ¬ (i < arr.length ∧ (sortedVals arr).getD i 0 < t) := by
        intro hcond
        omega
      simp only [if_neg hcond]
      exact expScan_nf arr t (min i (arr.length - 1)) (i / 2)
        (fun p _ hp2 => hnocc p (by omega))
  | succ m ih =>
      intro i hi1 hm
      rw [expLoop]
      by_cases hcond : i < arr.length ∧ (sortedVals arr).getD i 0 < t
      · simp only [if_pos hcond]
        exact notFoundOk_consNT (by simp [isTerm4]) (ih (2 * i) (by omega) (by omega))
      · simp only [if_neg hcond]
        exact expScan_nf arr t (min i (arr.length - 1)) (i / 2)
          (fun p _ hp2 => hnocc p (by omega))

/-- The per-producer functional contract of a search run on `(arr, t)`:
a target in the array yields a terminal `found` stream reporting a correct
original index; a missing target yields a terminal `not-found` stream. -/
def SearchBehaves (es : List Ev) (arr : List Int) (t : Int) : Prop :=
  (t ∈ arr → FoundOkIn arr t es) ∧ (t ∉ arr → NotFoundOk t es)

theorem linearSearch_behaves (arr : List Int) (t : Int) :
    SearchBehaves (linearSearch arr t) arr t := by
  constructor
  · intro ht
    rcases (mem_iff_getD arr t).mp ht with ⟨p, hp, hpt⟩
    exact linLoop_found arr t 0 ⟨p, Nat.zero_le p, hp, hpt⟩
  · intro ht
    apply linLoop_nf
    intro p _ hp hpt
    exact ht (hpt ▸ getD_mem arr hp)

theorem binarySearch_found (arr : List Int) (t : Int)
    (hs : List.Sorted (· ≤ ·) arr) (ht : t ∈ arr) :
    FoundOkIn arr t (binarySearch arr t) := by
  rcases (mem_iff_getD arr t).mp ht with ⟨p, hp, hpt⟩
  apply binLoop_found arr t hs arr.length 0 ((arr.length : Int) - 1)
    (by omega) (by omega) (by omega)
  refine ⟨(p : Int), by omega, by omega, ?_⟩
  unfold getI
  simpa using hpt

theorem binarySearch_nf (arr : List Int) (t : Int) (ht : t ∉ arr) :
    NotFoundOk t (binarySearch arr t) :=
  binLoop_nf arr t ht arr.length 0 ((arr.length : Int) - 1)
    (by omega) (by omega) (by omega)

theorem jumpSearch_behaves (arr : List Int) (t : Int) (hne : arr ≠ []) :
    SearchBehaves (jumpSearch arr t) arr t := by
  have hlen : arr.length ≠ 0 := fun h => hne (List.length_eq_zero.mp h)
  rw [jumpSearch]
  simp only [dif_neg hlen]
  constructor
  · intro ht
    exact jumpLoop_found arr t (Nat.sqrt arr.length) _
      ((mem_sortedVals arr t).mpr ht) arr.length 0 (Nat.sqrt arr.length) _
      (by omega) (fun k hk _ => absurd hk (Nat.not_lt_zero k))
  · intro ht
    exact jumpLoop_nf arr t (Nat.sqrt arr.length) _
      (fun hmem => ht ((mem_sortedVals arr t).mp hmem)) arr.length 0
      (Nat.sqrt arr.length) _ (by omega)

theorem interpolationSearch_behaves (arr : List Int) (t : Int)
    (hne : arr ≠ []) : SearchBehaves (interpolationSearch arr t) arr t := by
  have hlen : arr.length ≠ 0 := fun h => hne (List.length_eq_zero.mp h)
  rw [interpolationSearch]
  simp only [if_neg hlen]
  constructor
  · intro ht
    apply interpLoop_found arr t arr.length 0 ((arr.length : Int) - 1) (-1)
      (by omega) (by omega) (by omega) (by omega)
    rcases (mem_iff_getD _ t).mp ((mem_sortedVals arr t).mpr ht) with ⟨p, hp, hpt⟩
    rw [length_sortedVals] at hp
    exact ⟨(p : Int), by omega, by omega, by simpa using hpt⟩
  · intro ht
    exact interpLoop_nf arr t (fun hmem => ht ((mem_sortedVals arr t).mp hmem))
      arr.length 0 ((arr.length : Int) - 1) (-1) (by omega) (by omega)
      (by omega) (by omega)

theorem exponentialSearch_behaves (arr : List Int) (t : Int)
    (hne : arr ≠ []) : SearchBehaves (exponentialSearch arr t) arr t := by
  have hlen : arr.length ≠ 0 := fun h => hne (List.length_eq_zero.mp h)
  have hn : 0 < arr.length := Nat.pos_of_ne_zero hlen
  rw [exponentialSearch]
  simp only [if_neg hlen]
  constructor
  · intro ht
    by_cases h0 : (sortedVals arr).getD 0 0 = t
    · simp only [if_pos h0]
      have hspec := origIdx_spec arr hn
      exact ⟨[], (origIdx arr 0 : Int), rfl, by simp, by simp,
        by simpa using hspec.1, by simpa using hspec.2.trans h0⟩
    · simp only [if_neg h0]
      exact expLoop_found arr t ((mem_sortedVals arr t).mpr ht) arr.length 1
        (by omega) (by omega) (Or.inl rfl)
  · intro ht
    have hns : t ∉ sortedVals arr := fun hmem => ht ((mem_sortedVals arr t).mp hmem)
    have h0 : (sortedVals arr).getD 0 0 ≠ t := by
      intro he
      exact hns (he ▸ getD_mem _ (by rw [length_sortedVals]; exact hn))
    simp only [if_neg h0]
    exact expLoop_nf arr t hns hn arr.length 1 (by omega) (by omega)

theorem linearSearch_empty (t : Int) : linearSearch [] t = [.notFound t] := by
  rw [linearSearch, linLoop]
  simp

theorem binarySearch_empty (t : Int) : binarySearch [] t = [.notFound t] := by
  rw [binarySearch, binLoop]
  simp

theorem jumpSearch_empty (t : Int) : jumpSearch [] t = [.errorEv] := by
  rw [jumpSearch]
  simp

theorem interpolationSearch_empty (t : Int) :
    interpolationSearch [] t = [.errorEv] := by
  rw [interpolationSearch]
  simp

theorem exponentialSearch_empty (t : Int) :
    exponentialSearch [] t = [.errorEv] := by
  rw [exponentialSearch]
  simp

/-- In any loop state that passes the window guard with unequal endpoints,
a probe position that repeats `lastPos` or falls outside `[low, high]`
makes the run terminate immediately with a single `not-found` event. -/
theorem interpLoop_degenerate (sv : List Int) (ix : List (Int × Nat))
    (t low high lastPos : Int)
    (hg : low ≤ high ∧ getI sv low ≤ t ∧ t ≤ getI sv high)
    (hne : ¬ getI sv high = getI sv low)
    (hbail : low + (high - low) * (t - getI sv low) /
        (getI sv high - getI sv low) = lastPos ∨
      low + (high - low) * (t - getI sv low) /
        (getI sv high - getI sv low) < low ∨
      high < low + (high - low) * (t - getI sv low) /
        (getI sv high - getI sv low)) :
    interpLoop sv ix t low high lastPos = [.notFound t] := by
  rw [interpLoop]
  simp only [if_pos hg, if_neg hne]
  rcases hbail with hb | hb
  · simp only [if_pos hb]
  · have hnl : low + (high - low) * (t - getI sv low) /
        (getI sv high - getI sv low) = lastPos ∨
        ¬ low + (high - low) * (t - getI sv low) /
        (getI sv high - getI sv low) = lastPos := em _
    rcases hnl with hb2 | hb2
    · simp only [if_pos hb2]
    · simp only [if_neg hb2, dif_pos hb]

/-- Stream-length bound for the interpolation loop: one `compare` per
iteration, the window shrinks every iteration, plus at most two terminal
events. -/
theorem interpLoop_len (sv : List Int) (ix : List (Int × Nat)) (t : Int) :
    ∀ (m : Nat) (low high lastPos : Int), (high + 1 - low).toNat ≤ m →
      (interpLoop sv ix t low high lastPos).length ≤ m + 2 := by
  intro m
  induction m with
  | zero =>
      intro low high lastPos hm
      rw [interpLoop]
      have : ¬ (low ≤ high ∧ getI sv low ≤ t ∧ t ≤ getI sv high) := by
        intro hcond
        omega
      simp [this]
  | succ m ih =>
      intro low high lastPos hm
      rw [interpLoop]
      split
      · rename_i hg
        split
        · split <;> simp
        · dsimp only
          split
          · simp
          · split
            · simp
            · rename_i heq hb1 hb2
              push_neg at hb2
              split
              · simp
              · split
                · simp only [List.length_cons]
                  have := ih (low + (high - low) * (t - getI sv low) /
                    (getI sv high - getI sv low) + 1) high
                    (low + (high - low) * (t - getI sv low) /
                    (getI sv high - getI sv low)) (by omega)
                  omega
                · simp only [List.length_cons]
                  have := ih low (low + (high - low) * (t - getI sv low) /
                    (getI sv high - getI sv low) - 1)
                    (low + (high - low) * (t - getI sv low) /
                    (getI sv high - getI sv low)) (by omega)
                  omega
      · simp

theorem interpolationSearch_len (arr : List Int) (t : Int) :
    (interpolationSearch arr t).length ≤ arr.length + 2 := by
  rw [interpolationSearch]
  by_cases h : arr.length = 0
  · simp [h]
  · simp only [if_neg h]
    have := interpLoop_len (sortedVals arr) (sortedWithIdx arr) t arr.length
      0 ((arr.length : Int) - 1) (-1) (by omega)
    omega

/- ------------------------------------------------------------------
Sort correctness.  The index-based passes are first related to
structural list functions, whose properties are proved by plain
induction.
------------------------------------------------------------------ -/

theorem set_cons_succ' (a : Int) (l : List Int) (j : Nat) (v : Int) :
    (a :: l).set (j + 1) v = a :: l.set j v := rfl

theorem set_decomp (l : List Int) (j : Nat) (v : Int) :
    j < l.length → l.set j v = l.take j ++ v :: l.drop (j + 1) := by
  induction l generalizing j with
  | nil => intro h; simp at h
  | cons a l ih =>
      intro h
      cases j with
      | zero => simp
      | succ j =>
          rw [set_cons_succ', List.take_succ_cons, List.drop_succ_cons,
            List.cons_append, ih j (by simpa using h)]

theorem drop_getD_cons (l : List Int) (j : Nat) (h : j < l.length) :
    l.drop j = l.getD j 0 :: l.drop (j + 1) := by
  rw [List.drop_eq_getElem_cons h, List.getD_eq_getElem?_getD,
    List.getElem?_eq_getElem h]
  rfl

theorem swapAt_decomp (l : List Int) (j : Nat) (h : j + 1 < l.length) :
    swapAt l j (j + 1) =
      l.take j ++ l.getD (j + 1) 0 :: l.getD j 0 :: l.drop (j + 2) := by
  induction l generalizing j with
  | nil => simp at h
  | cons a l ih =>
      cases j with
      | zero =>
          cases l with
          | nil => simp at h
          | cons b l2 => simp [swapAt]
      | succ j =>
          have h2 : j + 1 < l.length := by simpa using h
          show ((a :: l).set (j + 1) ((a :: l).getD (j + 2) 0)).set (j + 2)
            ((a :: l).getD (j + 1) 0) = _
          rw [List.getD_cons_succ, List.getD_cons_succ, set_cons_succ',
            set_cons_succ', List.take_succ_cons, List.drop_succ_cons,
            List.cons_append]
          exact congrArg (a :: ·) (ih j h2)

theorem take_perm_of_perm_of_drop_eq {l1 l2 : List Int} (k : Nat)
    (hp : l1.Perm l2) (hd : l1.drop k = l2.drop k) :
    (l1.take k).Perm (l2.take k) := by
  have h1 : l1.take k ++ l1.drop k = l1 := List.take_append_drop k l1
  have h2 : l2.take k ++ l2.drop k = l2 := List.take_append_drop k l2
  have h3 : (l1.take k ++ l1.drop k).Perm (l2.take k ++ l2.drop k) := by
    rw [h1, h2]
    exact hp
  rw [hd] at h3
  exact (List.perm_append_right_iff (l2.drop k)).mp h3

theorem getD_mem_take (l : List Int) (j k : Nat) (hjk : j < k)
    (hj : j < l.length) : l.getD j 0 ∈ l.take k := by
  rw [List.getD_eq_getElem?_getD, List.getElem?_eq_getElem hj]
  have : l[j] ∈ l.take k := by
    rw [List.mem_take_iff_getElem]
    exact ⟨j, by omega, rfl⟩
  simpa using this

/-- One bubble pass over the first `b + 1` positions of a list
(comparisons at offsets `0, …, b - 1`). -/
def passAux : List Int → Nat → List Int
  | x :: y :: rest, b + 1 =>
      if x > y then y :: passAux (x :: rest) b else x :: passAux (y :: rest) b
  | l, _ => l

theorem passAux_nil (b : Nat) : passAux [] b = [] := by
  cases b <;> rfl

theorem passAux_single (x : Int) (b : Nat) : passAux [x] b = [x] := by
  cases b <;> rfl

theorem passAux_zero (l : List Int) : passAux l 0 = l := by
  cases l with
  | nil => rfl
  | cons x l =>
      cases l with
      | nil => rfl
      | cons y rest => rfl

theorem passAux_length (l : List Int) (b : Nat) :
    (passAux l b).length = l.length := by
  induction b generalizing l with
  | zero => rw [passAux_zero]
  | succ b ih =>
      match l with
      | [] => rfl
      | [x] => rfl
      | x :: y :: rest =>
          rw [passAux]
          by_cases h : x > y
          · simp only [if_pos h, List.length_cons]
            rw [ih (x :: rest)]
            simp
          · simp only [if_neg h, List.length_cons]
            rw [ih (y :: rest)]
            simp

theorem passAux_perm (l : List Int) (b : Nat) : (passAux l b).Perm l := by
  induction b generalizing l with
  | zero => rw [passAux_zero]
  | succ b ih =>
      match l with
      | [] => simp [passAux_nil]
      | [x] => simp [passAux_single]
      | x :: y :: rest =>
          rw [passAux]
          by_cases h : x > y
          · simp only [if_pos h]
            exact ((ih (x :: rest)).cons y).trans (List.Perm.swap x y rest)
          · simp only [if_neg h]
            exact (ih (y :: rest)).cons x

theorem passAux_drop (l : List Int) (b : Nat) :
    (passAux l b).drop (b + 1) = l.drop (b + 1) := by
  induction b generalizing l with
  | zero => rw [passAux_zero]
  | succ b ih =>
      match l with
      | [] => rw [passAux_nil]
      | [x] => rw [passAux_single]
      | x :: y :: rest =>
          rw [passAux]
          by_cases h : x > y
          · simp only [if_pos h]
            show (passAux (x :: rest) b).drop (b + 1) = (y :: rest).drop (b + 1)
            rw [ih (x :: rest)]
            simp
          · simp only [if_neg h]
            show (passAux (y :: rest) b).drop (b + 1) = (y :: rest).drop (b + 1)
            exact ih (y :: rest)

theorem passAux_take_perm (l : List Int) (b : Nat) :
    ((passAux l b).take (b + 1)).Perm (l.take (b + 1)) :=
  take_perm_of_perm_of_drop_eq (b + 1) (passAux_perm l b) (passAux_drop l b)

theorem passAux_max (l : List Int) (b : Nat) (hb : b < l.length) :
    ∀ x ∈ (passAux l b).take (b + 1), x ≤ (passAux l b).getD b 0 := by
  induction b generalizing l with
  | zero =>
      rw [passAux_zero]
      intro x hx
      match l, hb with
      | z :: rest, _ =>
          simp only [List.take_succ_cons, List.take_zero] at hx
          simp only [List.mem_singleton] at hx
          simp [hx]
  | succ b ih =>
      match l with
      | [] => simp at hb
      | [z] => simp at hb
      | x :: y :: rest =>
          intro w hw
          rw [passAux] at hw ⊢
          by_cases h : x > y
          · simp only [if_pos h] at hw ⊢
            rw [List.take_succ_cons] at hw
            rw [List.getD_cons_succ]
            have hb2 : b < (x :: rest).length := by
              simp at hb ⊢
              omega
            rcases List.mem_cons.mp hw with rfl | hw2
            · have hxm : x ∈ (passAux (x :: rest) b).take (b + 1) :=
                (passAux_take_perm (x :: rest) b).mem_iff.mpr
                  (by simp [List.take_succ_cons])
              have := ih (x :: rest) hb2 x hxm
              omega
            · exact ih (x :: rest) hb2 w hw2
          · simp only [if_neg h] at hw ⊢
            rw [List.take_succ_cons] at hw
            rw [List.getD_cons_succ]
            have hb2 : b < (y :: rest).length := by
              simp at hb ⊢
              omega
            rcases List.mem_cons.mp hw with rfl | hw2
            · have hym : y ∈ (passAux (y :: rest) b).take (b + 1) :=
                (passAux_take_perm (y :: rest) b).mem_iff.mpr
                  (by simp [List.take_succ_cons])
              have := ih (y :: rest) hb2 y hym
              omega
            · exact ih (y :: rest) hb2 w hw2

/-- The inner bubble loop is the structural pass on the unprocessed part. -/
theorem bubbleInner_eq_passAux (steps : List Int) (i j : Nat) :
    (bubbleInner steps i j).2 =
      steps.take j ++ passAux (steps.drop j) (steps.length - i - 1 - j) := by
  induction steps, i, j using bubbleInner.induct with
  | case1 steps i j h hc s2 ih =>
      rw [bubbleInner]
      simp only [dif_pos h, if_pos hc]
      rw [show s2 = swapAt steps j (j + 1) from rfl] at ih
      have hj1 : j + 1 < steps.length := by omega
      have hdec := swapAt_decomp steps j hj1
      have hlen : (swapAt steps j (j + 1)).length = steps.length := by
        simp
      have htake : (swapAt steps j (j + 1)).take (j + 1) =
          steps.take j ++ [steps.getD (j + 1) 0] := by
        rw [hdec]
        rw [List.take_append_eq_append_take]
        have hlt : (steps.take j).length = j := by
          simp
          omega
        rw [hlt]
        simp
      have hdrop : (swapAt steps j (j + 1)).drop (j + 1) =
          steps.getD j 0 :: steps.drop (j + 2) := by
        rw [hdec]
        rw [List.drop_append_eq_append_drop]
        have hlt : (steps.take j).length = j := by
          simp
          omega
        rw [hlt]
        simp
      rw [ih, htake, hdrop, hlen]
      have hd1 : steps.drop j = steps.getD j 0 :: steps.getD (j + 1) 0 ::
          steps.drop (j + 2) := by
        rw [drop_getD_cons steps j (by omega), drop_getD_cons steps (j + 1) hj1]
      rw [hd1]
      have hbudget : steps.length - i - 1 - j = (steps.length - i - 1 - (j + 1)) + 1 := by
        omega
      rw [hbudget, passAux]
      simp only [if_pos hc, List.append_assoc, List.cons_append, List.nil_append]
  | case2 steps i j h hc ih =>
      rw [bubbleInner]
      simp only [dif_pos h, if_neg hc]
      rw [ih]
      have hj1 : j + 1 < steps.length := by omega
      have hd1 : steps.drop j = steps.getD j 0 :: steps.getD (j + 1) 0 ::
          steps.drop (j + 2) := by
        rw [drop_getD_cons steps j (by omega), drop_getD_cons steps (j + 1) hj1]
      have htake : steps.take (j + 1) = steps.take j ++ [steps.getD j 0] := by
        rw [List.take_succ]
        rw [List.getD_eq_getElem?_getD, List.getElem?_eq_getElem (by omega : j < steps.length)]
        rfl
      have hdrop : steps.drop (j + 1) = steps.getD (j + 1) 0 :: steps.drop (j + 2) :=
        drop_getD_cons steps (j + 1) hj1
      rw [htake, hdrop, hd1]
      have hbudget : steps.length - i - 1 - j = (steps.length - i - 1 - (j + 1)) + 1 := by
        omega
      rw [hbudget, passAux]
      simp only [if_neg hc, List.append_assoc, List.cons_append, List.nil_append]
  | case3 steps i j h =>
      rw [bubbleInner]
      simp only [dif_neg h]
      have : steps.length - i - 1 - j = 0 := by omega
      rw [this, passAux_zero, List.take_append_drop]

/-- The snapshot carried by a mutation event (`swap`, `shift`, `insert`,
`place`, `copy`), if the event is one. -/
def mutSnapshot : Ev → Option (List Int)
  | .swap _ _ a => some a
  | .shift _ a => some a
  | .insertEv _ a => some a
  | .place _ a => some a
  | .copy _ a => some a
  | _ => none

/-- Replaying a stream: every mutation event replaces the tracked array
wholesale with its snapshot (the Driver's update rule). -/
def replay (cur : List Int) (es : List Ev) : List Int :=
  es.foldl (fun c e => (mutSnapshot e).getD c) cur

theorem replay_append (cur : List Int) (es1 es2 : List Ev) :
    replay cur (es1 ++ es2) = replay (replay cur es1) es2 :=
  List.foldl_append _ _ es1 es2

theorem bubbleInner_replay (steps : List Int) (i j : Nat) :
    replay steps (bubbleInner steps i j).1 = (bubbleInner steps i j).2 := by
  induction steps, i, j using bubbleInner.induct with
  | case1 steps i j h hc s2 ih =>
      rw [bubbleInner]
      simp only [dif_pos h, if_pos hc]
      rw [show s2 = swapAt steps j (j + 1) from rfl] at ih
      simpa [replay, mutSnapshot] using ih
  | case2 steps i j h hc ih =>
      rw [bubbleInner]
      simp only [dif_pos h, if_neg hc]
      simpa [replay, mutSnapshot] using ih
  | case3 steps i j h =>
      rw [bubbleInner]
      simp [h, replay]

theorem bubbleOuter_replay (steps : List Int) (i : Nat) :
    replay steps (bubbleOuter steps i).1 = (bubbleOuter steps i).2 := by
  induction steps, i using bubbleOuter.induct with
  | case1 steps i h r ih =>
      rw [bubbleOuter]
      simp only [dif_pos h]
      rw [replay_append, bubbleInner_replay]
      exact ih
  | case2 steps i h =>
      rw [bubbleOuter]
      simp [h, replay]

/-- Loop invariant of the outer bubble pass: the suffix from position `k`
is sorted and dominates the prefix. -/
def SuffixOk (steps : List Int) (k : Nat) : Prop :=
  List.Sorted (· ≤ ·) (steps.drop k) ∧
    ∀ x ∈ steps.take k, ∀ y ∈ steps.drop k, x ≤ y

theorem bubbleOuter_ok (steps : List Int) (i : Nat)
    (hinv : SuffixOk steps (steps.length - i)) :
    List.Sorted (· ≤ ·) (bubbleOuter steps i).2 ∧
      (bubbleOuter steps i).2.Perm steps := by
  induction steps, i using bubbleOuter.induct with
  | case1 steps i h r ih =>
      rw [bubbleOuter]
      simp only [dif_pos h]
      have heq : (bubbleInner steps i 0).2 = passAux steps (steps.length - i - 1) := by
        rw [bubbleInner_eq_passAux]
        simp
      set b := steps.length - i - 1 with hb
      have hbl : b < steps.length := by omega
      set s2 := (bubbleInner steps i 0).2 with hs2
      have hlen : s2.length = steps.length := bubbleInner_length steps i 0
      have hsp : s2.Perm steps := by
        rw [heq]
        exact passAux_perm steps b
      have hsd : s2.drop (b + 1) = steps.drop (b + 1) := by
        rw [heq]
        exact passAux_drop steps b
      have hstp : (s2.take (b + 1)).Perm (steps.take (b + 1)) := by
        rw [heq]
        exact passAux_take_perm steps b
      have hb1 : b + 1 = steps.length - i := by omega
      have hM : ∀ x ∈ s2.take (b + 1), x ≤ s2.getD b 0 := by
        rw [heq]
        exact passAux_max steps b hbl
      have hMdom : ∀ y ∈ steps.drop (b + 1), s2.getD b 0 ≤ y := by
        intro y hy
        have hm1 : s2.getD b 0 ∈ s2.take (b + 1) :=
          getD_mem_take s2 b (b + 1) (by omega) (by omega)
        have hm2 : s2.getD b 0 ∈ steps.take (b + 1) := hstp.mem_iff.mp hm1
        exact hinv.2 _ (hb1 ▸ hm2) y (hb1 ▸ hy)
      have hinv2 : SuffixOk s2 (s2.length - (i + 1)) := by
        have hk : s2.length - (i + 1) = b := by omega
        rw [hk]
        constructor
        · rw [drop_getD_cons s2 b (by omega), List.sorted_cons]
          constructor
          · intro y hy
            rw [hsd] at hy
            exact hMdom y hy
          · rw [hsd]
            exact hb1 ▸ hinv.1
        · intro x hx y hy
          have hx2 : x ∈ s2.take (b + 1) := by
            have : s2.take b = (s2.take (b + 1)).take b := by
              rw [List.take_take]
              congr 1
              omega
            rw [this] at hx
            exact List.take_subset _ _ hx
          rw [drop_getD_cons s2 b (by omega)] at hy
          rcases List.mem_cons.mp hy with rfl | hy2
          · exact hM x hx2
          · rw [hsd] at hy2
            have hx3 : x ∈ steps.take (b + 1) := hstp.mem_iff.mp hx2
            exact hinv.2 x (hb1 ▸ hx3) y (hb1 ▸ hy2)
      rcases ih hinv2 with ⟨hs, hp⟩
      exact ⟨hs, hp.trans hsp⟩
  | case2 steps i h =>
      rw [bubbleOuter]
      simp only [dif_neg h]
      have : steps.length - i = 0 := by omega
      rw [this] at hinv
      exact ⟨by simpa using hinv.1, List.Perm.refl steps⟩

/-- The reference ascending sort. -/
def refSort (l : List Int) : List Int := l.insertionSort (· ≤ ·)

theorem refSort_sorted (l : List Int) : List.Sorted (· ≤ ·) (refSort l) :=
  List.sorted_insertionSort _ l

theorem refSort_perm (l : List Int) : (refSort l).Perm l :=
  List.perm_insertionSort _ l

theorem sorted_perm_eq_refSort {l res : List Int}
    (hp : res.Perm l) (hs : List.Sorted (· ≤ ·) res) : res = refSort l :=
  List.eq_of_perm_of_sorted (hp.trans (refSort_perm l).symm) hs (refSort_sorted l)

theorem bubbleSort_replay (arr : List Int) :
    replay arr (bubbleSort arr) = refSort arr := by
  have h0 : SuffixOk arr (arr.length - 0) := by
    constructor
    · simp
    · intro x _ y hy
      simp at hy
  rcases bubbleOuter_ok arr 0 h0 with ⟨hs, hp⟩
  rw [bubbleSort, bubbleOuter_replay]
  exact sorted_perm_eq_refSort hp hs

theorem getD_set_ne' (l : List Int) (n k : Nat) (v : Int) (h : n ≠ k) :
    (l.set n v).getD k 0 = l.getD k 0 := by
  simp only [List.getD_eq_getElem?_getD]
  rw [List.getElem?_set_ne h]

theorem getD_set_self' (l : List Int) (n : Nat) (v : Int) (h : n < l.length) :
    (l.set n v).getD n 0 = v := by
  simp only [List.getD_eq_getElem?_getD]
  rw [List.getElem?_set_self h]
  rfl

theorem swapAt_getD (l : List Int) (i m k : Nat) (him : i ≠ m)
    (hi : i < l.length) (hm : m < l.length) :
    (swapAt l i m).getD k 0 =
      if k = i then l.getD m 0 else if k = m then l.getD i 0
      else l.getD k 0 := by
  unfold swapAt
  by_cases hki : k = i
  · subst hki
    rw [if_pos rfl, getD_set_ne' _ _ _ _ (fun he => him he.symm)]
    exact getD_set_self' l k _ hi
  · rw [if_neg hki]
    by_cases hkm : k = m
    · subst hkm
      rw [if_pos rfl]
      exact getD_set_self' _ _ _ (by simpa using hm)
    · rw [if_neg hkm, getD_set_ne' _ _ _ _ (fun he => hkm he.symm),
        getD_set_ne' _ _ _ _ (fun he => hki he.symm)]

theorem headSwap_perm : ∀ (m : Nat) (l : List Int), m < l.length →
    (l.getD m 0 :: l.set m (x : Int)).Perm (x :: l) := by
  intro m
  induction m with
  | zero =>
      intro l hm
      match l, hm with
      | y :: r, _ =>
          simp only [List.getD_cons_zero, List.set_cons_zero]
          exact List.Perm.swap x y r
  | succ m ih =>
      intro l hm
      match l, hm with
      | y :: r, hm2 =>
          rw [List.getD_cons_succ, set_cons_succ']
          have h2 : m < r.length := by simpa using hm2
          exact ((List.Perm.swap y (r.getD m 0) (r.set m x)).trans
            ((ih r h2).cons y)).trans (List.Perm.swap x y r)

theorem swapAt_perm (l : List Int) (i m : Nat) (him : i < m)
    (hm : m < l.length) : (swapAt l i m).Perm l := by
  induction i generalizing l m with
  | zero =>
      match l, hm with
      | y :: r, hm2 =>
          match m, him with
          | m' + 1, _ =>
              have hr : m' < r.length := by simpa using hm2
              unfold swapAt
              rw [List.getD_cons_succ, List.set_cons_zero, List.getD_cons_zero,
                set_cons_succ']
              exact headSwap_perm m' r hr
  | succ i ih =>
      match l, hm with
      | y :: r, hm2 =>
          match m, him with
          | m' + 1, him2 =>
              unfold swapAt
              rw [List.getD_cons_succ, List.getD_cons_succ, set_cons_succ',
                set_cons_succ']
              exact (ih r m' (by omega) (by simpa using hm2)).cons y

theorem mem_drop_getD (l : List Int) (i : Nat) (y : Int) :
    y ∈ l.drop i ↔ ∃ k, i ≤ k ∧ k < l.length ∧ l.getD k 0 = y := by
  constructor
  · intro hy
    rcases List.mem_iff_getElem.mp hy with ⟨j, hj, he⟩
    refine ⟨i + j, by omega, ?_, ?_⟩
    · have := hj
      simp only [List.length_drop] at this
      omega
    · have hl : i + j < l.length := by
        have := hj
        simp only [List.length_drop] at this
        omega
      rw [List.getD_eq_getElem?_getD, List.getElem?_eq_getElem hl]
      rw [List.getElem_drop] at he
      simpa using he
  · rintro ⟨k, hik, hk, he⟩
    have hj : k - i < (l.drop i).length := by
      simp only [List.length_drop]
      omega
    rw [List.mem_iff_getElem]
    refine ⟨k - i, hj, ?_⟩
    rw [List.getElem_drop]
    have hsub : i + (k - i) = k := by omega
    rw [List.getD_eq_getElem?_getD] at he
    rw [List.getElem?_eq_getElem hk] at he
    simp only [Option.getD_some] at he
    simp_rw [hsub]
    exact he

theorem mem_take_getD (l : List Int) (i : Nat) (y : Int) :
    y ∈ l.take i ↔ ∃ k, k < i ∧ k < l.length ∧ l.getD k 0 = y := by
  constructor
  · intro hy
    rcases List.mem_iff_getElem.mp hy with ⟨j, hj, he⟩
    have hj2 : j < i ∧ j < l.length := by
      have := hj
      simp only [List.length_take] at this
      omega
    refine ⟨j, hj2.1, hj2.2, ?_⟩
    rw [List.getD_eq_getElem?_getD, List.getElem?_eq_getElem hj2.2]
    rw [List.getElem_take] at he
    simpa using he
  · rintro ⟨k, hki, hk, he⟩
    exact he ▸ getD_mem_take l k i hki hk

/-- Result of the selection-sort inner scan: a position of the minimum of
the tail from `j` together with the running candidate. -/
theorem selInner_spec (steps : List Int) :
    ∀ (m j minIdx : Nat), steps.length - j ≤ m → minIdx < steps.length →
      minIdx < j →
      (selInner steps j minIdx).2 < steps.length ∧
      steps.getD (selInner steps j minIdx).2 0 ≤ steps.getD minIdx 0 ∧
      (∀ k, j ≤ k → k < steps.length →
        steps.getD (selInner steps j minIdx).2 0 ≤ steps.getD k 0) ∧
      minIdx ≤ (selInner steps j minIdx).2 := by
  intro m
  induction m with
  | zero =>
      intro j minIdx hm hmin hj
      rw [selInner]
      have h : ¬ j < steps.length := by omega
      simp only [dif_neg h]
      exact ⟨hmin, le_refl _, fun k hk1 hk2 => by omega, le_refl _⟩
  | succ m ih =>
      intro j minIdx hm hmin hj
      rw [selInner]
      by_cases h : j < steps.length
      · simp only [dif_pos h]
        by_cases hc : steps.getD j 0 < steps.getD minIdx 0
        · simp only [if_pos hc]
          rcases ih (j + 1) j (by omega) h (by omega) with ⟨h1, h2, h3, h4⟩
          refine ⟨h1, le_of_lt (lt_of_le_of_lt h2 hc), ?_, by omega⟩
          intro k hk1 hk2
          rcases Nat.eq_or_lt_of_le hk1 with rfl | hk3
          · exact h2
          · exact h3 k hk3 hk2
        · simp only [if_neg hc]
          rcases ih (j + 1) minIdx (by omega) hmin (by omega) with ⟨h1, h2, h3, h4⟩
          refine ⟨h1, h2, ?_, h4⟩
          intro k hk1 hk2
          rcases Nat.eq_or_lt_of_le hk1 with rfl | hk3
          · omega
          · exact h3 k hk3 hk2
      · simp only [dif_neg h]
        exact ⟨hmin, le_refl _, fun k hk1 hk2 => by omega, le_refl _⟩

theorem getElem_eq_getD (l : List Int) (k : Nat) (h : k < l.length) :
    l[k] = l.getD k 0 := by
  rw [List.getD_eq_getElem?_getD, List.getElem?_eq_getElem h]
  rfl

theorem take_succ_getD (l : List Int) (k : Nat) (h : k < l.length) :
    l.take (k + 1) = l.take k ++ [l.getD k 0] := by
  rw [List.take_succ, List.getElem?_eq_getElem h]
  rw [getElem_eq_getD l k h]
  rfl

theorem sorted_of_short (l : List Int) (h : l.length ≤ 1) :
    List.Sorted (· ≤ ·) l := by
  match l, h with
  | [], _ => simp
  | [x], _ => simp

/-- Loop invariant of selection sort: sorted prefix dominated by the rest. -/
def PrefixOk (steps : List Int) (i : Nat) : Prop :=
  List.Sorted (· ≤ ·) (steps.take i) ∧
    ∀ x ∈ steps.take i, ∀ y ∈ steps.drop i, x ≤ y

theorem swapAt_take_eq (steps : List Int) (i m : Nat) (him : i < m)
    (hm : m < steps.length) : (swapAt steps i m).take i = steps.take i := by
  apply List.ext_getElem
  · simp
  · intro n h1 h2
    rw [List.getElem_take, List.getElem_take]
    have hn : n < steps.length := by
      simp at h2
      omega
    rw [getElem_eq_getD _ _ (by simpa using hn), getElem_eq_getD _ _ hn]
    rw [swapAt_getD steps i m n (by omega) (by omega) hm]
    have h3 : ¬ n = i := by
      simp at h1
      omega
    have h4 : ¬ n = m := by
      simp at h1
      omega
    rw [if_neg h3, if_neg h4]

theorem selOuter_ok (steps : List Int) (i : Nat) (hinv : PrefixOk steps i) :
    List.Sorted (· ≤ ·) (selOuter steps i).2 ∧
      (selOuter steps i).2.Perm steps := by
  induction steps, i using selOuter.induct with
  | case1 steps i h r m hm s2 ih =>
      rw [selOuter]
      simp only [dif_pos h, if_pos hm]
      rw [show m = (selInner steps (i + 1) i).2 from rfl] at *
      rw [show s2 = swapAt steps i (selInner steps (i + 1) i).2 from rfl] at *
      set mi := (selInner steps (i + 1) i).2 with hmi
      rcases selInner_spec steps (steps.length - (i + 1)) (i + 1) i (by omega)
        (by omega) (by omega) with ⟨hm1, hm2, hm3, hm4⟩
      have him : i < mi := by omega
      have hminall : ∀ k, i ≤ k → k < steps.length →
          steps.getD mi 0 ≤ steps.getD k 0 := by
        intro k hk1 hk2
        rcases Nat.eq_or_lt_of_le hk1 with rfl | hk3
        · exact hm2
        · exact hm3 k hk3 hk2
      set sw := swapAt steps i mi with hsw
      have hlen2 : sw.length = steps.length := by simp [hsw]
      have hperm2 : sw.Perm steps := swapAt_perm steps i mi him hm1
      have htpre : sw.take i = steps.take i := swapAt_take_eq steps i mi him hm1
      have hgi : sw.getD i 0 = steps.getD mi 0 := by
        rw [hsw, swapAt_getD steps i mi i (by omega) (by omega) hm1, if_pos rfl]
      have htsucc : sw.take (i + 1) = steps.take i ++ [steps.getD mi 0] := by
        rw [take_succ_getD sw i (by omega), htpre, hgi]
      have hmem_min : steps.getD mi 0 ∈ steps.drop i :=
        (mem_drop_getD steps i _).mpr ⟨mi, by omega, hm1, rfl⟩
      have hinv2 : PrefixOk sw (i + 1) := by
        constructor
        · rw [htsucc, List.Sorted, List.pairwise_append]
          refine ⟨hinv.1, by simp, ?_⟩
          intro x hx y hy
          simp only [List.mem_singleton] at hy
          subst hy
          exact hinv.2 x hx _ hmem_min
        · intro x hx y hy
          rcases (mem_drop_getD sw (i + 1) y).mp hy with ⟨k, hk1, hk2, hk3⟩
          rw [hlen2] at hk2
          have hkne : ¬ k = i := by omega
          have hyval : y = steps.getD i 0 ∨
              (y = steps.getD k 0 ∧ i + 1 ≤ k) := by
            rw [hsw, swapAt_getD steps i mi k (by omega) (by omega) hm1,
              if_neg hkne] at hk3
            by_cases hkm : k = mi
            · rw [if_pos hkm] at hk3
              exact Or.inl hk3.symm
            · rw [if_neg hkm] at hk3
              exact Or.inr ⟨hk3.symm, hk1⟩
          have hymem : y ∈ steps.drop i := by
            rcases hyval with rfl | ⟨rfl, hk4⟩
            · exact (mem_drop_getD steps i _).mpr ⟨i, le_refl i, by omega, rfl⟩
            · exact (mem_drop_getD steps i _).mpr ⟨k, by omega, hk2, rfl⟩
          have hminy : steps.getD mi 0 ≤ y := by
            rcases hyval with rfl | ⟨rfl, hk4⟩
            · exact hminall i (le_refl i) (by omega)
            · exact hminall k (by omega) hk2
          rw [htsucc] at hx
          rcases List.mem_append.mp hx with hx2 | hx2
          · exact hinv.2 x hx2 y hymem
          · simp only [List.mem_singleton] at hx2
            subst hx2
            exact hminy
      rcases ih hinv2 with ⟨hs, hp⟩
      exact ⟨hs, hp.trans hperm2⟩
  | case2 steps i h r m hm ih =>
      rw [selOuter]
      simp only [dif_pos h, if_neg hm]
      rw [show m = (selInner steps (i + 1) i).2 from rfl] at hm
      have hmi : (selInner steps (i + 1) i).2 = i := by
        by_contra hne
        exact hm hne
      rcases selInner_spec steps (steps.length - (i + 1)) (i + 1) i (by omega)
        (by omega) (by omega) with ⟨hm1, hm2, hm3, hm4⟩
      rw [hmi] at hm3
      have hminall : ∀ k, i ≤ k → k < steps.length →
          steps.getD i 0 ≤ steps.getD k 0 := by
        intro k hk1 hk2
        rcases Nat.eq_or_lt_of_le hk1 with rfl | hk3
        · exact le_refl _
        · exact hm3 k hk3 hk2
      have hinv2 : PrefixOk steps (i + 1) := by
        constructor
        · rw [take_succ_getD steps i (by omega), List.Sorted,
            List.pairwise_append]
          refine ⟨hinv.1, by simp, ?_⟩
          intro x hx y hy
          simp only [List.mem_singleton] at hy
          subst hy
          exact hinv.2 x hx _
            ((mem_drop_getD steps i _).mpr ⟨i, le_refl i, by omega, rfl⟩)
        · intro x hx y hy
          rcases (mem_drop_getD steps (i + 1) y).mp hy with ⟨k, hk1, hk2, hk3⟩
          have hymem : y ∈ steps.drop i :=
            (mem_drop_getD steps i y).mpr ⟨k, by omega, hk2, hk3⟩
          rw [take_succ_getD steps i (by omega)] at hx
          rcases List.mem_append.mp hx with hx2 | hx2
          · exact hinv.2 x hx2 y hymem
          · simp only [List.mem_singleton] at hx2
            subst hx2
            rw [← hk3]
            exact hminall k (by omega) hk2
      exact ih hinv2
  | case3 steps i h =>
      rw [selOuter]
      simp only [dif_neg h]
      refine ⟨?_, List.Perm.refl steps⟩
      have hsteps : steps = steps.take i ++ steps.drop i :=
        (List.take_append_drop i steps).symm
      rw [hsteps, List.Sorted, List.pairwise_append] at *
      refine ⟨hinv.1, ?_, ?_⟩
      · apply sorted_of_short
        simp
        omega
      · intro x hx y hy
        exact hinv.2 x (by simpa using hx) y (by simpa using hy)

theorem replay_cons (c : List Int) (e : Ev) (es : List Ev) :
    replay c (e :: es) = replay ((mutSnapshot e).getD c) es := rfl

theorem selInner_replay (steps : List Int) :
    ∀ (m j minIdx : Nat) (c : List Int), steps.length - j ≤ m →
      replay c (selInner steps j minIdx).1 = c := by
  intro m
  induction m with
  | zero =>
      intro j minIdx c hm
      rw [selInner]
      simp only [dif_neg (by omega : ¬ j < steps.length)]
      rfl
  | succ m ih =>
      intro j minIdx c hm
      rw [selInner]
      by_cases h : j < steps.length
      · simp only [dif_pos h]
        by_cases hc : steps.getD j 0 < steps.getD minIdx 0
        · simp only [if_pos hc, replay_cons, mutSnapshot]
          exact ih (j + 1) j c (by omega)
        · simp only [if_neg hc, replay_cons, mutSnapshot]
          exact ih (j + 1) minIdx c (by omega)
      · simp only [dif_neg h]
        rfl

theorem replay_nil (c : List Int) : replay c [] = c := rfl

theorem selOuter_replay (steps : List Int) (i : Nat) :
    replay steps (selOuter steps i).1 = (selOuter steps i).2 := by
  induction steps, i using selOuter.induct with
  | case1 steps i h r m hm s2 ih =>
      rw [selOuter]
      simp only [dif_pos h, if_pos hm]
      simp only [replay_append, replay_cons, mutSnapshot, Option.getD_none,
        Option.getD_some]
      exact ih
  | case2 steps i h r m hm ih =>
      rw [selOuter]
      simp only [dif_pos h, if_neg hm]
      simp only [replay_append, replay_cons, mutSnapshot, Option.getD_none]
      rw [selInner_replay steps (steps.length - (i + 1)) _ _ _ (by omega)]
      exact ih
  | case3 steps i h =>
      rw [selOuter]
      simp only [dif_neg h]
      rfl

theorem selectionSort_replay (arr : List Int) :
    replay arr (selectionSort arr) = refSort arr := by
  have h0 : PrefixOk arr 0 := by
    constructor
    · simp
    · intro x hx
      simp at hx
  rcases selOuter_ok arr 0 h0 with ⟨hs, hp⟩
  rw [selectionSort, replay_append, selOuter_replay]
  simp only [replay_cons, mutSnapshot, Option.getD_none, replay_nil]
  exact sorted_perm_eq_refSort hp hs

theorem getD_drop' (l : List Int) (i m : Nat) :
    (l.drop i).getD m 0 = l.getD (i + m) 0 := by
  simp [List.getD_eq_getElem?_getD, List.getElem?_drop]

/-- Full characterization of the inner insertion loop: it stops at some
cut point `k` (final `j` is `k - 1`), leaves positions `0..k` untouched,
copies `steps[k..j]` one slot to the right, leaves the tail untouched;
every shifted element exceeds `current` and the element before the cut
(if any) does not. -/
theorem insInner_spec (steps : List Int) (cur : Int) (j : Int)
    (hj1 : -1 ≤ j) (hj2 : j + 1 < (steps.length : Int)) :
    ∃ k : Nat, (insInner steps cur j).2.2 = (k : Int) - 1 ∧
      (k : Int) ≤ j + 1 ∧
      (insInner steps cur j).2.1 =
        steps.take (k + 1) ++ (steps.drop k).take ((j + 1).toNat - k) ++
          steps.drop ((j + 1).toNat + 1) ∧
      (∀ m : Nat, k ≤ m → (m : Int) ≤ j → cur < steps.getD m 0) ∧
      (k = 0 ∨ steps.getD (k - 1) 0 ≤ cur) := by
  induction steps, cur, j using insInner.induct with
  | case1 steps cur j hj hc s2 ih =>
      rw [insInner]
      simp only [dif_pos hj, if_pos hc]
      rw [show s2 = steps.set ((j + 1).toNat) (getI steps j) from rfl] at ih
      have hp : (j + 1).toNat = j.toNat + 1 := by omega
      have hlen : (steps.set ((j + 1).toNat) (getI steps j)).length =
          steps.length := List.length_set ..
      obtain ⟨k, hk1, hk2, hk3, hk4, hk5⟩ :=
        ih (by omega) (by rw [hlen]; omega)
      have hjlt : j.toNat + 1 < steps.length := by omega
      have hk2' : k ≤ j.toNat := by omega
      have hdecomp : steps.set ((j + 1).toNat) (getI steps j) =
          steps.take (j.toNat + 1) ++
            steps.getD j.toNat 0 :: steps.drop (j.toNat + 2) := by
        rw [hp]
        exact set_decomp steps (j.toNat + 1) _ hjlt
      refine ⟨k, hk1, by omega, ?_, ?_, ?_⟩
      · rw [hk3]
        have e1 : (steps.set ((j + 1).toNat) (getI steps j)).take (k + 1) =
            steps.take (k + 1) := by
          rw [hdecomp,
            List.take_append_of_le_length
              (by simp only [List.length_take]; omega),
            List.take_take, min_eq_left (by omega)]
        have e2 : ((steps.set ((j + 1).toNat) (getI steps j)).drop k).take
              ((j - 1 + 1).toNat - k) =
            (steps.drop k).take (j.toNat - k) := by
          have hjt : (j - 1 + 1).toNat = j.toNat := by omega
          rw [hjt, hdecomp,
            List.drop_append_of_le_length
              (by simp only [List.length_take]; omega),
            List.take_append_of_le_length
              (by simp only [List.length_drop, List.length_take]; omega),
            List.drop_take, List.take_take, min_eq_left (by omega)]
        have e3 : (steps.set ((j + 1).toNat) (getI steps j)).drop
              ((j - 1 + 1).toNat + 1) =
            steps.getD j.toNat 0 :: steps.drop (j.toNat + 2) := by
          have hjt : (j - 1 + 1).toNat = j.toNat := by omega
          rw [hjt, hdecomp,
            List.drop_append_of_le_length
              (by simp only [List.length_take]; omega),
            List.drop_take]
          simp
        rw [e1, e2, e3, hp]
        have e4 : (steps.drop k).take (j.toNat + 1 - k) =
            (steps.drop k).take (j.toNat - k) ++ [steps.getD j.toNat 0] := by
          have hidx : j.toNat - k < (steps.drop k).length := by
            simp only [List.length_drop]; omega
          rw [show j.toNat + 1 - k = (j.toNat - k) + 1 from by omega,
            take_succ_getD _ _ hidx, getD_drop',
            show k + (j.toNat - k) = j.toNat from by omega]
        rw [e4]
        simp [List.append_assoc]
      · intro m hm1 hm2
        rcases Nat.lt_or_ge m j.toNat with hlt | hge
        · have := hk4 m hm1 (by omega)
          rwa [getD_set_ne' _ _ _ _ (by omega)] at this
        · have hmeq : m = j.toNat := by omega
          subst hmeq
          exact hc
      · rcases Nat.eq_zero_or_pos k with rfl | hkpos
        · exact Or.inl rfl
        · right
          rcases hk5 with h0 | hstop
          · omega
          · rwa [getD_set_ne' _ _ _ _ (by omega)] at hstop
  | case2 steps cur j hj hc =>
      rw [insInner]
      simp only [dif_pos hj, if_neg hc]
      have hp : (j + 1).toNat = j.toNat + 1 := by omega
      refine ⟨j.toNat + 1, by omega, by omega, ?_, ?_, Or.inr ?_⟩
      · rw [hp]
        simp [List.take_append_drop]
      · intro m hm1 hm2
        omega
      · simpa [getI] using not_lt.mp hc
  | case3 steps cur j hj =>
      rw [insInner]
      simp only [dif_neg hj]
      refine ⟨0, by omega, by omega, ?_, ?_, Or.inl rfl⟩
      · have hjt : (j + 1).toNat = 0 := by omega
        rw [hjt]
        simp only [Nat.sub_self, Nat.zero_add, List.take_zero, List.drop_zero,
          List.nil_append, List.append_nil]
        exact (List.take_append_drop 1 steps).symm
      · intro m hm1 hm2
        omega

theorem getD_take' (l : List Int) (n m : Nat) (h : m < n) :
    (l.take n).getD m 0 = l.getD m 0 := by
  simp [List.getD_eq_getElem?_getD, List.getElem?_take, h]

/-- Outer insertion loop invariant: if the prefix of length `i` is sorted,
the loop returns a sorted permutation of its input. -/
theorem insOuter_ok (steps : List Int) (i : Nat)
    (hs : List.Sorted (· ≤ ·) (steps.take i)) :
    List.Sorted (· ≤ ·) (insOuter steps i).2 ∧ (insOuter steps i).2.Perm steps := by
  induction steps, i using insOuter.induct with
  | case1 steps i h cur r s3 ih =>
      rw [insOuter]
      simp only [dif_pos h]
      rw [show s3 = (insInner steps (steps.getD i 0) ((i : Int) - 1)).2.1.set
        (((insInner steps (steps.getD i 0) ((i : Int) - 1)).2.2 + 1).toNat)
        (steps.getD i 0) from rfl] at ih
      obtain ⟨k, hk1, hk2, hk3, hk4, hk5⟩ :=
        insInner_spec steps (steps.getD i 0) ((i : Int) - 1) (by omega) (by omega)
      have hti : ((i : Int) - 1 + 1).toNat = i := by omega
      rw [hti] at hk3
      have hki : k ≤ i := by omega
      have hklen : k < steps.length := by omega
      have hs3 : (insInner steps (steps.getD i 0) ((i : Int) - 1)).2.1.set
            (((insInner steps (steps.getD i 0) ((i : Int) - 1)).2.2 + 1).toNat)
            (steps.getD i 0) =
          (steps.take k ++ steps.getD i 0 :: (steps.drop k).take (i - k)) ++
            steps.drop (i + 1) := by
        rw [hk1, show ((k : Int) - 1 + 1).toNat = k from by omega,
          set_decomp _ k _ (by rw [insInner_length]; exact hklen)]
        have e1 : (insInner steps (steps.getD i 0) ((i : Int) - 1)).2.1.take k =
            steps.take k := by
          rw [hk3, List.append_assoc,
            List.take_append_of_le_length (by simp only [List.length_take]; omega),
            List.take_take, min_eq_left (by omega)]
        have e2 : (insInner steps (steps.getD i 0) ((i : Int) - 1)).2.1.drop (k + 1) =
            (steps.drop k).take (i - k) ++ steps.drop (i + 1) := by
          rw [hk3, List.append_assoc,
            List.drop_append_of_le_length (by simp only [List.length_take]; omega),
            List.drop_take]
          simp
        rw [e1, e2]
        simp [List.append_assoc]
      have hbM : ∀ b ∈ (steps.drop k).take (i - k), steps.getD i 0 < b := by
        intro b hb
        rcases (mem_take_getD _ _ _).mp hb with ⟨q, hq1, hq2, hq3⟩
        rw [getD_drop'] at hq3
        have := hk4 (k + q) (by omega) (by omega)
        exact hq3 ▸ this
      have haA : ∀ a ∈ steps.take k, a ≤ steps.getD i 0 := by
        intro a ha
        rcases (mem_take_getD _ _ _).mp ha with ⟨m, hm1, hm2, hm3⟩
        rcases hk5 with h0 | hstop
        · omega
        · have hmono : steps.getD m 0 ≤ steps.getD (k - 1) 0 := by
            have h1 : (steps.take i).getD m 0 = steps.getD m 0 :=
              getD_take' _ _ _ (by omega)
            have h2 : (steps.take i).getD (k - 1) 0 = steps.getD (k - 1) 0 :=
              getD_take' _ _ _ (by omega)
            have := sorted_getD_le hs (show m ≤ k - 1 from by omega)
              (show k - 1 < (steps.take i).length from by
                simp only [List.length_take]; omega)
            rwa [h1, h2] at this
          exact hm3 ▸ le_trans hmono hstop
      have hsort3 : List.Sorted (· ≤ ·)
          (steps.take k ++ steps.getD i 0 :: (steps.drop k).take (i - k)) := by
        rw [List.Sorted, List.pairwise_append]
        refine ⟨?_, ?_, ?_⟩
        · rw [show steps.take k = (steps.take i).take k from by
            rw [List.take_take, min_eq_left hki]]
          exact hs.take
        · rw [List.pairwise_cons]
          refine ⟨fun b hb => le_of_lt (hbM b hb), ?_⟩
          rw [show (steps.drop k).take (i - k) = (steps.take i).drop k from by
            rw [List.drop_take]]
          exact hs.drop
        · intro a ha b hb
          rcases List.mem_cons.mp hb with rfl | hb2
          · exact haA a ha
          · exact le_trans (haA a ha) (le_of_lt (hbM b hb2))
      have et : steps.take (i + 1) =
          steps.take k ++ ((steps.drop k).take (i - k) ++ [steps.getD i 0]) := by
        rw [take_succ_getD steps i h]
        have e5 : steps.take i = steps.take k ++ (steps.drop k).take (i - k) := by
          rw [← List.take_add]
          congr 1
          omega
        rw [e5, List.append_assoc]
      have e6 : (steps.take k ++ ((steps.drop k).take (i - k) ++ [steps.getD i 0])) ++
          steps.drop (i + 1) = steps := by
        rw [← et, List.take_append_drop]
      have hperm : ((steps.take k ++ steps.getD i 0 :: (steps.drop k).take (i - k)) ++
            steps.drop (i + 1)).Perm steps := by
        have p1 : (steps.getD i 0 :: (steps.drop k).take (i - k)).Perm
            ((steps.drop k).take (i - k) ++ [steps.getD i 0]) :=
          (List.perm_append_singleton _ _).symm
        have p2 := (p1.append_left (steps.take k)).append_right (steps.drop (i + 1))
        refine p2.trans ?_
        rw [e6]
      have hfl : (steps.take k ++ steps.getD i 0 :: (steps.drop k).take (i - k)).length
          = i + 1 := by
        simp only [List.length_append, List.length_cons, List.length_take,
          List.length_drop]
        omega
      have hpre : List.Sorted (· ≤ ·)
          (((insInner steps (steps.getD i 0) ((i : Int) - 1)).2.1.set
            (((insInner steps (steps.getD i 0) ((i : Int) - 1)).2.2 + 1).toNat)
            (steps.getD i 0)).take (i + 1)) := by
        rw [hs3, List.take_append_of_le_length (le_of_eq hfl.symm),
          List.take_of_length_le (le_of_eq hfl)]
        exact hsort3
      obtain ⟨hsf, hpf⟩ := ih hpre
      refine ⟨hsf, hpf.trans ?_⟩
      rw [hs3]
      exact hperm
  | case2 steps i h =>
      rw [insOuter]
      simp only [dif_neg h]
      constructor
      · rwa [List.take_of_length_le (by omega)] at hs
      · exact List.Perm.refl _

theorem insInner_replay (steps : List Int) (cur : Int) (j : Int) :
    replay steps (insInner steps cur j).1 = (insInner steps cur j).2.1 := by
  induction steps, cur, j using insInner.induct with
  | case1 steps cur j hj hc s2 ih =>
      rw [insInner]
      simp only [dif_pos hj, if_pos hc]
      simp only [replay_cons, mutSnapshot, Option.getD_none, Option.getD_some]
      exact ih
  | case2 steps cur j hj hc =>
      rw [insInner]
      simp only [dif_pos hj, if_neg hc]
      rfl
  | case3 steps cur j hj =>
      rw [insInner]
      simp only [dif_neg hj]
      rfl

theorem insOuter_replay (steps : List Int) (i : Nat) :
    replay steps (insOuter steps i).1 = (insOuter steps i).2 := by
  induction steps, i using insOuter.induct with
  | case1 steps i h cur r s3 ih =>
      rw [insOuter]
      simp only [dif_pos h]
      simp only [replay_append, replay_cons, mutSnapshot, Option.getD_none,
        Option.getD_some]
      exact ih
  | case2 steps i h =>
      rw [insOuter]
      simp only [dif_neg h]
      rfl

theorem insertionSort_replay (arr : List Int) :
    replay arr (insertionSort arr) = refSort arr := by
  have h1 : List.Sorted (· ≤ ·) (arr.take 1) :=
    sorted_of_short _ (by simp only [List.length_take]; omega)
  rcases insOuter_ok arr 1 h1 with ⟨hs, hp⟩
  rw [insertionSort, insOuter_replay]
  exact sorted_perm_eq_refSort hp hs

theorem take_set_self (l : List Int) (k : Nat) (v : Int) :
    (l.set k v).take k = l.take k := by
  by_cases hk : k < l.length
  · rw [set_decomp _ _ _ hk,
      List.take_append_of_le_length (by simp only [List.length_take]; omega),
      List.take_take, min_self]
  · rw [List.set_eq_of_length_le (by omega)]

theorem set_take_succ (l : List Int) (k : Nat) (v : Int) (hk : k < l.length) :
    (l.set k v).take (k + 1) = l.take k ++ [v] := by
  rw [take_succ_getD _ _ (by simp only [List.length_set]; omega),
    getD_set_self' _ _ _ hk, take_set_self]

/-- The merge loop writes the structural merge of the unconsumed parts of
`leftArr` and `rightArr` into `steps` starting at `k`, leaving everything
before `k` and after the written region untouched. -/
theorem mergeLoop_spec (steps la ra : List Int) (l mid i j k : Nat)
    (hb : k + (la.length - i) + (ra.length - j) ≤ steps.length) :
    (mergeLoop steps la ra l mid i j k).2 =
      steps.take k ++
        List.merge (la.drop i) (ra.drop j) (fun a b => decide (a ≤ b)) ++
        steps.drop (k + (la.length - i) + (ra.length - j)) := by
  induction steps, la, ra, l, mid, i, j, k using mergeLoop.induct with
  | case1 steps la ra l mid i j k h hc s2 ih =>
      rw [mergeLoop]
      simp only [dif_pos h, if_pos hc]
      rw [show s2 = steps.set k (la.getD i 0) from rfl] at ih
      have hk : k < steps.length := by omega
      rw [ih (by simp only [List.length_set]; omega)]
      have hlt : k < k + 1 + (la.length - (i + 1)) + (ra.length - j) := by omega
      rw [set_take_succ _ _ _ hk, List.drop_set_of_lt _ _ hlt,
        drop_getD_cons la i h.1, drop_getD_cons ra j h.2,
        List.cons_merge_cons, if_pos (decide_eq_true hc),
        show k + 1 + (la.length - (i + 1)) + (ra.length - j) =
          k + (la.length - i) + (ra.length - j) from by omega]
      simp [List.append_assoc]
  | case2 steps la ra l mid i j k h hc s2 ih =>
      rw [mergeLoop]
      simp only [dif_pos h, if_neg hc]
      rw [show s2 = steps.set k (ra.getD j 0) from rfl] at ih
      have hk : k < steps.length := by omega
      rw [ih (by simp only [List.length_set]; omega)]
      have hlt : k < k + 1 + (la.length - i) + (ra.length - (j + 1)) := by omega
      rw [set_take_succ _ _ _ hk, List.drop_set_of_lt _ _ hlt,
        drop_getD_cons la i h.1, drop_getD_cons ra j h.2,
        List.cons_merge_cons, if_neg (by simpa using hc),
        show k + 1 + (la.length - i) + (ra.length - (j + 1)) =
          k + (la.length - i) + (ra.length - j) from by omega]
      simp [List.append_assoc]
  | case3 steps la ra l mid i j k h h2 s2 ih =>
      have hj : ra.length ≤ j := by
        by_contra hcon
        exact h ⟨h2, by omega⟩
      rw [mergeLoop]
      simp only [dif_neg h, dif_pos h2]
      rw [show s2 = steps.set k (la.getD i 0) from rfl] at ih
      have hk : k < steps.length := by omega
      rw [ih (by simp only [List.length_set]; omega)]
      have hlt : k < k + 1 + (la.length - (i + 1)) + (ra.length - j) := by omega
      rw [set_take_succ _ _ _ hk, List.drop_set_of_lt _ _ hlt,
        List.drop_eq_nil_of_le hj, List.merge_right, List.merge_right,
        drop_getD_cons la i h2,
        show k + 1 + (la.length - (i + 1)) + (ra.length - j) =
          k + (la.length - i) + (ra.length - j) from by omega]
      simp [List.append_assoc]
  | case4 steps la ra l mid i j k h h2 h3 s2 ih =>
      have hi : la.length ≤ i := by omega
      rw [mergeLoop]
      simp only [dif_neg h, dif_neg h2, dif_pos h3]
      rw [show s2 = steps.set k (ra.getD j 0) from rfl] at ih
      have hk : k < steps.length := by omega
      rw [ih (by simp only [List.length_set]; omega)]
      have hlt : k < k + 1 + (la.length - i) + (ra.length - (j + 1)) := by omega
      rw [set_take_succ _ _ _ hk, List.drop_set_of_lt _ _ hlt,
        List.drop_eq_nil_of_le hi, List.nil_merge, List.nil_merge,
        drop_getD_cons ra j h3,
        show k + 1 + (la.length - i) + (ra.length - (j + 1)) =
          k + (la.length - i) + (ra.length - j) from by omega]
      simp [List.append_assoc]
  | case5 steps la ra l mid i j k h h2 h3 =>
      rw [mergeLoop]
      simp only [dif_neg h, dif_neg h2, dif_neg h3]
      rw [List.drop_eq_nil_of_le (show la.length ≤ i from by omega),
        List.drop_eq_nil_of_le (show ra.length ≤ j from by omega),
        List.merge_right,
        show k + (la.length - i) + (ra.length - j) = k from by omega]
      simp [List.take_append_drop]

theorem mergeLoop_replay (steps la ra : List Int) (l mid i j k : Nat) :
    replay steps (mergeLoop steps la ra l mid i j k).1 =
      (mergeLoop steps la ra l mid i j k).2 := by
  induction steps, la, ra, l, mid, i, j, k using mergeLoop.induct with
  | case1 steps la ra l mid i j k h hc s2 ih =>
      rw [mergeLoop]
      simp only [dif_pos h, if_pos hc]
      simp only [replay_cons, mutSnapshot, Option.getD_none, Option.getD_some]
      exact ih
  | case2 steps la ra l mid i j k h hc s2 ih =>
      rw [mergeLoop]
      simp only [dif_pos h, if_neg hc]
      simp only [replay_cons, mutSnapshot, Option.getD_none, Option.getD_some]
      exact ih
  | case3 steps la ra l mid i j k h h2 s2 ih =>
      rw [mergeLoop]
      simp only [dif_neg h, dif_pos h2]
      simp only [replay_cons, mutSnapshot, Option.getD_some]
      exact ih
  | case4 steps la ra l mid i j k h h2 h3 s2 ih =>
      rw [mergeLoop]
      simp only [dif_neg h, dif_neg h2, dif_pos h3]
      simp only [replay_cons, mutSnapshot, Option.getD_some]
      exact ih
  | case5 steps la ra l mid i j k h h2 h3 =>
      rw [mergeLoop]
      simp only [dif_neg h, dif_neg h2, dif_neg h3]
      rfl

theorem mergeRun_replay (steps : List Int) (l mid r : Nat) :
    replay steps (mergeRun steps l mid r).1 = (mergeRun steps l mid r).2 := by
  rw [mergeRun]
  simp only [replay_append, replay_cons, replay_nil, mutSnapshot,
    Option.getD_none]
  exact mergeLoop_replay steps _ _ l mid 0 0 l

theorem sliceCl_length (steps : List Int) (a b : Nat) (hab : a ≤ b)
    (hb : b < steps.length) :
    (sliceCl steps a b).length = b + 1 - a := by
  rw [sliceCl]
  simp only [List.length_take, List.length_drop]
  omega

theorem msHelper_length (steps : List Int) (l r : Nat) :
    (msHelper steps l r).2.length = steps.length := by
  induction steps, l, r using msHelper.induct with
  | case1 steps l r h mid r1 ih1 ih1b ih2 =>
      rw [msHelper]
      simp only [dif_pos h]
      rw [show r1 = msHelper steps l ((l + r) / 2) from rfl,
        show mid = (l + r) / 2 from rfl] at ih2
      simp only [mergeRun, mergeLoop_length]
      rw [ih2, ih1b]
  | case2 steps l r h =>
      rw [msHelper]
      simp only [dif_neg h]

/-- `mergeSortHelper(left, right)` replaces the region `steps[left..right]`
with its sorted permutation and touches nothing else. -/
theorem msHelper_spec (steps : List Int) (l r : Nat) (hlr : l ≤ r)
    (hr : r < steps.length) :
    (msHelper steps l r).2 =
      steps.take l ++ refSort (sliceCl steps l r) ++ steps.drop (r + 1) := by
  induction steps, l, r using msHelper.induct with
  | case2 steps l r h =>
      have hl : l = r := by omega
      subst hl
      rw [msHelper]
      simp only [dif_neg h]
      have hslice : sliceCl steps l l = [steps.getD l 0] := by
        rw [sliceCl, drop_getD_cons steps l hr]
        simp
      rw [hslice, show refSort [steps.getD l 0] = [steps.getD l 0] from rfl,
        ← take_succ_getD steps l hr]
      exact (List.take_append_drop _ _).symm
  | case1 steps l r h mid r1 ih1 ih1b ih2 =>
      rw [show r1 = msHelper steps l ((l + r) / 2) from rfl,
        show mid = (l + r) / 2 from rfl] at ih2
      rw [msHelper]
      simp only [dif_pos h]
      set m := (l + r) / 2 with hm
      have hml : l ≤ m := by omega
      have hmr : m < r := by omega
      set A := refSort (sliceCl steps l m) with hA
      set B := refSort (sliceCl steps (m + 1) r) with hB
      have e1 := ih1b hml (by omega)
      have hAlen : A.length = m + 1 - l := by
        rw [hA, (refSort_perm _).length_eq,
          sliceCl_length steps l m hml (by omega)]
      have hBlen : B.length = r - m := by
        rw [hB, (refSort_perm _).length_eq,
          sliceCl_length steps (m + 1) r (by omega) hr]
        omega
      have hF1len : (steps.take l ++ A).length = m + 1 := by
        simp only [List.length_append, List.length_take, hAlen]
        omega
      have ht1 : (msHelper steps l m).2.take (m + 1) = steps.take l ++ A := by
        rw [e1, List.take_append_of_le_length (le_of_eq hF1len.symm),
          List.take_of_length_le (le_of_eq hF1len)]
      have hd1 : (msHelper steps l m).2.drop (m + 1) = steps.drop (m + 1) := by
        rw [e1, List.drop_append_of_le_length (le_of_eq hF1len.symm),
          List.drop_eq_nil_of_le (le_of_eq hF1len), List.nil_append]
      have hd2 : (msHelper steps l m).2.drop (r + 1) = steps.drop (r + 1) := by
        have h1 : (msHelper steps l m).2.drop (r + 1) =
            ((msHelper steps l m).2.drop (m + 1)).drop (r - m) := by
          rw [List.drop_drop]
          congr 1
          omega
        rw [h1, hd1, List.drop_drop, show m + 1 + (r - m) = r + 1 from by omega]
      have hs2 : sliceCl (msHelper steps l m).2 (m + 1) r =
          sliceCl steps (m + 1) r := by
        rw [sliceCl, sliceCl, hd1]
      have e2 := ih2 (by omega) (by rw [msHelper_length]; exact hr)
      rw [ht1, hs2, hd2, ← hB] at e2
      set W := (msHelper (msHelper steps l m).2 (m + 1) r).2 with hW
      have hWlen : W.length = steps.length := by
        rw [hW, msHelper_length, msHelper_length]
      have hF2len : ((steps.take l ++ A) ++ B).length = r + 1 := by
        simp only [List.length_append, List.length_take, hAlen, hBlen]
        omega
      have hWt : W.take l = steps.take l := by
        rw [e2, List.take_append_of_le_length (by rw [hF2len]; omega),
          List.take_append_of_le_length (by rw [hF1len]; omega),
          List.take_append_of_le_length (by simp only [List.length_take]; omega),
          List.take_take, min_self]
      have hWdl : W.drop l = A ++ B ++ steps.drop (r + 1) := by
        rw [e2, List.drop_append_of_le_length (by rw [hF2len]; omega),
          List.drop_append_of_le_length (by rw [hF1len]; omega),
          List.drop_append_of_le_length (by simp only [List.length_take]; omega),
          List.drop_take]
        simp
      have hslice1 : sliceCl W l m = A := by
        rw [sliceCl, hWdl,
          List.take_append_of_le_length
            (by simp only [List.length_append, hAlen, hBlen]; omega),
          List.take_append_of_le_length (le_of_eq hAlen.symm),
          List.take_of_length_le (le_of_eq hAlen)]
      have hWdm : W.drop (m + 1) = B ++ steps.drop (r + 1) := by
        rw [e2, List.drop_append_of_le_length (by rw [hF2len]; omega),
          List.drop_append_of_le_length (le_of_eq hF1len.symm),
          List.drop_eq_nil_of_le (le_of_eq hF1len), List.nil_append]
      have hslice2 : sliceCl W (m + 1) r = B := by
        rw [sliceCl, hWdm, show r + 1 - (m + 1) = r - m from by omega,
          List.take_append_of_le_length (le_of_eq hBlen.symm),
          List.take_of_length_le (le_of_eq hBlen)]
      have hWdr : W.drop (r + 1) = steps.drop (r + 1) := by
        rw [e2, List.drop_append_of_le_length (le_of_eq hF2len.symm),
          List.drop_eq_nil_of_le (le_of_eq hF2len), List.nil_append]
      simp only [mergeRun]
      rw [mergeLoop_spec W _ _ l m 0 0 l
        (by rw [hslice1, hslice2, hAlen, hBlen, hWlen]; omega)]
      simp only [List.drop_zero, Nat.sub_zero]
      rw [hslice1, hslice2, hWt,
        show l + A.length + B.length = r + 1 from by rw [hAlen, hBlen]; omega,
        hWdr]
      have hsl : sliceCl steps l m ++ sliceCl steps (m + 1) r =
          sliceCl steps l r := by
        rw [sliceCl, sliceCl, sliceCl,
          show r + 1 - l = (m + 1 - l) + (r - m) from by omega,
          List.take_add, List.drop_drop,
          show l + (m + 1 - l) = m + 1 from by omega,
          show r + 1 - (m + 1) = r - m from by omega]
      have hmerge : List.merge A B (fun a b => decide (a ≤ b)) =
          refSort (sliceCl steps l r) := by
        apply sorted_perm_eq_refSort
        · refine (List.merge_perm_append ..).trans ?_
          exact ((refSort_perm _).append (refSort_perm _)).trans (by rw [hsl])
        · exact (refSort_sorted _).merge (refSort_sorted _)
      rw [hmerge]

theorem msHelper_replay (steps : List Int) (l r : Nat) :
    replay steps (msHelper steps l r).1 = (msHelper steps l r).2 := by
  induction steps, l, r using msHelper.induct with
  | case1 steps l r h mid r1 ih1 ih1b ih2 =>
      rw [msHelper]
      simp only [dif_pos h]
      rw [show r1 = msHelper steps l ((l + r) / 2) from rfl,
        show mid = (l + r) / 2 from rfl] at ih2
      simp only [replay_append, replay_cons, mutSnapshot, Option.getD_none]
      rw [ih1b, ih2, mergeRun_replay]
  | case2 steps l r h =>
      rw [msHelper]
      simp only [dif_neg h]
      rfl

theorem mergeSort_replay (arr : List Int) :
    replay arr (mergeSort arr) = refSort arr := by
  rw [mergeSort]
  by_cases h0 : arr.length = 0
  · rw [if_pos h0]
    have harr : arr = [] := List.eq_nil_of_length_eq_zero h0
    subst harr
    rfl
  · rw [if_neg h0, msHelper_replay,
      msHelper_spec arr 0 (arr.length - 1) (by omega) (by omega)]
    have hsl : sliceCl arr 0 (arr.length - 1) = arr := by
      rw [sliceCl]
      simp only [List.drop_zero]
      exact List.take_of_length_le (by omega)
    rw [hsl, show arr.length - 1 + 1 = arr.length from by omega]
    simp

/- ------------------------------------------------------------------
Stream-termination shapes (C1).
------------------------------------------------------------------ -/

/-- A stream terminated by exactly one of the four spec-terminal events:
it is non-empty, its last event is terminal and nothing before it is. -/
def TermOnce (es : List Ev) : Prop :=
  ∃ pre e, es = pre ++ [e] ∧ isTerm4 e = true ∧ ∀ x ∈ pre, isTerm4 x = false

theorem termOnce_consNT {e : Ev} {es : List Ev} (he : isTerm4 e = false)
    (h : TermOnce es) : TermOnce (e :: es) := by
  rcases h with ⟨pre, x, rfl, hx, hpre⟩
  exact ⟨e :: pre, x, rfl, hx, by
    intro y hy
    rcases List.mem_cons.mp hy with rfl | hmem
    · exact he
    · exact hpre y hmem⟩

theorem foundOkIn_termOnce {arr : List Int} {t : Int} {es : List Ev}
    (h : FoundOkIn arr t es) : TermOnce es := by
  rcases h with ⟨pre, x, rfl, hpre, _⟩
  exact ⟨pre, _, rfl, rfl, hpre⟩

theorem notFoundOk_termOnce {t : Int} {es : List Ev}
    (h : NotFoundOk t es) : TermOnce es := by
  rcases h with ⟨pre, rfl, hpre⟩
  exact ⟨pre, _, rfl, rfl, hpre⟩

/-- Whatever the array (sorted or not), the binary-search loop emits
non-terminal events and then a single `found` or `not-found`. -/
theorem binLoop_shape (arr : List Int) (t : Int) :
    ∀ (fuel : Nat) (l r : Int), (r + 1 - l).toNat ≤ fuel →
      TermOnce (binLoop arr t l r) := by
  intro fuel
  induction fuel with
  | zero =>
      intro l r hm
      rw [binLoop]
      simp only [if_neg (show ¬ l ≤ r from by omega)]
      exact ⟨[], _, rfl, rfl, by simp⟩
  | succ fuel ih =>
      intro l r hm
      rw [binLoop]
      by_cases h : l ≤ r
      · simp only [if_pos h]
        by_cases h1 : getI arr ((l + r) / 2) = t
        · simp only [if_pos h1]
          refine ⟨[.rangeEv l r t, .compare [(l + r) / 2] (some t)], _, rfl, rfl, ?_⟩
          intro x hx
          rcases List.mem_pair.mp hx with rfl | rfl <;> rfl
        · simp only [if_neg h1]
          by_cases h2 : getI arr ((l + r) / 2) < t
          · simp only [if_pos h2]
            exact termOnce_consNT rfl
              (termOnce_consNT rfl (ih ((l + r) / 2 + 1) r (by omega)))
          · simp only [if_neg h2]
            exact termOnce_consNT rfl
              (termOnce_consNT rfl (ih l ((l + r) / 2 - 1) (by omega)))
      · simp only [if_neg h]
        exact ⟨[], _, rfl, rfl, by simp⟩

theorem linearSearch_termOnce (arr : List Int) (t : Int) :
    TermOnce (linearSearch arr t) := by
  by_cases ht : t ∈ arr
  · exact foundOkIn_termOnce ((linearSearch_behaves arr t).1 ht)
  · exact notFoundOk_termOnce ((linearSearch_behaves arr t).2 ht)

theorem binarySearch_termOnce (arr : List Int) (t : Int) :
    TermOnce (binarySearch arr t) :=
  binLoop_shape arr t (((arr.length : Int) - 1 + 1 - 0).toNat) 0 _ (le_refl _)

theorem jumpSearch_termOnce (arr : List Int) (t : Int) :
    TermOnce (jumpSearch arr t) := by
  by_cases hne : arr = []
  · subst hne
    rw [jumpSearch_empty]
    exact ⟨[], _, rfl, rfl, by simp⟩
  · by_cases ht : t ∈ arr
    · exact foundOkIn_termOnce ((jumpSearch_behaves arr t hne).1 ht)
    · exact notFoundOk_termOnce ((jumpSearch_behaves arr t hne).2 ht)

theorem interpolationSearch_termOnce (arr : List Int) (t : Int) :
    TermOnce (interpolationSearch arr t) := by
  by_cases hne : arr = []
  · subst hne
    rw [interpolationSearch_empty]
    exact ⟨[], _, rfl, rfl, by simp⟩
  · by_cases ht : t ∈ arr
    · exact foundOkIn_termOnce ((interpolationSearch_behaves arr t hne).1 ht)
    · exact notFoundOk_termOnce ((interpolationSearch_behaves arr t hne).2 ht)

theorem exponentialSearch_termOnce (arr : List Int) (t : Int) :
    TermOnce (exponentialSearch arr t) := by
  by_cases hne : arr = []
  · subst hne
    rw [exponentialSearch_empty]
    exact ⟨[], _, rfl, rfl, by simp⟩
  · by_cases ht : t ∈ arr
    · exact foundOkIn_termOnce ((exponentialSearch_behaves arr t hne).1 ht)
    · exact notFoundOk_termOnce ((exponentialSearch_behaves arr t hne).2 ht)

/-- The bubble-sort inner loop never emits a terminal event. -/
theorem bubbleInner_noTerm (steps : List Int) (i j : Nat) :
    ∀ e ∈ (bubbleInner steps i j).1, isTerm4 e = false := by
  induction steps, i, j using bubbleInner.induct with
  | case1 steps i j h hc s2 ih =>
      rw [bubbleInner]
      simp only [dif_pos h, if_pos hc]
      intro e he
      rcases List.mem_cons.mp he with rfl | he2
      · rfl
      rcases List.mem_cons.mp he2 with rfl | he3
      · rfl
      rcases List.mem_cons.mp he3 with rfl | he4
      · rfl
      · exact ih e he4
  | case2 steps i j h hc ih =>
      rw [bubbleInner]
      simp only [dif_pos h, if_neg hc]
      intro e he
      rcases List.mem_cons.mp he with rfl | he2
      · rfl
      rcases List.mem_cons.mp he2 with rfl | he3
      · rfl
      · exact ih e he3
  | case3 steps i j h =>
      rw [bubbleInner]
      simp [h]

theorem bubbleOuter_noTerm (steps : List Int) (i : Nat) :
    ∀ e ∈ (bubbleOuter steps i).1, isTerm4 e = false := by
  induction steps, i using bubbleOuter.induct with
  | case1 steps i h r ih =>
      rw [bubbleOuter]
      simp only [dif_pos h]
      intro e he
      rcases List.mem_append.mp he with he2 | he2
      · exact bubbleInner_noTerm steps i 0 e he2
      · exact ih e he2
  | case2 steps i h =>
      rw [bubbleOuter]
      simp [h]

theorem bubbleSort_noTerm (arr : List Int) :
    ∀ e ∈ bubbleSort arr, isTerm4 e = false :=
  bubbleOuter_noTerm arr 0

theorem selInner_noTerm (steps : List Int) (j minIdx : Nat) :
    ∀ e ∈ (selInner steps j minIdx).1, isTerm4 e = false := by
  induction j, minIdx using selInner.induct steps with
  | case1 j minIdx h hc ih =>
      rw [selInner]
      simp only [dif_pos h, if_pos hc]
      intro e he
      rcases List.mem_cons.mp he with rfl | he2
      · rfl
      rcases List.mem_cons.mp he2 with rfl | he3
      · rfl
      rcases List.mem_cons.mp he3 with rfl | he4
      · rfl
      · exact ih e he4
  | case2 j minIdx h hc ih =>
      rw [selInner]
      simp only [dif_pos h, if_neg hc]
      intro e he
      rcases List.mem_cons.mp he with rfl | he2
      · rfl
      rcases List.mem_cons.mp he2 with rfl | he3
      · rfl
      · exact ih e he3
  | case3 j minIdx h =>
      rw [selInner]
      simp [h]

theorem selOuter_noTerm (steps : List Int) (i : Nat) :
    ∀ e ∈ (selOuter steps i).1, isTerm4 e = false := by
  induction steps, i using selOuter.induct with
  | case1 steps i h r m hm s2 ih =>
      rw [selOuter]
      simp only [dif_pos h, if_pos hm]
      intro e he
      rcases List.mem_cons.mp he with rfl | he2
      · rfl
      rcases List.mem_append.mp he2 with he3 | he3
      · exact selInner_noTerm steps (i + 1) i e he3
      rcases List.mem_cons.mp he3 with rfl | he4
      · rfl
      rcases List.mem_cons.mp he4 with rfl | he5
      · rfl
      · exact ih e he5
  | case2 steps i h r m hm ih =>
      rw [selOuter]
      simp only [dif_pos h, if_neg hm]
      intro e he
      rcases List.mem_cons.mp he with rfl | he2
      · rfl
      rcases List.mem_append.mp he2 with he3 | he3
      · exact selInner_noTerm steps (i + 1) i e he3
      rcases List.mem_cons.mp he3 with rfl | he4
      · rfl
      · exact ih e he4
  | case3 steps i h =>
      rw [selOuter]
      simp [h]

theorem selectionSort_noTerm (arr : List Int) :
    ∀ e ∈ selectionSort arr, isTerm4 e = false := by
  intro e he
  rw [selectionSort] at he
  rcases List.mem_append.mp he with he2 | he2
  · exact selOuter_noTerm arr 0 e he2
  · rcases List.mem_singleton.mp he2 with rfl
    rfl

theorem insInner_noTerm (steps : List Int) (cur : Int) (j : Int) :
    ∀ e ∈ (insInner steps cur j).1, isTerm4 e = false := by
  induction steps, cur, j using insInner.induct with
  | case1 steps cur j hj hc s2 ih =>
      rw [insInner]
      simp only [dif_pos hj, if_pos hc]
      intro e he
      rcases List.mem_cons.mp he with rfl | he2
      · rfl
      rcases List.mem_cons.mp he2 with rfl | he3
      · rfl
      rcases List.mem_cons.mp he3 with rfl | he4
      · rfl
      · exact ih e he4
  | case2 steps cur j hj hc =>
      rw [insInner]
      simp only [dif_pos hj, if_neg hc]
      intro e he
      rcases List.mem_singleton.mp he with rfl
      rfl
  | case3 steps cur j hj =>
      rw [insInner]
      simp [hj]

theorem insOuter_noTerm (steps : List Int) (i : Nat) :
    ∀ e ∈ (insOuter steps i).1, isTerm4 e = false := by
  induction steps, i using insOuter.induct with
  | case1 steps i h cur r s3 ih =>
      rw [insOuter]
      simp only [dif_pos h]
      intro e he
      rcases List.mem_cons.mp he with rfl | he2
      · rfl
      rcases List.mem_append.mp he2 with he3 | he3
      · exact insInner_noTerm steps _ _ e he3
      rcases List.mem_cons.mp he3 with rfl | he4
      · rfl
      rcases List.mem_cons.mp he4 with rfl | he5
      · rfl
      · exact ih e he5
  | case2 steps i h =>
      rw [insOuter]
      simp [h]

theorem insertionSort_noTerm (arr : List Int) :
    ∀ e ∈ insertionSort arr, isTerm4 e = false :=
  insOuter_noTerm arr 1

/-- `found` / `not-found` / `error` events (the terminals merge sort must
never emit; its only terminal-class events are `complete`). -/
def isFNE (e : Ev) : Bool := isFoundEv e || isNotFoundEv e || isErrorEv e

theorem mergeLoop_noFNE (steps la ra : List Int) (l mid i j k : Nat) :
    ∀ e ∈ (mergeLoop steps la ra l mid i j k).1, isFNE e = false := by
  induction steps, la, ra, l, mid, i, j, k using mergeLoop.induct with
  | case1 steps la ra l mid i j k h hc s2 ih =>
      rw [mergeLoop]
      simp only [dif_pos h, if_pos hc]
      intro e he
      rcases List.mem_cons.mp he with rfl | he2
      · rfl
      rcases List.mem_cons.mp he2 with rfl | he3
      · rfl
      rcases List.mem_cons.mp he3 with rfl | he4
      · rfl
      · exact ih e he4
  | case2 steps la ra l mid i j k h hc s2 ih =>
      rw [mergeLoop]
      simp only [dif_pos h, if_neg hc]
      intro e he
      rcases List.mem_cons.mp he with rfl | he2
      · rfl
      rcases List.mem_cons.mp he2 with rfl | he3
      · rfl
      rcases List.mem_cons.mp he3 with rfl | he4
      · rfl
      · exact ih e he4
  | case3 steps la ra l mid i j k h h2 s2 ih =>
      rw [mergeLoop]
      simp only [dif_neg h, dif_pos h2]
      intro e he
      rcases List.mem_cons.mp he with rfl | he2
      · rfl
      · exact ih e he2
  | case4 steps la ra l mid i j k h h2 h3 s2 ih =>
      rw [mergeLoop]
      simp only [dif_neg h, dif_neg h2, dif_pos h3]
      intro e he
      rcases List.mem_cons.mp he with rfl | he2
      · rfl
      · exact ih e he2
  | case5 steps la ra l mid i j k h h2 h3 =>
      rw [mergeLoop]
      simp [h, h2, h3]

theorem mergeRun_noFNE (steps : List Int) (l mid r : Nat) :
    ∀ e ∈ (mergeRun steps l mid r).1, isFNE e = false := by
  rw [mergeRun]
  intro e he
  simp only [List.mem_cons, List.mem_append, List.mem_singleton,
    List.not_mem_nil, or_false] at he
  rcases he with (rfl | he) | rfl
  · rfl
  · exact mergeLoop_noFNE _ _ _ _ _ _ _ _ e he
  · rfl

theorem msHelper_noFNE (steps : List Int) (l r : Nat) :
    ∀ e ∈ (msHelper steps l r).1, isFNE e = false := by
  induction steps, l, r using msHelper.induct with
  | case1 steps l r h mid r1 ih1 ih1b ih2 =>
      rw [show r1 = msHelper steps l ((l + r) / 2) from rfl,
        show mid = (l + r) / 2 from rfl] at ih2
      rw [msHelper]
      simp only [dif_pos h]
      intro e he
      rcases List.mem_cons.mp he with rfl | he2
      · rfl
      rcases List.mem_append.mp he2 with he3 | he3
      rcases List.mem_append.mp he3 with he4 | he4
      · exact ih1b e he4
      · exact ih2 e he4
      · exact mergeRun_noFNE _ _ _ _ e he3
  | case2 steps l r h =>
      rw [msHelper]
      simp [h]

theorem mergeSort_noFNE (arr : List Int) :
    ∀ e ∈ mergeSort arr, isFNE e = false := by
  rw [mergeSort]
  by_cases h0 : arr.length = 0
  · rw [if_pos h0]
    simp
  · rw [if_neg h0]
    exact msHelper_noFNE arr 0 (arr.length - 1)

theorem mergeSort_small (arr : List Int) (h : arr.length ≤ 1) :
    mergeSort arr = [] := by
  rw [mergeSort]
  by_cases h0 : arr.length = 0
  · rw [if_pos h0]
  · rw [if_neg h0, msHelper]
    simp only [dif_neg (show ¬ (0 : Nat) < arr.length - 1 from by omega)]

theorem last_complete_shape (xs ms : List Ev) (lo hi : Int) (a : List Int) :
    ∃ pre lo2 hi2 a2, xs ++ (ms ++ [Ev.completeRange lo hi a]) =
      pre ++ [Ev.completeRange lo2 hi2 a2] :=
  ⟨xs ++ ms, lo, hi, a, by rw [List.append_assoc]⟩

/-- On arrays of length at least 2 the merge-sort stream is non-empty and
its last event is a `complete` (range) event. -/
theorem mergeSort_lastComplete (arr : List Int) (h2 : 2 ≤ arr.length) :
    ∃ pre lo hi a, mergeSort arr = pre ++ [.completeRange lo hi a] := by
  rw [mergeSort, if_neg (by omega), msHelper]
  simp only [dif_pos (show (0 : Nat) < arr.length - 1 from by omega)]
  simp only [mergeRun]
  exact last_complete_shape _ _ _ _ _

/-- Traversal-producer events: queue/stack snapshots, visits, found
notifications, backtracks. -/
def isTravEv : Ev → Bool
  | .stackEv _ => true
  | .queueEv _ => true
  | .visit _ _ _ => true
  | .found _ _ => true
  | .backtrack _ => true
  | _ => false

theorem isTravEv_not_stop {e : Ev} (h : isTravEv e = true) :
    isNotFoundEv e = false ∧ isErrorEv e = false ∧ isCompleteEv e = false := by
  cases e <;> simp_all [isTravEv, isNotFoundEv, isErrorEv, isCompleteEv]

theorem travEv_of_mem_iteVisit {e : Ev} {c : Prop} [Decidable c]
    {ii v : Int} {lv : Nat}
    (h : e ∈ (if c then [Ev.visit ii v lv] else [])) : isTravEv e = true := by
  split at h
  · rcases List.mem_singleton.mp h with rfl
    rfl
  · simp at h

/-- The BFS loop always ends in exactly one `complete` event, preceded
only by traversal events (`queue`, `visit`, possibly `found`). -/
theorem bfsLoop_shape (target : Option Int) (queue : List QEnt)
    (trav : List Int) (fnd : Bool) :
    ∃ pre tr f, bfsLoop target queue trav fnd = pre ++ [.completeTrav tr f] ∧
      ∀ e ∈ pre, isTravEv e = true := by
  induction queue, trav, fnd using bfsLoop.induct target with
  | case1 trav fnd =>
      rw [bfsLoop]
      exact ⟨[], trav, _, rfl, by simp⟩
  | case2 trav fnd e rest ih1 ih2 =>
      rw [bfsLoop]
      by_cases h : target = some e.value
      · simp only [if_pos h]
        rcases ih1 with ⟨pre, tr, f, heq, hpre⟩
        rw [heq]
        refine ⟨.queueEv _ :: .visit e.index e.value e.level ::
          .found e.index e.value :: pre, tr, f, rfl, ?_⟩
        intro x hx
        rcases List.mem_cons.mp hx with rfl | hx2
        · rfl
        rcases List.mem_cons.mp hx2 with rfl | hx3
        · rfl
        rcases List.mem_cons.mp hx3 with rfl | hx4
        · rfl
        · exact hpre x hx4
      · simp only [if_neg h]
        rcases ih2 with ⟨pre, tr, f, heq, hpre⟩
        rw [heq]
        refine ⟨.queueEv _ :: .visit e.index e.value e.level :: pre, tr, f,
          rfl, ?_⟩
        intro x hx
        rcases List.mem_cons.mp hx with rfl | hx2
        · rfl
        rcases List.mem_cons.mp hx2 with rfl | hx3
        · rfl
        · exact hpre x hx3

theorem breadthFirstSearch_shape (arr : List (Option Int)) (t : Option Int)
    (hne : arr ≠ []) :
    ∃ pre tr f, breadthFirstSearch arr t = pre ++ [.completeTrav tr f] ∧
      ∀ e ∈ pre, isTravEv e = true := by
  rw [breadthFirstSearch, if_neg (by simpa [List.isEmpty_iff] using hne),
    createBinaryTree, if_neg (by simpa [List.isEmpty_iff] using hne)]
  obtain ⟨n, hn⟩ : ∃ n, arr.length = n + 1 :=
    ⟨arr.length - 1, by have := List.length_pos.mpr hne; omega⟩
  rw [hn]
  simp only [buildFrom]
  exact bfsLoop_shape t _ [] false

/-- Every event yielded by `dfsHelper` is a traversal event (`stack`,
`visit`, `found`, `backtrack`). -/
theorem dfsHelper_events (tg : Option Int) (ord : DOrder) (t : BT) :
    ∀ (level : Nat) (stack : List Nat),
      ∀ e ∈ (dfsHelper tg ord t level stack).1, isTravEv e = true := by
  induction t with
  | nil =>
      intro level stack e he
      simp [dfsHelper] at he
  | node v i l r ihl ihr =>
      intro level stack e he
      simp only [dfsHelper] at he
      split at he
      · simp only [List.mem_cons, List.mem_singleton, List.not_mem_nil,
          or_false, or_assoc] at he
        rcases he with rfl | rfl | rfl <;> rfl
      · split at he
        · simp only [List.mem_cons, List.mem_append, List.not_mem_nil,
            or_false, or_assoc] at he
          rcases he with rfl | he | he
          · rfl
          · exact travEv_of_mem_iteVisit he
          · exact ihl _ _ e he
        · split at he
          · simp only [List.mem_cons, List.mem_append, List.mem_singleton,
              List.not_mem_nil, or_false, or_assoc] at he
            rcases he with rfl | he | he | rfl | rfl
            · rfl
            · exact travEv_of_mem_iteVisit he
            · exact ihl _ _ e he
            · rfl
            · rfl
          · split at he
            · simp only [List.mem_cons, List.mem_append, List.not_mem_nil,
                or_false, or_assoc] at he
              rcases he with rfl | he | he | he | he
              · rfl
              · exact travEv_of_mem_iteVisit he
              · exact ihl _ _ e he
              · exact travEv_of_mem_iteVisit he
              · exact ihr _ _ e he
            · split at he
              · simp only [List.mem_cons, List.mem_append, List.mem_singleton,
                  List.not_mem_nil, or_false, or_assoc] at he
                rcases he with rfl | he | he | he | he | rfl | rfl
                · rfl
                · exact travEv_of_mem_iteVisit he
                · exact ihl _ _ e he
                · exact travEv_of_mem_iteVisit he
                · exact ihr _ _ e he
                · rfl
                · rfl
              · simp only [List.mem_cons, List.mem_append, List.mem_singleton,
                  List.not_mem_nil, or_false, or_assoc] at he
                rcases he with rfl | he | he | he | he | he | rfl
                · rfl
                · exact travEv_of_mem_iteVisit he
                · exact ihl _ _ e he
                · exact travEv_of_mem_iteVisit he
                · exact ihr _ _ e he
                · exact travEv_of_mem_iteVisit he
                · rfl

theorem depthFirstSearch_shape (arr : List (Option Int)) (t : Option Int)
    (ord : DOrder) (hne : arr ≠ []) :
    ∃ pre tr f, depthFirstSearch arr t ord = pre ++ [.completeTrav tr f] ∧
      ∀ e ∈ pre, isTravEv e = true := by
  rw [depthFirstSearch, if_neg (by simpa [List.isEmpty_iff] using hne),
    createBinaryTree, if_neg (by simpa [List.isEmpty_iff] using hne)]
  obtain ⟨n, hn⟩ : ∃ n, arr.length = n + 1 :=
    ⟨arr.length - 1, by have := List.length_pos.mpr hne; omega⟩
  rw [hn]
  simp only [buildFrom]
  exact ⟨_, _, _, rfl, dfsHelper_events t ord _ 0 []⟩

/- ------------------------------------------------------------------
Frame lemmas (C10): every producer leaves every pre-existing heap cell,
in particular its input array, untouched.
------------------------------------------------------------------ -/

theorem bubbleInnerH_frame (s n : Nat) (r : Nat) (hr : r ≠ s) :
    ∀ (h : Heap) (i j : Nat), hread (bubbleInnerH h s n i j) r = hread h r := by
  intro h i j
  induction h, s, n, i, j using bubbleInnerH.induct with
  | case1 h s n i j hj st hc ih =>
      rw [bubbleInnerH]
      simp only [if_pos hj, if_pos hc]
      rw [ih hr, hread_hwrite_ne _ _ _ _ hr]
  | case2 h s n i j hj st hc ih =>
      rw [bubbleInnerH]
      simp only [if_pos hj, if_neg hc]
      exact ih hr
  | case3 h s n i j hj =>
      rw [bubbleInnerH]
      simp [hj]

theorem bubbleOuterH_frame (s n : Nat) (r : Nat) (hr : r ≠ s) :
    ∀ (h : Heap) (i : Nat), hread (bubbleOuterH h s n i) r = hread h r := by
  intro h i
  induction h, s, n, i using bubbleOuterH.induct with
  | case1 h s n i hi ih =>
      rw [bubbleOuterH]
      simp only [if_pos hi]
      rw [ih hr, bubbleInnerH_frame s n r hr]
  | case2 h s n i hi =>
      rw [bubbleOuterH]
      simp [hi]

theorem bubbleSortHeap_frame (h : Heap) (r : Nat) (hr : r < h.length) :
    hread (bubbleSortHeap h r) r = hread h r := by
  show hread (bubbleOuterH (h ++ [hread h r]) h.length (hread h r).length 0) r =
    hread h r
  rw [bubbleOuterH_frame h.length (hread h r).length r (by omega)]
  exact hread_halloc h _ r hr

theorem selOuterH_frame (s n : Nat) (r : Nat) (hr : r ≠ s) :
    ∀ (h : Heap) (i : Nat), hread (selOuterH h s n i) r = hread h r := by
  intro h i
  induction h, s, n, i using selOuterH.induct with
  | case1 h s n i hi st m hm ih =>
      rw [selOuterH]
      simp only [if_pos hi, if_pos hm]
      rw [ih hr, hread_hwrite_ne _ _ _ _ hr]
  | case2 h s n i hi st m hm ih =>
      rw [selOuterH]
      simp only [if_pos hi, if_neg hm]
      exact ih hr
  | case3 h s n i hi =>
      rw [selOuterH]
      simp [hi]

theorem selectionSortHeap_frame (h : Heap) (r : Nat) (hr : r < h.length) :
    hread (selectionSortHeap h r) r = hread h r := by
  show hread (selOuterH (h ++ [hread h r]) h.length (hread h r).length 0) r =
    hread h r
  rw [selOuterH_frame h.length (hread h r).length r (by omega)]
  exact hread_halloc h _ r hr

theorem insInnerH_frame (s : Nat) (cur : Int) (r : Nat) (hr : r ≠ s) :
    ∀ (h : Heap) (j : Int), hread (insInnerH h s cur j).1 r = hread h r := by
  intro h j
  induction h, s, cur, j using insInnerH.induct with
  | case1 h s cur j hj st hc ih =>
      rw [insInnerH]
      simp only [if_pos hj, if_pos hc]
      rw [ih hr, hread_hwrite_ne _ _ _ _ hr]
  | case2 h s cur j hj st hc =>
      rw [insInnerH]
      simp [hj, hc]
  | case3 h s cur j hj =>
      rw [insInnerH]
      simp [hj]

theorem insOuterH_frame (s n : Nat) (r : Nat) (hr : r ≠ s) :
    ∀ (h : Heap) (i : Nat), hread (insOuterH h s n i) r = hread h r := by
  intro h i
  induction h, s, n, i using insOuterH.induct with
  | case1 h s n i hi cur r2 ih =>
      rw [insOuterH]
      simp only [if_pos hi]
      rw [ih hr, hread_hwrite_ne _ _ _ _ hr, insInnerH_frame s _ r hr]
  | case2 h s n i hi =>
      rw [insOuterH]
      simp [hi]

theorem insertionSortHeap_frame (h : Heap) (r : Nat) (hr : r < h.length) :
    hread (insertionSortHeap h r) r = hread h r := by
  show hread (insOuterH (h ++ [hread h r]) h.length (hread h r).length 1) r =
    hread h r
  rw [insOuterH_frame h.length (hread h r).length r (by omega)]
  exact hread_halloc h _ r hr

theorem mergeLoopH_frame (s : Nat) (la ra : List Int) (r : Nat) (hr : r ≠ s) :
    ∀ (h : Heap) (i j k : Nat), hread (mergeLoopH h s la ra i j k) r = hread h r := by
  intro h i j k
  induction h, s, la, ra, i, j, k using mergeLoopH.induct with
  | case1 h s la ra i j k hc st hcmp ih =>
      rw [mergeLoopH]
      simp only [dif_pos hc, if_pos hcmp]
      rw [ih hr, hread_hwrite_ne _ _ _ _ hr]
  | case2 h s la ra i j k hc st hcmp ih =>
      rw [mergeLoopH]
      simp only [dif_pos hc, if_neg hcmp]
      rw [ih hr, hread_hwrite_ne _ _ _ _ hr]
  | case3 h s la ra i j k hc h2 ih =>
      rw [mergeLoopH]
      simp only [dif_neg hc, dif_pos h2]
      rw [ih hr, hread_hwrite_ne _ _ _ _ hr]
  | case4 h s la ra i j k hc h2 h3 ih =>
      rw [mergeLoopH]
      simp only [dif_neg hc, dif_neg h2, dif_pos h3]
      rw [ih hr, hread_hwrite_ne _ _ _ _ hr]
  | case5 h s la ra i j k hc h2 h3 =>
      rw [mergeLoopH]
      simp [hc, h2, h3]

theorem mergeRunH_frame (s : Nat) (l mid rr : Nat) (r : Nat) (hr : r ≠ s)
    (h : Heap) : hread (mergeRunH h s l mid rr) r = hread h r := by
  rw [mergeRunH]
  exact mergeLoopH_frame s _ _ r hr h 0 0 l

theorem msHelperH_frame (s : Nat) (r : Nat) (hr : r ≠ s) :
    ∀ (h : Heap) (l rb : Nat), hread (msHelperH h s l rb) r = hread h r := by
  intro h l rb
  induction h, s, l, rb using msHelperH.induct with
  | case1 h s l rb hc mid ihA ih1 ih2 =>
      rw [show mid = (l + rb) / 2 from rfl] at ih2
      rw [msHelperH]
      simp only [dif_pos hc]
      rw [mergeRunH_frame s _ _ _ r hr, ih2 hr, ih1 hr]
  | case2 h s l rb hc =>
      rw [msHelperH]
      simp [hc]

theorem mergeSortHeap_frame (h : Heap) (r : Nat) (hr : r < h.length) :
    hread (mergeSortHeap h r) r = hread h r := by
  rw [mergeSortHeap]
  by_cases h0 : (hread h r).length = 0
  · simp only [if_pos h0]
    exact hread_halloc h _ r hr
  · simp only [if_neg h0]
    show hread (msHelperH (h ++ [hread h r]) h.length 0 ((hread h r).length - 1))
      r = hread h r
    rw [msHelperH_frame h.length r (by omega)]
    exact hread_halloc h _ r hr

theorem bfsLoopH_frame (t : Nat) (r : Nat) (hr : r ≠ t) :
    ∀ (h : Heap) (queue : List QEnt), hread (bfsLoopH h t queue) r = hread h r := by
  intro h queue
  induction h, t, queue using bfsLoopH.induct with
  | case1 h t =>
      rw [bfsLoopH]
  | case2 h t e rest ih =>
      rw [bfsLoopH]
      rw [ih hr, hread_hwrite_ne _ _ _ _ hr]

theorem breadthFirstSearchHeap_frame (h : Heap) (r : Nat)
    (target : Option Int) (hr : r < h.length) :
    hread (breadthFirstSearchHeap h r target) r = hread h r := by
  rw [breadthFirstSearchHeap]
  by_cases he : ((hread h r).map some).isEmpty
  · simp only [if_pos he]
  · simp only [if_neg he]
    rcases hm : createBinaryTree ((hread h r).map some) with _ | t
    · exact hread_halloc h _ r hr
    · rcases t with _ | ⟨v, i, l, rt⟩
      · exact hread_halloc h _ r hr
      ·
        show hread (bfsLoopH (h ++ [[]]) h.length [⟨v, i, l, rt, 0⟩]) r =
          hread h r
        rw [bfsLoopH_frame h.length r (by omega)]
        exact hread_halloc h _ r hr

theorem dfsHelperH_frame (tg : Option Int) (ord : DOrder) (t : Nat)
    (r : Nat) (hr : r ≠ t) :
    ∀ (bt : BT) (h : Heap), hread (dfsHelperH tg ord t bt h).1 r = hread h r := by
  intro bt
  induction bt with
  | nil =>
      intro h
      rw [dfsHelperH]
  | node v i l rt ihl ihr =>
      intro h
      have hw : ∀ (hh : Heap) (vv : List Int), hread (hwrite hh t vv) r = hread hh r :=
        fun hh vv => hread_hwrite_ne hh t r vv hr
      simp only [dfsHelperH]
      repeat' split
      all_goals simp only [hw, ihl, ihr]

theorem depthFirstSearchHeap_frame (h : Heap) (r : Nat)
    (target : Option Int) (ord : DOrder) (hr : r < h.length) :
    hread (depthFirstSearchHeap h r target ord) r = hread h r := by
  rw [depthFirstSearchHeap]
  by_cases he : ((hread h r).map some).isEmpty
  · simp only [if_pos he]
  · simp only [if_neg he]
    rcases hm : createBinaryTree ((hread h r).map some) with _ | t
    · exact hread_halloc h _ r hr
    · rcases t with _ | ⟨v, i, l, rt⟩
      · exact hread_halloc h _ r hr
      ·
        show hread (dfsHelperH target ord h.length (.node v i l rt)
          (h ++ [[]])).1 r = hread h r
        rw [dfsHelperH_frame target ord h.length r (by omega)]
        exact hread_halloc h _ r hr

/- ------------------------------------------------------------------
Comparator-evaluation discipline (C8): in the instrumented traces every
`cmpEval` marker sits at the exact program point of a comparator
evaluation; the discipline asks that the event immediately before each
marker is the `compare` event announcing it.
------------------------------------------------------------------ -/

def isCompareEv : Ev → Bool
  | .compare _ _ => true
  | _ => false

/-- Scan a stream remembering the previous event; each marker must be
immediately preceded by a `compare` event. -/
def cmpOkFrom (prev : Option Ev) : List Ev → Bool
  | [] => true
  | e :: rest =>
      (if isMarker e then
        match prev with
        | some p => isCompareEv p
        | none => false
       else true) && cmpOkFrom (some e) rest

def cmpOk (es : List Ev) : Bool := cmpOkFrom none es

def lastOpt (p : Option Ev) (xs : List Ev) : Option Ev :=
  match xs.getLast? with
  | some e => some e
  | none => p

theorem lastOpt_cons (p : Option Ev) (a : Ev) (xs : List Ev) :
    lastOpt p (a :: xs) = lastOpt (some a) xs := by
  rw [lastOpt, lastOpt]
  cases xs with
  | nil => rfl
  | cons b ys =>
      rw [List.getLast?_cons_cons]
      rcases hg : (b :: ys).getLast? with _ | e
      · simp at hg
      · rfl

theorem cmpOkFrom_append (xs : List Ev) : ∀ (p : Option Ev) (ys : List Ev),
    cmpOkFrom p (xs ++ ys) = (cmpOkFrom p xs && cmpOkFrom (lastOpt p xs) ys) := by
  induction xs with
  | nil =>
      intro p ys
      simp [cmpOkFrom, lastOpt]
  | cons a xs ih =>
      intro p ys
      simp only [List.cons_append, cmpOkFrom]
      rw [show xs.append ys = xs ++ ys from rfl, ih (some a), lastOpt_cons,
        Bool.and_assoc]

theorem bubbleInner_cmpOk (steps : List Int) (i j : Nat) :
    ∀ p, cmpOkFrom p (bubbleInner steps i j).1 = true := by
  induction steps, i, j using bubbleInner.induct with
  | case1 steps i j h hc s2 ih =>
      intro p
      rw [bubbleInner]
      simp only [dif_pos h, if_pos hc]
      simpa [cmpOkFrom, isMarker, isCompareEv] using ih _
  | case2 steps i j h hc ih =>
      intro p
      rw [bubbleInner]
      simp only [dif_pos h, if_neg hc]
      simpa [cmpOkFrom, isMarker, isCompareEv] using ih _
  | case3 steps i j h =>
      intro p
      rw [bubbleInner]
      simp [h, cmpOkFrom]

theorem bubbleOuter_cmpOk (steps : List Int) (i : Nat) :
    ∀ p, cmpOkFrom p (bubbleOuter steps i).1 = true := by
  induction steps, i using bubbleOuter.induct with
  | case1 steps i h r ih =>
      intro p
      rw [bubbleOuter]
      simp only [dif_pos h]
      rw [cmpOkFrom_append, bubbleInner_cmpOk, ih, Bool.and_self]
  | case2 steps i h =>
      intro p
      rw [bubbleOuter]
      simp [h, cmpOkFrom]

theorem bubbleSort_cmpOk (arr : List Int) : cmpOk (bubbleSort arr) = true :=
  bubbleOuter_cmpOk arr 0 none

theorem selInner_cmpOk (steps : List Int) (j minIdx : Nat) :
    ∀ p, cmpOkFrom p (selInner steps j minIdx).1 = true := by
  induction j, minIdx using selInner.induct steps with
  | case1 j minIdx h hc ih =>
      intro p
      rw [selInner]
      simp only [dif_pos h, if_pos hc]
      simpa [cmpOkFrom, isMarker, isCompareEv] using ih _
  | case2 j minIdx h hc ih =>
      intro p
      rw [selInner]
      simp only [dif_pos h, if_neg hc]
      simpa [cmpOkFrom, isMarker, isCompareEv] using ih _
  | case3 j minIdx h =>
      intro p
      rw [selInner]
      simp [h, cmpOkFrom]

theorem selOuter_cmpOk (steps : List Int) (i : Nat) :
    ∀ p, cmpOkFrom p (selOuter steps i).1 = true := by
  induction steps, i using selOuter.induct with
  | case1 steps i h r m hm s2 ih =>
      intro p
      rw [selOuter]
      simp only [dif_pos h, if_pos hm]
      rw [show (Ev.sortingMark (i : Int) :: (selInner steps (i + 1) i).1) ++
        (Ev.swap (i : Int) ((selInner steps (i + 1) i).2 : Int)
          (swapAt steps i (selInner steps (i + 1) i).2) ::
          Ev.sortedEv [(i : Int)] ::
          (selOuter (swapAt steps i (selInner steps (i + 1) i).2) (i + 1)).1) =
        (Ev.sortingMark (i : Int) :: (selInner steps (i + 1) i).1) ++
        (Ev.swap (i : Int) ((selInner steps (i + 1) i).2 : Int)
          (swapAt steps i (selInner steps (i + 1) i).2) ::
          Ev.sortedEv [(i : Int)] ::
          (selOuter (swapAt steps i (selInner steps (i + 1) i).2) (i + 1)).1)
        from rfl, cmpOkFrom_append]
      rw [show cmpOkFrom p (Ev.sortingMark (i : Int) ::
        (selInner steps (i + 1) i).1) =
        cmpOkFrom (some (Ev.sortingMark (i : Int)))
          (selInner steps (i + 1) i).1 from by simp [cmpOkFrom, isMarker]]
      rw [selInner_cmpOk]
      simp only [Bool.true_and]
      simpa [cmpOkFrom, isMarker] using ih _
  | case2 steps i h r m hm ih =>
      intro p
      rw [selOuter]
      simp only [dif_pos h, if_neg hm]
      rw [cmpOkFrom_append]
      rw [show cmpOkFrom p (Ev.sortingMark (i : Int) ::
        (selInner steps (i + 1) i).1) =
        cmpOkFrom (some (Ev.sortingMark (i : Int)))
          (selInner steps (i + 1) i).1 from by simp [cmpOkFrom, isMarker]]
      rw [selInner_cmpOk]
      simp only [Bool.true_and]
      simpa [cmpOkFrom, isMarker] using ih _
  | case3 steps i h =>
      intro p
      rw [selOuter]
      simp [h, cmpOkFrom]

theorem selectionSort_cmpOk (arr : List Int) :
    cmpOk (selectionSort arr) = true := by
  rw [selectionSort, cmpOk, cmpOkFrom_append, selOuter_cmpOk]
  simp [cmpOkFrom, isMarker]

theorem mergeLoop_cmpOk (steps la ra : List Int) (l mid i j k : Nat) :
    ∀ p, cmpOkFrom p (mergeLoop steps la ra l mid i j k).1 = true := by
  induction steps, la, ra, l, mid, i, j, k using mergeLoop.induct with
  | case1 steps la ra l mid i j k h hc s2 ih =>
      intro p
      rw [show s2 = steps.set k (la.getD i 0) from rfl] at ih
      rw [mergeLoop]
      simp only [dif_pos h, if_pos hc]
      simpa [cmpOkFrom, isMarker, isCompareEv] using ih _
  | case2 steps la ra l mid i j k h hc s2 ih =>
      intro p
      rw [show s2 = steps.set k (ra.getD j 0) from rfl] at ih
      rw [mergeLoop]
      simp only [dif_pos h, if_neg hc]
      simpa [cmpOkFrom, isMarker, isCompareEv] using ih _
  | case3 steps la ra l mid i j k h h2 s2 ih =>
      intro p
      rw [show s2 = steps.set k (la.getD i 0) from rfl] at ih
      rw [mergeLoop]
      simp only [dif_neg h, dif_pos h2]
      simpa [cmpOkFrom, isMarker] using ih _
  | case4 steps la ra l mid i j k h h2 h3 s2 ih =>
      intro p
      rw [show s2 = steps.set k (ra.getD j 0) from rfl] at ih
      rw [mergeLoop]
      simp only [dif_neg h, dif_neg h2, dif_pos h3]
      simpa [cmpOkFrom, isMarker] using ih _
  | case5 steps la ra l mid i j k h h2 h3 =>
      intro p
      rw [mergeLoop]
      simp [h, h2, h3, cmpOkFrom]

theorem mergeRun_cmpOk (steps : List Int) (l mid r : Nat) :
    ∀ p, cmpOkFrom p (mergeRun steps l mid r).1 = true := by
  intro p
  rw [mergeRun]
  rw [show Ev.mergeEv (l : Int) (mid : Int) (r : Int) ::
      (mergeLoop steps (sliceCl steps l mid) (sliceCl steps (mid + 1) r)
        l mid 0 0 l).1 ++
      [Ev.completeRange (l : Int) (r : Int)
        (mergeLoop steps (sliceCl steps l mid) (sliceCl steps (mid + 1) r)
          l mid 0 0 l).2] =
    (Ev.mergeEv (l : Int) (mid : Int) (r : Int) ::
      (mergeLoop steps (sliceCl steps l mid) (sliceCl steps (mid + 1) r)
        l mid 0 0 l).1) ++
      [Ev.completeRange (l : Int) (r : Int)
        (mergeLoop steps (sliceCl steps l mid) (sliceCl steps (mid + 1) r)
          l mid 0 0 l).2] from rfl, cmpOkFrom_append]
  rw [show cmpOkFrom p (Ev.mergeEv (l : Int) (mid : Int) (r : Int) ::
      (mergeLoop steps (sliceCl steps l mid) (sliceCl steps (mid + 1) r)
        l mid 0 0 l).1) =
    cmpOkFrom (some (Ev.mergeEv (l : Int) (mid : Int) (r : Int)))
      (mergeLoop steps (sliceCl steps l mid) (sliceCl steps (mid + 1) r)
        l mid 0 0 l).1 from by simp [cmpOkFrom, isMarker]]
  rw [mergeLoop_cmpOk]
  simp [cmpOkFrom, isMarker]

theorem msHelper_cmpOk (steps : List Int) (l r : Nat) :
    ∀ p, cmpOkFrom p (msHelper steps l r).1 = true := by
  induction steps, l, r using msHelper.induct with
  | case1 steps l r h mid r1 ih1 ih1b ih2 =>
      rw [show r1 = msHelper steps l ((l + r) / 2) from rfl,
        show mid = (l + r) / 2 from rfl] at ih2
      intro p
      rw [msHelper]
      simp only [dif_pos h]
      rw [cmpOkFrom_append, cmpOkFrom_append]
      rw [show cmpOkFrom p (Ev.divide (l : Int) (r : Int) ::
          (msHelper steps l ((l + r) / 2)).1) =
        cmpOkFrom (some (Ev.divide (l : Int) (r : Int)))
          (msHelper steps l ((l + r) / 2)).1 from by simp [cmpOkFrom, isMarker]]
      rw [ih1b, ih2, mergeRun_cmpOk]
      rfl
  | case2 steps l r h =>
      intro p
      rw [msHelper]
      simp [h, cmpOkFrom]

theorem mergeSort_cmpOk (arr : List Int) : cmpOk (mergeSort arr) = true := by
  rw [mergeSort]
  by_cases h0 : arr.length = 0
  · rw [if_pos h0]
    rfl
  · rw [if_neg h0]
    exact msHelper_cmpOk arr 0 (arr.length - 1) none

/- ------------------------------------------------------------------
Tree-builder indexing (C5).  When the input has no `null` slots the
cursor `i` stays in lockstep with the dequeued parent (`i = 2p + 1`), so
children land at `2p+1` / `2p+2`.  A `null` slot advances the cursor
without enqueueing a node, which breaks the lockstep (the counterexample
for the claim as written).
------------------------------------------------------------------ -/

theorem getDO_mem (l : List (Option Int)) {p : Nat} (hp : p < l.length) :
    l.getD p none ∈ l := by
  rw [List.getD_eq_getElem?_getD, List.getElem?_eq_getElem hp]
  exact List.getElem_mem hp

/-- Queue/cursor lockstep invariant of `createBinaryTree`'s loop on
null-free arrays: starting from parent `p` with the queue holding exactly
the created-but-unprocessed indices `p, …, min(n, 2p+1) - 1` and cursor
`2p+1`, the recorded assignments are exactly the level-order child edges
`(q, 2q+1, left)` and `(q, 2q+2, right)` for `q ≥ p` with the child slot
in range. -/
theorem assignLoop_allSome (arr : List (Option Int))
    (hall : ∀ x ∈ arr, x.isSome = true) :
    ∀ (fuel p : Nat), arr.length - p ≤ fuel →
      ∀ x : Nat × Nat × Bool,
        x ∈ assignLoop arr
            (List.range' p (min arr.length (2 * p + 1) - p)) (2 * p + 1) ↔
          (p ≤ x.1 ∧ x.2.1 < arr.length ∧
            ((x.2.2 = true ∧ x.2.1 = 2 * x.1 + 1) ∨
             (x.2.2 = false ∧ x.2.1 = 2 * x.1 + 2))) := by
  intro fuel
  induction fuel with
  | zero =>
      intro p hm x
      have hc : min arr.length (2 * p + 1) - p = 0 := by omega
      rw [hc]
      rw [show List.range' p 0 = [] from rfl, assignLoop]
      constructor
      · intro hx
        simp at hx
      · rintro ⟨h1, h2, h3⟩
        exfalso
        rcases h3 with ⟨_, h4⟩ | ⟨_, h4⟩ <;> omega
  | succ fuel ih =>
      intro p hm x
      by_cases hp : arr.length ≤ p
      · have hc : min arr.length (2 * p + 1) - p = 0 := by omega
        rw [hc]
        rw [show List.range' p 0 = [] from rfl, assignLoop]
        constructor
        · intro hx
          simp at hx
        · rintro ⟨h1, h2, h3⟩
          exfalso
          rcases h3 with ⟨_, h4⟩ | ⟨_, h4⟩ <;> omega
      · push_neg at hp
        by_cases hL : 2 * p + 1 < arr.length
        · have hmin : min arr.length (2 * p + 1) = 2 * p + 1 := by omega
          have hc : min arr.length (2 * p + 1) - p = p + 1 := by omega
          rw [hc, List.range'_succ, assignLoop]
          simp only [dif_pos hL]
          have hokL : (arr.getD (2 * p + 1) none).isSome = true :=
            hall _ (getDO_mem arr hL)
          simp only [hokL, if_true]
          have hq1 : List.range' (p + 1) p ++ [2 * p + 1] =
              List.range' (p + 1) (p + 1) := by
            rw [List.range'_concat]
            congr 2
            omega
          by_cases hR : 2 * p + 1 + 1 < arr.length
          · have hokR : (2 * p + 1 + 1 < arr.length ∧
                (arr.getD (2 * p + 1 + 1) none).isSome = true) :=
              ⟨hR, hall _ (getDO_mem arr hR)⟩
            simp only [if_pos hokR, hq1]
            have hq2 : List.range' (p + 1) (p + 1) ++ [2 * p + 1 + 1] =
                List.range' (p + 1) (min arr.length (2 * (p + 1) + 1) -
                  (p + 1)) := by
              rw [show min arr.length (2 * (p + 1) + 1) - (p + 1) = (p + 1) + 1
                from by omega]
              nth_rewrite 2 [List.range'_concat]
              congr 2
              omega
            rw [hq2, show 2 * p + 1 + 2 = 2 * (p + 1) + 1 from by omega]
            have hrec := ih (p + 1) (by omega) x
            constructor
            · intro hx
              rcases List.mem_append.mp hx with hx2 | hx2
              · rcases List.mem_append.mp hx2 with hx3 | hx3
                · rcases List.mem_singleton.mp hx3 with rfl
                  exact ⟨le_refl p, hL, Or.inl ⟨rfl, rfl⟩⟩
                · rcases List.mem_singleton.mp hx3 with rfl
                  exact ⟨le_refl p, hR, Or.inr ⟨rfl,
                    show (2 * p + 1 + 1 : Nat) = 2 * p + 2 from by omega⟩⟩
              · rcases hrec.mp hx2 with ⟨h1, h2, h3⟩
                exact ⟨by omega, h2, h3⟩
            · rintro ⟨h1, h2, h3⟩
              rcases Nat.eq_or_lt_of_le h1 with heq | hlt
              · obtain ⟨x1, x2, xb⟩ := x
                simp only at heq h2 h3 ⊢
                subst heq
                rcases h3 with ⟨hb, hv⟩ | ⟨hb, hv⟩
                · subst hb hv
                  exact List.mem_append.mpr (Or.inl
                    (List.mem_append.mpr (Or.inl (List.mem_singleton.mpr rfl))))
                · subst hb
                  refine List.mem_append.mpr (Or.inl
                    (List.mem_append.mpr (Or.inr (List.mem_singleton.mpr ?_))))
                  simp only [Prod.mk.injEq]
                  exact ⟨trivial, by omega, trivial⟩
              · exact List.mem_append.mpr (Or.inr (hrec.mpr ⟨by omega, h2, h3⟩))
          · have hokR : ¬ (2 * p + 1 + 1 < arr.length ∧
                (arr.getD (2 * p + 1 + 1) none).isSome = true) := by
              intro hcon
              exact hR hcon.1
            simp only [if_neg hokR, hq1]
            have hq2 : List.range' (p + 1) (p + 1) =
                List.range' (p + 1) (min arr.length (2 * (p + 1) + 1) -
                  (p + 1)) := by
              congr 1
              omega
            rw [hq2, show 2 * p + 1 + 2 = 2 * (p + 1) + 1 from by omega]
            have hrec := ih (p + 1) (by omega) x
            constructor
            · intro hx
              rcases List.mem_append.mp hx with hx2 | hx2
              · rcases List.mem_append.mp hx2 with hx3 | hx3
                · rcases List.mem_singleton.mp hx3 with rfl
                  exact ⟨le_refl p, hL, Or.inl ⟨rfl, rfl⟩⟩
                · simp at hx3
              · rcases hrec.mp hx2 with ⟨h1, h2, h3⟩
                exact ⟨by omega, h2, h3⟩
            · rintro ⟨h1, h2, h3⟩
              rcases Nat.eq_or_lt_of_le h1 with heq | hlt
              · obtain ⟨x1, x2, xb⟩ := x
                simp only at heq h2 h3 ⊢
                subst heq
                rcases h3 with ⟨hb, hv⟩ | ⟨hb, hv⟩
                · subst hb hv
                  exact List.mem_append.mpr (Or.inl
                    (List.mem_append.mpr (Or.inl (List.mem_singleton.mpr rfl))))
                · omega
              · exact List.mem_append.mpr (Or.inr (hrec.mpr ⟨by omega, h2, h3⟩))
        · have hc : min arr.length (2 * p + 1) - p =
              (min arr.length (2 * p + 1) - p - 1) + 1 := by omega
          rw [hc, List.range'_succ, assignLoop]
          simp only [dif_neg hL]
          constructor
          · intro hx
            simp at hx
          · rintro ⟨h1, h2, h3⟩
            exfalso
            rcases h3 with ⟨_, h4⟩ | ⟨_, h4⟩ <;> omega

theorem childSlots_allSome (arr : List (Option Int))
    (hall : ∀ x ∈ arr, x.isSome = true) (hn : arr ≠ []) :
    ∀ x : Nat × Nat × Bool,
      x ∈ childSlots arr ↔
        (x.2.1 < arr.length ∧
          ((x.2.2 = true ∧ x.2.1 = 2 * x.1 + 1) ∨
           (x.2.2 = false ∧ x.2.1 = 2 * x.1 + 2))) := by
  intro x
  have hlen : 0 < arr.length := List.length_pos.mpr hn
  have h0 : List.range' 0 (min arr.length (2 * 0 + 1) - 0) = [0] := by
    rw [show min arr.length (2 * 0 + 1) - 0 = 1 from by omega]
    rfl
  have := assignLoop_allSome arr hall arr.length 0 (by omega) x
  rw [h0] at this
  rw [childSlots, show (1 : Nat) = 2 * 0 + 1 from rfl, this]
  constructor
  · rintro ⟨_, h2, h3⟩
    exact ⟨h2, h3⟩
  · rintro ⟨h2, h3⟩
    exact ⟨Nat.zero_le _, h2, h3⟩

theorem leftIdx_allSome (arr : List (Option Int))
    (hall : ∀ x ∈ arr, x.isSome = true) (hn : arr ≠ []) (p : Nat) :
    leftIdx (childSlots arr) p =
      (if 2 * p + 1 < arr.length then some (2 * p + 1) else none) := by
  by_cases hlt : 2 * p + 1 < arr.length
  · rw [if_pos hlt]
    have hmem : ((p, 2 * p + 1, true) : Nat × Nat × Bool) ∈ childSlots arr :=
      (childSlots_allSome arr hall hn _).mpr ⟨hlt, Or.inl ⟨rfl, rfl⟩⟩
    have hsome : ((childSlots arr).find?
        (fun e => e.1 == p && e.2.2 == true)).isSome := by
      rw [List.find?_isSome]
      exact ⟨_, hmem, by simp⟩
    rcases Option.isSome_iff_exists.mp hsome with ⟨a, ha⟩
    have hpa := List.find?_some ha
    have hma := List.mem_of_find?_eq_some ha
    rcases (childSlots_allSome arr hall hn a).mp hma with ⟨h2, h3⟩
    simp only [Bool.and_eq_true, beq_iff_eq] at hpa
    rw [leftIdx, ha, Option.map_some']
    rcases h3 with ⟨_, hv⟩ | ⟨hb, _⟩
    · rw [hv, hpa.1]
    · rw [hb] at hpa
      exact absurd hpa.2 (by simp)
  · rw [if_neg hlt, leftIdx]
    rcases hfind : (childSlots arr).find? (fun e => e.1 == p && e.2.2 == true)
      with _ | a
    · rw [hfind]
      rfl
    · exfalso
      have hpa := List.find?_some hfind
      have hma := List.mem_of_find?_eq_some hfind
      rcases (childSlots_allSome arr hall hn a).mp hma with ⟨h2, h3⟩
      simp only [Bool.and_eq_true, beq_iff_eq] at hpa
      rcases h3 with ⟨_, hv⟩ | ⟨hb, _⟩
      · rw [hpa.1] at hv
        omega
      · rw [hb] at hpa
        exact absurd hpa.2 (by simp)

theorem rightIdx_allSome (arr : List (Option Int))
    (hall : ∀ x ∈ arr, x.isSome = true) (hn : arr ≠ []) (p : Nat) :
    rightIdx (childSlots arr) p =
      (if 2 * p + 2 < arr.length then some (2 * p + 2) else none) := by
  by_cases hlt : 2 * p + 2 < arr.length
  · rw [if_pos hlt]
    have hmem : ((p, 2 * p + 2, false) : Nat × Nat × Bool) ∈ childSlots arr :=
      (childSlots_allSome arr hall hn _).mpr ⟨hlt, Or.inr ⟨rfl, rfl⟩⟩
    have hsome : ((childSlots arr).find?
        (fun e => e.1 == p && e.2.2 == false)).isSome := by
      rw [List.find?_isSome]
      exact ⟨_, hmem, by simp⟩
    rcases Option.isSome_iff_exists.mp hsome with ⟨a, ha⟩
    have hpa := List.find?_some ha
    have hma := List.mem_of_find?_eq_some ha
    rcases (childSlots_allSome arr hall hn a).mp hma with ⟨h2, h3⟩
    simp only [Bool.and_eq_true, beq_iff_eq] at hpa
    rw [rightIdx, ha, Option.map_some']
    rcases h3 with ⟨hb, _⟩ | ⟨_, hv⟩
    · rw [hb] at hpa
      exact absurd hpa.2 (by simp)
    · rw [hv, hpa.1]
  · rw [if_neg hlt, rightIdx]
    rcases hfind : (childSlots arr).find? (fun e => e.1 == p && e.2.2 == false)
      with _ | a
    · rw [hfind]
      rfl
    · exfalso
      have hpa := List.find?_some hfind
      have hma := List.mem_of_find?_eq_some hfind
      rcases (childSlots_allSome arr hall hn a).mp hma with ⟨h2, h3⟩
      simp only [Bool.and_eq_true, beq_iff_eq] at hpa
      rcases h3 with ⟨hb, _⟩ | ⟨_, hv⟩
      · rw [hb] at hpa
        exact absurd hpa.2 (by simp)
      · rw [hpa.1] at hv
        omega

/- ------------------------------------------------------------------
Claim theorems.
------------------------------------------------------------------ -/

def isSwapEv : Ev → Bool
  | .swap _ _ _ => true
  | _ => false

/-- The values carried by the `visit` events of a stream, in order. -/
def visitValues (es : List Ev) : List Int :=
  es.filterMap (fun e => match e with | .visit _ v _ => some v | _ => none)

/-- C1.  Stream termination, as the code actually behaves: every search
run is non-empty and ends with exactly one of the four terminal events
(nothing terminal before it); the bubble/selection/insertion sort streams
contain no terminal event at all; merge sort emits no `found`/`not-found`/
`error`, ends with a `complete` event when the input has at least two
elements and is empty otherwise; BFS and DFS on non-empty input end with
exactly one `complete`, with no other `complete`/`not-found`/`error`
before it (though a `found` may occur earlier).  The claim as written —
one terminal event terminating *every* producer's stream — fails for the
sorts. -/
theorem C1_stream_termination :
    (∀ (arr : List Int) (t : Int), TermOnce (linearSearch arr t)) ∧
    (∀ (arr : List Int) (t : Int), TermOnce (binarySearch arr t)) ∧
    (∀ (arr : List Int) (t : Int), TermOnce (jumpSearch arr t)) ∧
    (∀ (arr : List Int) (t : Int), TermOnce (interpolationSearch arr t)) ∧
    (∀ (arr : List Int) (t : Int), TermOnce (exponentialSearch arr t)) ∧
    (∀ arr : List Int, ∀ e ∈ bubbleSort arr, isTerm4 e = false) ∧
    (∀ arr : List Int, ∀ e ∈ selectionSort arr, isTerm4 e = false) ∧
    (∀ arr : List Int, ∀ e ∈ insertionSort arr, isTerm4 e = false) ∧
    (∀ arr : List Int, ∀ e ∈ mergeSort arr, isFNE e = false) ∧
    (∀ arr : List Int, 2 ≤ arr.length →
      ∃ pre lo hi a, mergeSort arr = pre ++ [.completeRange lo hi a]) ∧
    (∀ arr : List Int, arr.length ≤ 1 → mergeSort arr = []) ∧
    (∀ (arr : List (Option Int)) (t : Option Int), arr ≠ [] →
      ∃ pre tr f, breadthFirstSearch arr t = pre ++ [.completeTrav tr f] ∧
        ∀ e ∈ pre, isNotFoundEv e = false ∧ isErrorEv e = false ∧
          isCompleteEv e = false) ∧
    (∀ (arr : List (Option Int)) (t : Option Int) (ord : DOrder), arr ≠ [] →
      ∃ pre tr f, depthFirstSearch arr t ord = pre ++ [.completeTrav tr f] ∧
        ∀ e ∈ pre, isNotFoundEv e = false ∧ isErrorEv e = false ∧
          isCompleteEv e = false) := by
  refine ⟨linearSearch_termOnce, binarySearch_termOnce, jumpSearch_termOnce,
    interpolationSearch_termOnce, exponentialSearch_termOnce,
    bubbleSort_noTerm, selectionSort_noTerm, insertionSort_noTerm,
    mergeSort_noFNE, mergeSort_lastComplete, mergeSort_small, ?_, ?_⟩
  · intro arr t hne
    obtain ⟨pre, tr, f, heq, hpre⟩ := breadthFirstSearch_shape arr t hne
    exact ⟨pre, tr, f, heq, fun e he => isTravEv_not_stop (hpre e he)⟩
  · intro arr t ord hne
    obtain ⟨pre, tr, f, heq, hpre⟩ := depthFirstSearch_shape arr t ord hne
    exact ⟨pre, tr, f, heq, fun e he => isTravEv_not_stop (hpre e he)⟩

theorem C1_stream_termination_witness :
    (2 ≤ ([3, 1, 2] : List Int).length ∧
      ∃ pre lo hi a, mergeSort [3, 1, 2] = pre ++ [.completeRange lo hi a]) ∧
    (([] : List Int).length ≤ 1 ∧ mergeSort ([] : List Int) = []) ∧
    (([some 1, some 2] : List (Option Int)) ≠ [] ∧
      ∃ pre tr f, breadthFirstSearch [some 1, some 2] none =
          pre ++ [.completeTrav tr f] ∧
        ∀ e ∈ pre, isNotFoundEv e = false ∧ isErrorEv e = false ∧
          isCompleteEv e = false) ∧
    (([some 1, some 2] : List (Option Int)) ≠ [] ∧
      ∃ pre tr f, depthFirstSearch [some 1, some 2] none .preorder =
          pre ++ [.completeTrav tr f] ∧
        ∀ e ∈ pre, isNotFoundEv e = false ∧ isErrorEv e = false ∧
          isCompleteEv e = false) := by
  obtain ⟨h1, h2, h3, h4, h5, h6, h7, h8, h9, h10, h11, h12, h13⟩ :=
    C1_stream_termination
  exact ⟨⟨by decide, h10 [3, 1, 2] (by decide)⟩,
    ⟨by decide, h11 [] (by decide)⟩,
    ⟨by decide, h12 [some 1, some 2] none (by decide)⟩,
    ⟨by decide, h13 [some 1, some 2] none .preorder (by decide)⟩⟩

theorem C1_counterexample :
    bubbleSort [2, 1] ≠ [] ∧ ∀ e ∈ bubbleSort [2, 1], isTerm4 e = false := by
  have h : bubbleSort [2, 1] =
      [.compare [0, 1] none, .cmpEval 0 1, .swap 0 1 [1, 2]] := by
    simp [bubbleSort, bubbleOuter, bubbleInner, swapAt]
  rw [h]
  exact ⟨by decide, by decide⟩

/-- C2.  Search functional correctness: linear search satisfies the
found/not-found contract on every input; binary search satisfies it on
sorted inputs (it runs on the array as given); the three remapping
searches satisfy it on every non-empty input (they sort internally).  The
claim as written — every search on every array — fails for binary search
on unsorted arrays. -/
theorem C2_search_correctness :
    (∀ (arr : List Int) (t : Int), SearchBehaves (linearSearch arr t) arr t) ∧
    (∀ (arr : List Int) (t : Int), List.Sorted (· ≤ ·) arr →
      SearchBehaves (binarySearch arr t) arr t) ∧
    (∀ (arr : List Int) (t : Int), arr ≠ [] →
      SearchBehaves (jumpSearch arr t) arr t) ∧
    (∀ (arr : List Int) (t : Int), arr ≠ [] →
      SearchBehaves (interpolationSearch arr t) arr t) ∧
    (∀ (arr : List Int) (t : Int), arr ≠ [] →
      SearchBehaves (exponentialSearch arr t) arr t) :=
  ⟨linearSearch_behaves,
    fun arr t hs => ⟨fun ht => binarySearch_found arr t hs ht,
      fun ht => binarySearch_nf arr t ht⟩,
    jumpSearch_behaves, interpolationSearch_behaves, exponentialSearch_behaves⟩

theorem C2_search_correctness_witness :
    (List.Sorted (· ≤ ·) ([1, 2] : List Int) ∧
      SearchBehaves (binarySearch [1, 2] 1) [1, 2] 1) ∧
    (([2, 1] : List Int) ≠ [] ∧ SearchBehaves (jumpSearch [2, 1] 1) [2, 1] 1) ∧
    (([2, 1] : List Int) ≠ [] ∧
      SearchBehaves (interpolationSearch [2, 1] 1) [2, 1] 1) ∧
    (([2, 1] : List Int) ≠ [] ∧
      SearchBehaves (exponentialSearch [2, 1] 1) [2, 1] 1) := by
  obtain ⟨h1, h2, h3, h4, h5⟩ := C2_search_correctness
  exact ⟨⟨by decide, h2 [1, 2] 1 (by decide)⟩,
    ⟨by decide, h3 [2, 1] 1 (by decide)⟩,
    ⟨by decide, h4 [2, 1] 1 (by decide)⟩,
    ⟨by decide, h5 [2, 1] 1 (by decide)⟩⟩

theorem C2_counterexample :
    (1 : Int) ∈ ([3, 1] : List Int) ∧
      binarySearch [3, 1] 1 =
        [.rangeEv 0 1 1, .compare [0] (some 1), .notFound 1] ∧
      ∀ e ∈ binarySearch [3, 1] 1, isFoundEv e = false := by
  have h : binarySearch [3, 1] 1 =
      [.rangeEv 0 1 1, .compare [0] (some 1), .notFound 1] := by
    simp [binarySearch, binLoop, getI]
  refine ⟨by decide, h, ?_⟩
  rw [h]
  decide

/-- C3.  Empty input: the three remapping searches (jump, interpolation,
exponential) emit a single terminal `error` event; linear and binary
search instead run their loops zero times and emit a single terminal
`not-found` event.  No search raises an exception (all are total
functions of their input).  The claim as written — a single `error` for
every search on empty input — fails for linear and binary search. -/
theorem C3_empty_input :
    (∀ t : Int, jumpSearch [] t = [.errorEv]) ∧
    (∀ t : Int, interpolationSearch [] t = [.errorEv]) ∧
    (∀ t : Int, exponentialSearch [] t = [.errorEv]) ∧
    (∀ t : Int, linearSearch [] t = [.notFound t]) ∧
    (∀ t : Int, binarySearch [] t = [.notFound t]) :=
  ⟨jumpSearch_empty, interpolationSearch_empty, exponentialSearch_empty,
    linearSearch_empty, binarySearch_empty⟩

theorem C3_counterexample :
    linearSearch [] 5 = [.notFound 5] ∧ isErrorEv (.notFound 5) = false :=
  ⟨linearSearch_empty 5, by decide⟩

/-- C4.  Replaying every mutation snapshot of any sort producer over the
input array yields exactly the reference ascending sort of the input
(`refSort`, which is sorted and a permutation of the input); concretely,
`bubbleSort [5,3,8,1]` replays to `[1,3,5,8]` and its first `swap` event
carries the snapshot `[3,5,8,1]`. -/
theorem C4_sort_replay :
    (∀ arr : List Int, replay arr (bubbleSort arr) = refSort arr) ∧
    (∀ arr : List Int, replay arr (selectionSort arr) = refSort arr) ∧
    (∀ arr : List Int, replay arr (insertionSort arr) = refSort arr) ∧
    (∀ arr : List Int, replay arr (mergeSort arr) = refSort arr) ∧
    (∀ arr : List Int,
      List.Sorted (· ≤ ·) (refSort arr) ∧ (refSort arr).Perm arr) ∧
    replay [5, 3, 8, 1] (bubbleSort [5, 3, 8, 1]) = [1, 3, 5, 8] ∧
    (bubbleSort [5, 3, 8, 1]).find? isSwapEv =
      some (.swap 0 1 [3, 5, 8, 1]) := by
  refine ⟨bubbleSort_replay, selectionSort_replay, insertionSort_replay,
    mergeSort_replay, fun arr => ⟨refSort_sorted arr, refSort_perm arr⟩, ?_, ?_⟩
  · rw [bubbleSort_replay]
    decide
  · simp [bubbleSort, bubbleOuter, bubbleInner, swapAt, isSwapEv]

/-- C5.  Level-order indexing of the tree builder: on arrays with no
`null` slots, the builder attaches exactly the children `2p+1` (left) and
`2p+2` (right) to the node at position `p`, whenever those slots are in
range.  With `null` slots present the cursor advances past the hole while
the queue does not, so the claim as written fails: a non-null node can be
attached under a different parent than `floor((i-1)/2)`. -/
theorem C5_tree_indexing :
    ∀ arr : List (Option Int), (∀ x ∈ arr, x.isSome = true) → arr ≠ [] →
      ∀ p : Nat,
        leftIdx (childSlots arr) p =
          (if 2 * p + 1 < arr.length then some (2 * p + 1) else none) ∧
        rightIdx (childSlots arr) p =
          (if 2 * p + 2 < arr.length then some (2 * p + 2) else none) :=
  fun arr hall hn p =>
    ⟨leftIdx_allSome arr hall hn p, rightIdx_allSome arr hall hn p⟩

theorem C5_tree_indexing_witness :
    (∀ x ∈ ([some 1, some 2, some 3] : List (Option Int)), x.isSome = true) ∧
    ([some 1, some 2, some 3] : List (Option Int)) ≠ [] ∧
    (leftIdx (childSlots [some 1, some 2, some 3]) 0 =
        (if 2 * 0 + 1 < ([some 1, some 2, some 3] :
          List (Option Int)).length then some (2 * 0 + 1) else none) ∧
      rightIdx (childSlots [some 1, some 2, some 3]) 0 =
        (if 2 * 0 + 2 < ([some 1, some 2, some 3] :
          List (Option Int)).length then some (2 * 0 + 2) else none)) :=
  ⟨by decide, by decide,
    C5_tree_indexing [some 1, some 2, some 3] (by decide) (by decide) 0⟩

theorem C5_counterexample :
    leftIdx (childSlots [some 1, none, some 3, some 4]) 2 = some 3 ∧
      (3 - 1) / 2 = 1 ∧ (1 : Nat) ≠ 2 := by
  refine ⟨?_, by decide, by decide⟩
  simp [childSlots, assignLoop, leftIdx]

/-- C6.  DFS visit order on the level-order array `[1,2,3]` with no
target: preorder visits `[1,2,3]` and inorder visits `[2,1,3]` as
claimed, but postorder visits `[2,3,1]` (left, right, root), not the
claimed `[3,2,1]`. -/
theorem C6_dfs_orders :
    visitValues (depthFirstSearch [some 1, some 2, some 3] none .preorder) =
        [1, 2, 3] ∧
    visitValues (depthFirstSearch [some 1, some 2, some 3] none .inorder) =
        [2, 1, 3] ∧
    visitValues (depthFirstSearch [some 1, some 2, some 3] none .postorder) =
        [2, 3, 1] := by
  refine ⟨?_, ?_, ?_⟩ <;>
    simp [depthFirstSearch, createBinaryTree, buildFrom, childSlots,
      assignLoop, leftIdx, rightIdx, slotVal, dfsHelper, visitValues]

theorem C6_counterexample :
    visitValues (depthFirstSearch [some 1, some 2, some 3] none .postorder) =
        [2, 3, 1] ∧ ([2, 3, 1] : List Int) ≠ [3, 2, 1] := by
  refine ⟨?_, by decide⟩
  simp [depthFirstSearch, createBinaryTree, buildFrom, childSlots,
    assignLoop, leftIdx, rightIdx, slotVal, dfsHelper, visitValues]

/-- C7.  The index-remapping adapter: the sorted value list is
non-decreasing and a permutation of the input; for every sorted position
`p` the recorded original index is in range and reads back the sorted
value; equal values keep their original relative order (stability); and
the recorded indices are a permutation of `0..n-1`.  (The remap is a pure
function of the input, so determinism is by construction.) -/
theorem C7_remap :
    ∀ arr : List Int,
      List.Sorted (· ≤ ·) (sortedVals arr) ∧
      (sortedVals arr).Perm arr ∧
      (∀ p : Nat, p < arr.length →
        arr.getD (origIdx arr p) 0 = (sortedVals arr).getD p 0 ∧
          origIdx arr p < arr.length) ∧
      StabOk (sortedWithIdx arr) ∧
      ((sortedWithIdx arr).map (·.2)).Perm (List.range arr.length) :=
  fun arr =>
    ⟨sortedVals_sorted arr, sortedVals_perm arr,
      fun _ hp => ⟨(origIdx_spec arr hp).2, (origIdx_spec arr hp).1⟩,
      sortedWithIdx_stab arr, sortedWithIdx_idx_perm arr⟩

theorem C7_remap_witness :
    (0 : Nat) < ([2, 1, 2] : List Int).length ∧
      ([2, 1, 2] : List Int).getD (origIdx [2, 1, 2] 0) 0 =
          (sortedVals [2, 1, 2]).getD 0 0 ∧
        origIdx [2, 1, 2] 0 < ([2, 1, 2] : List Int).length :=
  ⟨by decide, (C7_remap [2, 1, 2]).2.2.1 0 (by decide)⟩

/-- C8.  Comparator discipline: in bubble, selection and merge sort every
comparator evaluation (marked `cmpEval` in the trace at the exact
evaluation point) is immediately preceded by the `compare` event naming
the two positions.  Insertion sort violates the claim: it evaluates the
comparator in the `while` condition before yielding `compare`, and the
final failing evaluation yields no `compare` at all — witnessed already
on the two-element array `[1, 2]`. -/
theorem C8_compare_before_eval :
    (∀ arr : List Int, cmpOk (bubbleSort arr) = true) ∧
    (∀ arr : List Int, cmpOk (selectionSort arr) = true) ∧
    (∀ arr : List Int, cmpOk (mergeSort arr) = true) ∧
    cmpOk (insertionSort [1, 2]) = false := by
  refine ⟨bubbleSort_cmpOk, selectionSort_cmpOk, mergeSort_cmpOk, ?_⟩
  simp [insertionSort, insOuter, insInner, getI, cmpOk, cmpOkFrom, isMarker,
    isCompareEv]

theorem C8_counterexample :
    insertionSort [1, 2] =
      [.currentEv 1, .cmpEval 0 1, .insertEv 1 [1, 2], .sortedEv [0, 1]] ∧
    cmpOk [Ev.currentEv 1, .cmpEval 0 1, .insertEv 1 [1, 2],
      .sortedEv [0, 1]] = false := by
  refine ⟨?_, by decide⟩
  simp [insertionSort, insOuter, insInner, getI]
  decide

/-- C9.  Interpolation search terminates: its stream never exceeds
`n + 2` events; the loop bails out with `not-found` as soon as the
computed probe position repeats the previous one or leaves the window;
and on `[2,2,2,2]` with target `5` the whole run is the single event
`not-found` (equal-endpoints branch). -/
theorem C9_interp_termination :
    (∀ (arr : List Int) (t : Int),
      (interpolationSearch arr t).length ≤ arr.length + 2) ∧
    (∀ (sv : List Int) (ix : List (Int × Nat)) (t low high lastPos : Int),
      (low ≤ high ∧ getI sv low ≤ t ∧ t ≤ getI sv high) →
      ¬ getI sv high = getI sv low →
      (low + (high - low) * (t - getI sv low) /
          (getI sv high - getI sv low) = lastPos ∨
        low + (high - low) * (t - getI sv low) /
          (getI sv high - getI sv low) < low ∨
        high < low + (high - low) * (t - getI sv low) /
          (getI sv high - getI sv low)) →
      interpLoop sv ix t low high lastPos = [.notFound t]) ∧
    interpolationSearch [2, 2, 2, 2] 5 = [.notFound 5] := by
  refine ⟨interpolationSearch_len, ?_, ?_⟩
  · intro sv ix t low high lastPos hg hne hbail
    exact interpLoop_degenerate sv ix t low high lastPos hg hne hbail
  · simp [interpolationSearch, interpLoop, sortedVals, sortedWithIdx, withIdx,
      getI, pairLe]

theorem C9_interp_termination_witness :
    ((0 : Int) ≤ 1 ∧ getI [1, 3] 0 ≤ 2 ∧ (2 : Int) ≤ getI [1, 3] 1) ∧
    ¬ getI [1, 3] 1 = getI [1, 3] 0 ∧
    (0 + (1 - 0) * (2 - getI [1, 3] 0) / (getI [1, 3] 1 - getI [1, 3] 0) =
        0 ∨
      0 + (1 - 0) * (2 - getI [1, 3] 0) / (getI [1, 3] 1 - getI [1, 3] 0) <
        0 ∨
      1 < 0 + (1 - 0) * (2 - getI [1, 3] 0) /
        (getI [1, 3] 1 - getI [1, 3] 0)) ∧
    interpLoop [1, 3] [] 2 0 1 0 = [.notFound 2] :=
  ⟨by decide, by decide, by decide,
    C9_interp_termination.2.1 [1, 3] [] 2 0 1 0 (by decide) (by decide)
      (by decide)⟩

/-- C10.  Frame property: after any producer runs, the heap cell holding
its input array is unchanged — the sorts write only their freshly
allocated private copy, the searches write nothing (the remap sorts a
fresh pair array), and the traversals write only the fresh `traversal`
array. -/
theorem C10_no_input_mutation :
    ∀ (h : Heap) (r : Nat), r < h.length →
      hread (bubbleSortHeap h r) r = hread h r ∧
      hread (selectionSortHeap h r) r = hread h r ∧
      hread (insertionSortHeap h r) r = hread h r ∧
      hread (mergeSortHeap h r) r = hread h r ∧
      (∀ t : Int, hread (linearSearchHeap h r t) r = hread h r) ∧
      (∀ t : Int, hread (binarySearchHeap h r t) r = hread h r) ∧
      (∀ t : Int, hread (jumpSearchHeap h r t) r = hread h r) ∧
      (∀ t : Int, hread (interpolationSearchHeap h r t) r = hread h r) ∧
      (∀ t : Int, hread (exponentialSearchHeap h r t) r = hread h r) ∧
      (∀ t : Option Int, hread (breadthFirstSearchHeap h r t) r = hread h r) ∧
      (∀ (t : Option Int) (ord : DOrder),
        hread (depthFirstSearchHeap h r t ord) r = hread h r) :=
  fun h r hr =>
    ⟨bubbleSortHeap_frame h r hr, selectionSortHeap_frame h r hr,
      insertionSortHeap_frame h r hr, mergeSortHeap_frame h r hr,
      fun _ => rfl, fun _ => rfl, fun _ => rfl, fun _ => rfl, fun _ => rfl,
      fun t => breadthFirstSearchHeap_frame h r t hr,
      fun t ord => depthFirstSearchHeap_frame h r t ord hr⟩

theorem C10_no_input_mutation_witness :
    (0 : Nat) < ([[1, 2]] : Heap).length ∧
      hread (bubbleSortHeap [[1, 2]] 0) 0 = hread [[1, 2]] 0 :=
  ⟨by decide, (C10_no_input_mutation [[1, 2]] 0 (by decide)).1⟩
